import Mathlib

/-!
shapes96: SSD1306 OLED driver, shadow buffer and addressing.

A shallow embedding of `shapes96.c`.  The module's global variables become the
fields of `State`; every `write(file_i2c, buf, n)` call appends the `n` bytes
of `buf`, as one packet, to `State.written`.

Conventions of the embedding:

* `int` values are `Int`, and `+`, `-`, `*` are computed on `Int` without
  wrap-around: signed overflow is undefined in C, and the definitions agree
  with the source as long as no intermediate `int` value leaves the `int`
  range (`fitsInt`).  A theorem whose statement depends on such a value carries
  the bound that keeps it in range as a hypothesis.  The bit operators `&`, `|`, `~` act on the 32-bit
  two's-complement pattern of their operands (`bits32`), and a conversion to
  `unsigned char` keeps the low eight bits (`toUChar`).
* `unsigned char` values, buffer bytes and packet bytes are `Nat`.
* `ucScreen` is a function from the byte index to the byte; only the indices
  `0 .. 1023` exist in the C array.  A `memcpy` whose destination leaves the
  array (or whose length overflows the 129-byte staging buffer of
  `oledWriteDataBlock`) is undefined behaviour in C; the model records it by
  raising `State.overrun` and leaves the array as it was.
* the glyph tables `ucFont` and `ucSmallFont` are defined outside the
  repository's sources, so they are parameters (index to byte).
-/

namespace Shapes96

/-! ## Constants of `shapes96.h` -/

/-- The enum constant OLED_128x32. -/
def OLED_128x32 : Int := 1
/-- The enum constant OLED_128x64. -/
def OLED_128x64 : Int := 2
/-- The enum constant OLED_132x64. -/
def OLED_132x64 : Int := 3
/-- The enum constant OLED_64x32. -/
def OLED_64x32 : Int := 4

/-- The enum constant FONT_NORMAL (8x8). -/
def FONT_NORMAL : Int := 0
/-- The enum constant FONT_BIG (16x24). -/
def FONT_BIG : Int := 1
/-- The enum constant FONT_SMALL (6x8). -/
def FONT_SMALL : Int := 2

/-! ## Machine-level helpers -/

/-- The 32-bit two's-complement bit pattern of an `int`. -/
def bits32 (v : Int) : Nat := (v % 4294967296).toNat

/-- Conversion of a bit pattern to `unsigned char`: the low eight bits. -/
def toUChar (n : Nat) : Nat := n % 256

/-- The bit pattern of `~v` for a 32-bit pattern `v`. -/
def not32 (n : Nat) : Nat := 0xFFFFFFFF ^^^ n

/-- The effect of `memcpy(&dst[off], src, src.length)` on a byte array. -/
def memcpy (dst : Nat → Nat) (off : Nat) (src : List Nat) : Nat → Nat :=
  fun j => if off ≤ j ∧ j < off + src.length then src.getD (j - off) 0 else dst j

/-! ## Module state -/

/-- The global variables of `shapes96.c`, the packets handed to `write`, and
the undefined-behaviour marker. -/
structure State where
  /-- The handle `file_i2c`; zero means that the session is not initialized. -/
  file_i2c : Int
  /-- The global `oled_type`. -/
  oled_type : Int
  /-- The global `oled_flip`. -/
  oled_flip : Int
  /-- The global `_width`. -/
  _width : Int
  /-- The global `_height`. -/
  _height : Int
  /-- The global `iScreenOffset`: current write offset of screen data. -/
  iScreenOffset : Int
  /-- The array `ucScreen[1024]`: local copy of the image buffer. -/
  ucScreen : Nat → Nat
  /-- Every packet passed to `write(file_i2c, ...)`, oldest first. -/
  written : List (List Nat)
  /-- Raised when a `memcpy` left its destination array. -/
  overrun : Bool

/-- The state of the module when the program starts: all statics are zero. -/
def State.boot : State :=
  { file_i2c := 0, oled_type := 0, oled_flip := 0, _width := 0, _height := 0,
    iScreenOffset := 0, ucScreen := fun _ => 0, written := [], overrun := false }

/-! ## Commands, cursor and block writes -/

/-- The function `oledWriteCommand`: one packet, command introducer then `c`. -/
def oledWriteCommand (s : State) (c : Nat) : State :=
  { s with written := s.written ++ [[0x00, c]] }

/-- The function `oledWriteCommand2`: one packet with a command and its operand. -/
def oledWriteCommand2 (s : State) (c d : Nat) : State :=
  { s with written := s.written ++ [[0x00, c, d]] }

/-- The function `oledSetContrast`. -/
def oledSetContrast (s : State) (ucContrast : Nat) : Int × State :=
  if s.file_i2c = 0 then (-1, s)
  else (0, oledWriteCommand2 s 0x81 ucContrast)

/-- The function `oledSetPosition`: latch the shadow offset, apply the offsets of
the panel variant, send page, low column nibble and high column nibble. -/
def oledSetPosition (s : State) (x y : Int) : State :=
  let s0 := { s with iScreenOffset := (y * 128) + x }
  let xy : Int × Int :=
    if s.oled_type = OLED_64x32 then
      (x + 32, if s.oled_flip = 0 then y + 4 else y)
    else if s.oled_type = OLED_132x64 then (x + 2, y)
    else (x, y)
  let s1 := oledWriteCommand s0 (toUChar (0xb0 ||| bits32 xy.2))
  let s2 := oledWriteCommand s1 (toUChar (0x00 ||| (bits32 xy.1 &&& 0xf)))
  oledWriteCommand s2 (toUChar (0x10 ||| (bits32 (xy.1 >>> (4 : Nat)) &&& 0xf)))

/-- The function `oledWriteDataBlock`: send the data marker and the bytes as one
packet, keep a copy in `ucScreen` at `iScreenOffset`, advance the offset. -/
def oledWriteDataBlock (s : State) (ucBuf : List Nat) : State :=
  let iLen : Int := ucBuf.length
  let fits : Bool := decide (iLen ≤ 128 ∧ 0 ≤ s.iScreenOffset ∧ s.iScreenOffset + iLen ≤ 1024)
  { s with
    written := s.written ++ [0x40 :: ucBuf]
    ucScreen := if fits then memcpy s.ucScreen s.iScreenOffset.toNat ucBuf else s.ucScreen
    overrun := s.overrun || !fits
    iScreenOffset := s.iScreenOffset + iLen }

/-! ## Pixel engine -/

/-- The byte `oledSetPixel` derives from the stored byte `ucOld`: bit `y & 7`
cleared, then set again when the colour is non-zero. -/
def pixelByte (ucOld : Nat) (y : Int) (ucColor : Nat) : Nat :=
  let uc := toUChar (ucOld &&& not32 (0x1 <<< (bits32 y &&& 7)))
  if ucColor ≠ 0 then toUChar (uc ||| (0x1 <<< (bits32 y &&& 7))) else uc

/-- The function `oledSetPixel`.  The index `(y >> 3) * 128 + x` is computed
without wrap-around; it is the index of the source as long as the product and
the sum stay in the `int` range. -/
def oledSetPixel (s : State) (x y : Int) (ucColor : Nat) : Int × State :=
  if s.file_i2c = 0 then (-1, s)
  else
    let i : Int := ((y >>> (3 : Nat)) * 128) + x
    if i < 0 ∨ i > 1023 then (-1, s)
    else
      let ucOld := s.ucScreen i.toNat
      let uc := pixelByte ucOld y ucColor
      if uc ≠ ucOld then
        (0, oledWriteDataBlock (oledSetPosition s x (y >>> (3 : Nat))) [uc])
      else (0, s)

/-! ## Loops, text and fill -/

/-- A counted loop `for (i = 0; i < n; i++) body`, threading the module state. -/
def forLoop (n : Nat) (body : Nat → State → State) (s : State) : State :=
  (List.range n).foldl (fun st i => body i st) s

/-- The `len` bytes of a glyph table that start at index `start`. -/
def fontSlice (font : Nat → Nat) (start len : Nat) : List Nat :=
  (List.range len).map fun k => font (start + k)

/-- The function `oledWriteString`; `szMsg` lists the characters before the
terminating NUL as `unsigned char` values.  The sums and products (`iLen + x`,
`limit - x`, `x * 8`, ...) are computed without wrap-around; they are those of
the source as long as they stay in the `int` range. -/
def oledWriteString (ucFont ucSmallFont : Nat → Nat) (s : State) (x y : Int)
    (szMsg : List Nat) (iSize : Int) : Int × State :=
  if s.file_i2c = 0 then (-1, s)
  else if iSize < FONT_NORMAL ∨ iSize > FONT_SMALL then (-1, s)
  else
    let iLen : Int := szMsg.length
    if iSize = FONT_BIG then
      let iLen := if iLen + x > 8 then 8 - x else iLen
      if iLen < 0 then (-1, s)
      else
        let x := x * 16
        (0, forLoop iLen.toNat (fun i st =>
          let g := 9728 + szMsg.getD i 0 * 64
          let st := oledSetPosition st (x + ((i : Int) * 16)) y
          let st := oledWriteDataBlock st (fontSlice ucFont g 16)
          let st := oledSetPosition st (x + ((i : Int) * 16)) (y + 1)
          let st := oledWriteDataBlock st (fontSlice ucFont (g + 16) 16)
          let st := oledSetPosition st (x + ((i : Int) * 16)) (y + 2)
          oledWriteDataBlock st (fontSlice ucFont (g + 32) 16)) s)
    else if iSize = FONT_NORMAL then
      let s := oledSetPosition s (x * 8) y
      let iLen := if iLen + x > 16 then 16 - x else iLen
      if iLen < 0 then (-1, s)
      else
        (0, forLoop iLen.toNat (fun i st =>
          oledWriteDataBlock st (fontSlice ucFont (szMsg.getD i 0 * 8) 8)) s)
    else
      let s := oledSetPosition s (x * 6) y
      let iLen := if iLen + x > 21 then 21 - x else iLen
      if iLen < 0 then (-1, s)
      else
        (0, forLoop iLen.toNat (fun i st =>
          oledWriteDataBlock st (fontSlice ucSmallFont (szMsg.getD i 0 * 6) 6)) s)

/-- The function `oledFill`. -/
def oledFill (s : State) (ucData : Nat) : Int × State :=
  if s.file_i2c = 0 then (-1, s)
  else
    let iLines : Nat := if s.oled_type = OLED_128x32 ∨ s.oled_type = OLED_64x32 then 4 else 8
    let iCols : Nat := if s.oled_type = OLED_64x32 then 4 else 8
    let temp := List.replicate 128 ucData
    (0, forLoop iLines (fun y st =>
      oledWriteDataBlock (oledSetPosition st 0 y) (temp.take (iCols * 16))) s)

/-- The function `oledPrintf`.  The text `buf` stands for what `vsprintf` stored
from the format and its arguments, `r` being its length; a text that does not
fit `char buf[2048]` overruns it. -/
def oledPrintf (ucFont ucSmallFont : Nat → Nat) (s : State) (x y : Int)
    (buf : List Nat) (iSize : Int) : Int × State :=
  let r : Int := buf.length
  let s0 := { s with overrun := s.overrun || decide (2048 ≤ buf.length) }
  (r, (oledWriteString ucFont ucSmallFont s0 x y buf iSize).2)

/-! ## Session set-up and tear-down -/

/-- The table `oled64_initbuf` of `oledInit`. -/
def oled64_initbuf : List Nat :=
  [0x00, 0xae, 0xa8, 0x3f, 0xd3, 0x00, 0x40, 0xa1, 0xc8,
   0xda, 0x12, 0x81, 0xff, 0xa4, 0xa6, 0xd5, 0x80, 0x8d, 0x14,
   0xaf, 0x20, 0x02]

/-- The table `oled32_initbuf` of `oledInit`. -/
def oled32_initbuf : List Nat :=
  [0x00, 0xae, 0xd5, 0x80, 0xa8, 0x1f, 0xd3, 0x00, 0x40, 0x8d, 0x14, 0xa1, 0xc8, 0xda, 0x02,
   0x81, 0x7f, 0xd9, 0xf1, 0xdb, 0x40, 0xa4, 0xa6, 0xaf]

/-- The function `oledInit`; `fd` is what `open` returned and `rc` what `ioctl`
returned (evaluated only when `open` succeeded). -/
def oledInit (s : State) (fd rc : Int) (iType bFlip bInvert : Int) : Int × State :=
  let s := { s with oled_type := iType, oled_flip := bFlip }
  if fd < 0 then (1, { s with file_i2c := 0 })
  else if rc < 0 then (1, { s with file_i2c := 0 })
  else
    let s := { s with file_i2c := fd }
    let s :=
      if iType = OLED_128x32 then
        { s with _width := 128, _height := 32, written := s.written ++ [oled32_initbuf] }
      else
        { s with _width := 128, _height := 64, written := s.written ++ [oled64_initbuf] }
    let s := if bInvert ≠ 0 then { s with written := s.written ++ [[0, 0xa7]] } else s
    let s :=
      if bFlip ≠ 0 then { s with written := s.written ++ [[0, 0xa0], [0, 0xc0]] } else s
    (0, s)

/-- The function `oledShutdown`. -/
def oledShutdown (s : State) : State :=
  if s.file_i2c ≠ 0 then { oledWriteCommand s 0xaE with file_i2c := 0 } else s

/-! ## Line rasterization -/

/-- The loop of `oledLine`: the pixels passed to `oledSetPixel`, in order.  The
loop is cut after `fuel` iterations, in which case the result is `none`.
`2 * err` and `err ± dx, dy` are computed without wrap-around; they are those
of the source as long as they stay in the `int` range, which holds while `dx`
and `dy` stay below 2^31 / 3. -/
def lineLoop : Nat → Int → Int → Int → Int → Int → Int → Int → Int → Int →
    Option (List (Int × Int))
  | 0, _, _, _, _, _, _, _, _, _ => none
  | fuel + 1, x0, y0, x1, y1, dx, dy, sx, sy, err =>
    if x0 = x1 ∧ y0 = y1 then some [(x0, y0)]
    else
      let e2 := 2 * err
      let err1 := if e2 > -dy then err - dy else err
      let x0n := if e2 > -dy then x0 + sx else x0
      let err2 := if e2 < dx then err1 + dx else err1
      let y0n := if e2 < dx then y0 + sy else y0
      (lineLoop fuel x0n y0n x1 y1 dx dy sx sy err2).map fun rest => (x0, y0) :: rest

/-- The pixels `oledLine` requests for the given end points. -/
def linePixels (fuel : Nat) (x0 y0 x1 y1 : Int) : Option (List (Int × Int)) :=
  let dx := |x1 - x0|
  let dy := |y1 - y0|
  let sx : Int := if x0 < x1 then 1 else -1
  let sy : Int := if y0 < y1 then 1 else -1
  lineLoop fuel x0 y0 x1 y1 dx dy sx sy (dx - dy)

/-- Successive `oledSetPixel` calls whose results are discarded, as every shape
primitive issues them. -/
def plot (s : State) (pts : List (Int × Int)) (ucColor : Nat) : State :=
  pts.foldl (fun st p => (oledSetPixel st p.1 p.2 ucColor).2) s

/-- The function `oledLine`: it plots the pixels of its loop and returns 0. -/
def oledLine (fuel : Nat) (s : State) (x0 y0 x1 y1 : Int) (ucColor : Nat) :
    Option (Int × State) :=
  (linePixels fuel x0 y0 x1 y1).map fun pts => (0, plot s pts ucColor)

/-! ## Vocabulary of the specification -/

/-- The three packets `oledSetPosition` sends for `(x, y)` on a panel of type
`t` with flip flag `flip`, computed the way the function does. -/
def positionPackets (t flip x y : Int) : List (List Nat) :=
  let xy : Int × Int :=
    if t = OLED_64x32 then (x + 32, if flip = 0 then y + 4 else y)
    else if t = OLED_132x64 then (x + 2, y)
    else (x, y)
  [[0x00, toUChar (0xb0 ||| bits32 xy.2)],
   [0x00, toUChar (0x00 ||| (bits32 xy.1 &&& 0xf))],
   [0x00, toUChar (0x10 ||| (bits32 (xy.1 >>> (4 : Nat)) &&& 0xf))]]

/-- Controller column for logical column `x`: the 64x32 panel sits 32 columns
into the controller memory, the 132x64 controller shows its columns 2 .. 129. -/
def correctedColumn (t : Int) (x : Nat) : Nat :=
  if t = OLED_64x32 then x + 32 else if t = OLED_132x64 then x + 2 else x

/-- Controller page for logical page `y`: the 64x32 panel starts at page 4
unless the display is flipped. -/
def correctedPage (t flip : Int) (y : Nat) : Nat :=
  if t = OLED_64x32 ∧ flip = 0 then y + 4 else y

/-- The address commands for logical `(x, y)`: page select, low column nibble,
high column nibble, each behind the command introducer. -/
def addressCommands (t flip : Int) (x y : Nat) : List (List Nat) :=
  [[0x00, 0xB0 ||| correctedPage t flip y],
   [0x00, correctedColumn t x &&& 0x0F],
   [0x00, 0x10 ||| ((correctedColumn t x >>> 4) &&& 0x0F)]]

/-- Page rows of a panel variant (its height divided by 8): 4 for the 32-row
panels OLED_128x32 and OLED_64x32, 8 for the 64-row ones. -/
def panelPages (t : Int) : Nat :=
  if t = OLED_128x32 ∨ t = OLED_64x32 then 4 else 8

/-- Visible columns of a panel variant: 64 for OLED_64x32, otherwise 128 (the
132-column controller shows 128 of its columns). -/
def panelWidth (t : Int) : Nat :=
  if t = OLED_64x32 then 64 else 128

/-! ## The display controller, as far as the mirror claim needs it -/

/-- Page-addressed display RAM with its latched cursor. -/
structure Device where
  /-- The addressed page. -/
  page : Nat
  /-- The column pointer. -/
  col : Nat
  /-- The RAM byte at a page and a column. -/
  ram : Nat → Nat → Nat

/-- One command byte: `B0..B7` select the page, `00..0F` set the low nibble of
the column pointer, `10..1F` its high nibble; other commands leave RAM and
cursor alone. -/
def Device.command (d : Device) (c : Nat) : Device :=
  if 0xB0 ≤ c ∧ c ≤ 0xB7 then { d with page := c - 0xB0 }
  else if c ≤ 0x0F then { d with col := (d.col / 16) * 16 + c }
  else if 0x10 ≤ c ∧ c ≤ 0x1F then { d with col := (c - 0x10) * 16 + d.col % 16 }
  else d

/-- One data byte: stored at the cursor, then the column pointer moves on
within the addressed page. -/
def Device.data (d : Device) (b : Nat) : Device :=
  { d with
    ram := fun p c => if p = d.page ∧ c = d.col then b else d.ram p c
    col := d.col + 1 }

/-- One packet: a command packet `[0x00, c]` or a data packet `0x40 :: bytes`. -/
def Device.receive (d : Device) (pkt : List Nat) : Device :=
  match pkt with
  | [0x00, c] => d.command c
  | 0x40 :: bytes => bytes.foldl Device.data d
  | _ => d

/-- The controller after a sequence of packets. -/
def Device.run (d : Device) (pkts : List (List Nat)) : Device :=
  pkts.foldl Device.receive d

/-- The shadow buffer mirrors the device on the visible cells of the panel. -/
def Mirror (s : State) (d : Device) : Prop :=
  ∀ page col : Nat, page < panelPages s.oled_type → col < panelWidth s.oled_type →
    s.ucScreen (page * 128 + col) =
      d.ram (correctedPage s.oled_type s.oled_flip page) (correctedColumn s.oled_type col)

/-- The mirror invariant of a running session against the controller that
started as `d0` and received every packet written so far; `t` and `flip` are
the panel type and flip flag of the session. -/
def MirrorInv (d0 : Device) (t flip : Int) (s : State) : Prop :=
  s.oled_type = t ∧ s.oled_flip = flip ∧ s.file_i2c ≠ 0 ∧ s.overrun = false ∧
    Mirror s (Device.run d0 s.written)

/-- The mirror invariant together with a cursor latched at logical column `x`
of page `y`, in the session and in the controller alike. -/
def MirrorAt (d0 : Device) (t flip : Int) (s : State) (x y : Nat) : Prop :=
  MirrorInv d0 t flip s ∧ s.iScreenOffset = ((y * 128 + x : Nat) : Int) ∧
    (Device.run d0 s.written).page = correctedPage t flip y ∧
    (Device.run d0 s.written).col = correctedColumn t x

/-- One call of the drawing interface, for sequences of calls. -/
inductive Call where
  /-- A call `oledSetPixel(x, y, ucColor)`. -/
  | setPixel (x y : Int) (ucColor : Nat)
  /-- A call `oledFill(ucData)`. -/
  | fill (ucData : Nat)
  /-- A call `oledWriteString(x, y, szMsg, iSize)`. -/
  | writeString (x y : Int) (szMsg : List Nat) (iSize : Int)

/-- The state after one call, its return value dropped. -/
def Call.run (ucFont ucSmallFont : Nat → Nat) (s : State) : Call → State
  | .setPixel x y ucColor => (oledSetPixel s x y ucColor).2
  | .fill ucData => (oledFill s ucData).2
  | .writeString x y szMsg iSize => (oledWriteString ucFont ucSmallFont s x y szMsg iSize).2

/-- Calls whose coordinates stay on the rows of the panel: a pixel with
0 ≤ x < 128 on one of the panel's pixel rows, any fill, a text that starts at a
non-negative cell and whose glyph rows (three pages for the big font, one
otherwise) are pages of the panel. -/
def Call.inRange (t : Int) : Call → Prop
  | .setPixel x y _ => 0 ≤ x ∧ x < 128 ∧ 0 ≤ y ∧ y < 8 * (panelPages t : Int)
  | .fill _ => True
  | .writeString x y _ iSize =>
      0 ≤ x ∧ 0 ≤ y ∧ y + (if iSize = FONT_BIG then 3 else 1) ≤ (panelPages t : Int)

/-- The state after a sequence of calls. -/
def runCalls (ucFont ucSmallFont : Nat → Nat) (s : State) (calls : List Call) : State :=
  calls.foldl (Call.run ucFont ucSmallFont) s

/-! ## Shape primitives -/

/-- The values taken by the variable of a loop `for (v = lo; v <= hi; v++)`. -/
def intRange (lo hi : Int) : List Int :=
  (List.range (hi - lo + 1).toNat).map fun (k : Nat) => lo + (k : Int)

/-- The values taken by the variable of a loop `for (i = 0; i < n; i++)`. -/
def upTo (n : Int) : List Int :=
  (List.range n.toNat).map fun (k : Nat) => (k : Int)

/-- The loop of `oledCircle`: the pixels passed to `oledSetPixel`, in order.
Every test of the loop condition uses one unit of `fuel`; the result is `none`
when the fuel runs out. -/
def circleLoop (xc yc : Int) : Nat → Int → Int → Int → Option (List (Int × Int))
  | 0, _, _, _ => none
  | fuel + 1, x, y, d =>
    if y ≥ x then
      let pts : List (Int × Int) :=
        [(xc + x, yc + y), (xc - x, yc + y), (xc + x, yc - y), (xc - x, yc - y),
         (xc + y, yc + x), (xc - y, yc + x), (xc + y, yc - x), (xc - y, yc - x)]
      let x1 := x + 1
      let y1 := if d > 0 then y - 1 else y
      let d1 := if d > 0 then d + 4 * (x1 - y1) + 10 else d + 4 * x1 + 6
      (circleLoop xc yc fuel x1 y1 d1).map fun rest => pts ++ rest
    else some []

/-- The pixels `oledCircle` requests. -/
def circlePixels (fuel : Nat) (xc yc r : Int) : Option (List (Int × Int)) :=
  circleLoop xc yc fuel 0 r (3 - 2 * r)

/-- The function `oledCircle`. -/
def oledCircle (fuel : Nat) (s : State) (xc yc r : Int) (ucColor : Nat) :
    Option (Int × State) :=
  (circlePixels fuel xc yc r).map fun pts => (0, plot s pts ucColor)

/-- The pixels of `oledHLine`. -/
def hLinePixels (x y length : Int) : List (Int × Int) :=
  (upTo length).map fun i => (x + i, y)

/-- The pixels of `oledVLine`. -/
def vLinePixels (x y length : Int) : List (Int × Int) :=
  (upTo length).map fun i => (x, y + i)

/-- The pixels `oledFilledCircle` requests, in order.  The test
`dx*dx + dy*dy <= r*r` is computed without wrap-around; it is the test of the
source as long as `2 * r * r` stays in the `int` range (r ≤ 32767). -/
def filledCirclePixels (xc yc r : Int) : List (Int × Int) :=
  (intRange (yc - r) (yc + r)).flatMap fun y =>
    ((intRange (xc - r) (xc + r)).filter fun x =>
      decide ((x - xc) * (x - xc) + (y - yc) * (y - yc) ≤ r * r)).map fun x => (x, y)

/-- The function `oledFilledCircle`. -/
def oledFilledCircle (s : State) (xc yc r : Int) (ucColor : Nat) : Int × State :=
  (0, plot s (filledCirclePixels xc yc r) ucColor)

/-- The pixels `oledSquare` requests: top, bottom, left, right. -/
def squarePixels (x y size : Int) : List (Int × Int) :=
  hLinePixels x y size ++ hLinePixels x (y + size - 1) size ++
    vLinePixels x y size ++ vLinePixels (x + size - 1) y size

/-- The function `oledSquare`. -/
def oledSquare (s : State) (x y size : Int) (ucColor : Nat) : Int × State :=
  (0, plot s (squarePixels x y size) ucColor)

/-- The pixels `oledFilledSquare` requests. -/
def filledSquarePixels (x y size : Int) : List (Int × Int) :=
  (upTo size).flatMap fun i => (upTo size).map fun j => (x + i, y + j)

/-- The function `oledFilledSquare`. -/
def oledFilledSquare (s : State) (x y size : Int) (ucColor : Nat) : Int × State :=
  (0, plot s (filledSquarePixels x y size) ucColor)

/-- The pixels `oledRectangle` requests: top, bottom, left, right. -/
def rectanglePixels (x y width height : Int) : List (Int × Int) :=
  hLinePixels x y width ++ hLinePixels x (y + height - 1) width ++
    vLinePixels x y height ++ vLinePixels (x + width - 1) y height

/-- The function `oledRectangle`. -/
def oledRectangle (s : State) (x y width height : Int) (ucColor : Nat) : Int × State :=
  (0, plot s (rectanglePixels x y width height) ucColor)

/-- The pixels `oledFilledRectangle` requests. -/
def filledRectanglePixels (x y width height : Int) : List (Int × Int) :=
  (upTo width).flatMap fun i => (upTo height).map fun j => (x + i, y + j)

/-- The function `oledFilledRectangle`. -/
def oledFilledRectangle (s : State) (x y width height : Int) (ucColor : Nat) : Int × State :=
  (0, plot s (filledRectanglePixels x y width height) ucColor)

/-- The four pixels both regions of `oledEllipse` plot for `(x, y)`. -/
def ellipsePoints (xc yc x y : Int) : List (Int × Int) :=
  [(xc + x, yc + y), (xc - x, yc + y), (xc + x, yc - y), (xc - x, yc - y)]

/-- Region 1 of `oledEllipse`: the pixels plotted and the values of `x`, `y`,
`px`, `py` it leaves behind; `none` when the fuel runs out. -/
def ellipseRegion1 (xc yc rx2 ry2 : Int) :
    Nat → Int → Int → Int → Int → Int → Option (List (Int × Int) × (Int × Int × Int × Int))
  | 0, _, _, _, _, _ => none
  | fuel + 1, x, y, px, py, p =>
    if px < py then
      let x1 := x + 1
      let px1 := px + 2 * ry2
      let y1 := if p < 0 then y else y - 1
      let py1 := if p < 0 then py else py - 2 * rx2
      let p1 := if p < 0 then p + ry2 + px1 else p + ry2 + px1 - py1
      (ellipseRegion1 xc yc rx2 ry2 fuel x1 y1 px1 py1 p1).map fun r =>
        (ellipsePoints xc yc x y ++ r.1, r.2)
    else some ([], (x, y, px, py))

/-- Region 2 of `oledEllipse`: the pixels plotted; `none` when the fuel runs
out. -/
def ellipseRegion2 (xc yc rx2 ry2 : Int) :
    Nat → Int → Int → Int → Int → Int → Option (List (Int × Int))
  | 0, _, _, _, _, _ => none
  | fuel + 1, x, y, px, py, p =>
    if y ≥ 0 then
      let y1 := y - 1
      let py1 := py - 2 * rx2
      let x1 := if p > 0 then x else x + 1
      let px1 := if p > 0 then px else px + 2 * ry2
      let p1 := if p > 0 then p + rx2 - py1 else p + rx2 - py1 + px1
      (ellipseRegion2 xc yc rx2 ry2 fuel x1 y1 px1 py1 p1).map fun r =>
        ellipsePoints xc yc x y ++ r
    else some []

/-- The pixels `oledEllipse` requests.  The two decision parameters are computed
in `double` and truncated to `long`; the arithmetic is exact as long as the
values stay below 2^51, and the truncation toward zero of a multiple of one
quarter is `Int.tdiv` by 4. -/
def ellipsePixels (fuel : Nat) (xc yc rx ry : Int) : Option (List (Int × Int)) :=
  let rx2 := rx * rx
  let ry2 := ry * ry
  let p1 := Int.tdiv (4 * (ry2 - rx2 * ry) + rx2) 4
  (ellipseRegion1 xc yc rx2 ry2 fuel 0 ry 0 (2 * rx2 * ry) p1).bind fun r1 =>
    let x := r1.2.1
    let y := r1.2.2.1
    let px := r1.2.2.2.1
    let py := r1.2.2.2.2
    let p2 := Int.tdiv
      (ry2 * (2 * x + 1) * (2 * x + 1) + 4 * (rx2 * (y - 1) * (y - 1)) - 4 * (rx2 * ry2)) 4
    (ellipseRegion2 xc yc rx2 ry2 fuel x y px py p2).map fun r2 => r1.1 ++ r2

/-- The function `oledEllipse`. -/
def oledEllipse (fuel : Nat) (s : State) (xc yc rx ry : Int) (ucColor : Nat) :
    Option (Int × State) :=
  (ellipsePixels fuel xc yc rx ry).map fun pts => (0, plot s pts ucColor)

/-- The pixels `oledFilledEllipse` requests, in order. -/
def filledEllipsePixels (xc yc rx ry : Int) : List (Int × Int) :=
  (intRange (yc - ry) (yc + ry)).flatMap fun y =>
    ((intRange (xc - rx) (xc + rx)).filter fun x =>
      decide (((x - xc) * (x - xc)) * ry * ry + ((y - yc) * (y - yc)) * rx * rx
        ≤ rx * rx * ry * ry)).map fun x => (x, y)

/-- The function `oledFilledEllipse`. -/
def oledFilledEllipse (s : State) (xc yc rx ry : Int) (ucColor : Nat) : Int × State :=
  (0, plot s (filledEllipsePixels xc yc rx ry) ucColor)

/-- The pixels `oledTriangle` requests: the three lines one after the other. -/
def trianglePixels (fuel : Nat) (x0 y0 x1 y1 x2 y2 : Int) : Option (List (Int × Int)) :=
  (linePixels fuel x0 y0 x1 y1).bind fun a =>
    (linePixels fuel x1 y1 x2 y2).bind fun b =>
      (linePixels fuel x2 y2 x0 y0).map fun c => a ++ b ++ c

/-- The function `oledTriangle`. -/
def oledTriangle (fuel : Nat) (s : State) (x0 y0 x1 y1 x2 y2 : Int) (ucColor : Nat) :
    Option (Int × State) :=
  (trianglePixels fuel x0 y0 x1 y1 x2 y2).map fun pts => (0, plot s pts ucColor)

/-- The pixels `oledPolygon` requests: the line from each vertex to the next,
the last vertex wrapping to the first.  `vx` and `vy` are the two coordinate
arrays, `vertices` the count passed with them. -/
def polygonPixels (fuel : Nat) (vx vy : List Int) (vertices : Nat) :
    Option (List (Int × Int)) :=
  (List.range vertices).foldl (fun acc i =>
    acc.bind fun pts =>
      (linePixels fuel (vx.getD i 0) (vy.getD i 0)
        (vx.getD ((i + 1) % vertices) 0) (vy.getD ((i + 1) % vertices) 0)).map
        fun l => pts ++ l) (some [])

/-- The function `oledPolygon`. -/
def oledPolygon (fuel : Nat) (s : State) (vx vy : List Int) (vertices : Nat)
    (ucColor : Nat) : Option (Int × State) :=
  (polygonPixels fuel vx vy vertices).map fun pts => (0, plot s pts ucColor)

/-- The smallest vertex Y found by the first loop of `oledFilledPolygon`. -/
def polygonMinY (vy : List Int) (vertices : Nat) : Int :=
  (List.range vertices).tail.foldl
    (fun m i => if vy.getD i 0 < m then vy.getD i 0 else m) (vy.getD 0 0)

/-- The largest vertex Y found by the first loop of `oledFilledPolygon`. -/
def polygonMaxY (vy : List Int) (vertices : Nat) : Int :=
  (List.range vertices).tail.foldl
    (fun m i => if vy.getD i 0 > m then vy.getD i 0 else m) (vy.getD 0 0)

/-- The crossing test of `oledFilledPolygon` for an edge from height `yi` to
height `yj` and the scanline `y`. -/
def edgeCrosses (yi yj y : Int) : Bool :=
  decide ((yi < y ∧ yj ≥ y) ∨ (yj < y ∧ yi ≥ y))

/-- The X intercepts `oledFilledPolygon` records on scanline `y`, in edge order;
the division is the truncating division of C.  The product
`(y - yi) * (xj - xi)` is computed without wrap-around; it is the product of
the source as long as it stays in the `int` range. -/
def polygonNodes (vx vy : List Int) (vertices : Nat) (y : Int) : List Int :=
  ((List.range vertices).filter fun i =>
      edgeCrosses (vy.getD i 0) (vy.getD ((i + 1) % vertices) 0) y).map fun i =>
    vx.getD i 0 +
      Int.tdiv ((y - vy.getD i 0) * (vx.getD ((i + 1) % vertices) 0 - vx.getD i 0))
        (vy.getD ((i + 1) % vertices) 0 - vy.getD i 0)

/-- One comparison of the sort of `oledFilledPolygon`: swap the entries `i` and
`j` when the first is larger. -/
def swapIfGreater (nodeX : List Int) (i j : Nat) : List Int :=
  if nodeX.getD i 0 > nodeX.getD j 0 then
    (nodeX.set i (nodeX.getD j 0)).set j (nodeX.getD i 0)
  else nodeX

/-- The sort of `oledFilledPolygon`: for every `i < nodes - 1` and every `j`
from `i + 1` to `nodes - 1`, one comparison. -/
def sortNodes (nodeX : List Int) : List Int :=
  (List.range (nodeX.length - 1)).foldl (fun acc i =>
    (List.range (nodeX.length - (i + 1))).foldl
      (fun a k => swapIfGreater a i (i + 1 + k)) acc) nodeX

/-- The pixels of the spans between the node pairs (0,1), (2,3), ... of a row;
a trailing unmatched node is dropped. -/
def spanPixels (y : Int) : List Int → List (Int × Int)
  | a :: b :: rest => (intRange a b).map (fun x => (x, y)) ++ spanPixels y rest
  | _ => []

/-- The pixels `oledFilledPolygon` requests on scanline `y`. -/
def polygonRowPixels (vx vy : List Int) (vertices : Nat) (y : Int) : List (Int × Int) :=
  spanPixels y (sortNodes (polygonNodes vx vy vertices y))

/-- The pixels `oledFilledPolygon` requests, scanline after scanline. -/
def filledPolygonPixels (vx vy : List Int) (vertices : Nat) : List (Int × Int) :=
  (intRange (polygonMinY vy vertices) (polygonMaxY vy vertices)).flatMap fun y =>
    polygonRowPixels vx vy vertices y

/-- The function `oledFilledPolygon`.  The scratch array `nodeX[_width]` is
overrun when a scanline records more intercepts than `_width`. -/
def oledFilledPolygon (s : State) (vx vy : List Int) (vertices : Nat) (ucColor : Nat) :
    Int × State :=
  let spill : Bool :=
    (intRange (polygonMinY vy vertices) (polygonMaxY vy vertices)).any fun y =>
      decide (s._width < ((polygonNodes vx vy vertices y).length : Int))
  (0, { plot s (filledPolygonPixels vx vy vertices) ucColor with
        overrun := (plot s (filledPolygonPixels vx vy vertices) ucColor).overrun || spill })

/-- The vertices of `oledFilledTriangle` after its three conditional swaps,
sorted by ascending Y. -/
def triangleSorted (x0 y0 x1 y1 x2 y2 : Int) : (Int × Int) × (Int × Int) × (Int × Int) :=
  let a : (Int × Int) × (Int × Int) :=
    if y0 > y1 then ((x1, y1), (x0, y0)) else ((x0, y0), (x1, y1))
  let b : (Int × Int) × (Int × Int) :=
    if a.2.2 > y2 then ((x2, y2), a.2) else (a.2, (x2, y2))
  let c : (Int × Int) × (Int × Int) :=
    if a.1.2 > b.1.2 then (b.1, a.1) else (a.1, b.1)
  (c.1, c.2, b.2)

/-- The divisors `oledFilledTriangle` uses on each row `i = 0 .. total_height`:
`total_height` for `alpha` and `segment_height` for `beta`.  The quotients and
the span ends derived from them are `float` values and are not modelled. -/
def triangleDivisors (x0 y0 x1 y1 x2 y2 : Int) : List (Int × Int) :=
  let v := triangleSorted x0 y0 x1 y1 x2 y2
  let total_height := v.2.2.2 - v.1.2
  (intRange 0 total_height).map fun i =>
    let second_half : Bool := decide (i > v.2.1.2 - v.1.2 ∨ v.2.1.2 = v.1.2)
    let segment_height := if second_half then v.2.2.2 - v.2.1.2 else v.2.1.2 - v.1.2
    (total_height, segment_height)

/-- Two successive pixels of a rasterized line: they differ by at most 1 in each
coordinate and are not the same pixel. -/
def Adjacent (p q : Int × Int) : Prop :=
  |q.1 - p.1| ≤ 1 ∧ |q.2 - p.2| ≤ 1 ∧ q ≠ p

/-- The offsets, relative to the start point `(px, py)`, of the pixels `oledLine`
requests for the line from `(px, py)` to `(px + a, py + b)`. -/
def lineOffsets (fuel : Nat) (px py a b : Int) : Option (List (Int × Int)) :=
  (linePixels fuel px py (px + a) (py + b)).map (List.map fun q => (q.1 - px, q.2 - py))

/-- A pixel request that `oledSetPixel` answers without touching the session:
the session is uninitialized, the index fails the range check, or the derived
byte equals the stored byte. -/
def PixelSettled (s : State) (x y : Int) (ucColor : Nat) : Prop :=
  s.file_i2c = 0 ∨ (y >>> (3 : Nat)) * 128 + x < 0 ∨ (y >>> (3 : Nat)) * 128 + x > 1023 ∨
    pixelByte (s.ucScreen ((y >>> (3 : Nat)) * 128 + x).toNat) y ucColor =
      s.ucScreen ((y >>> (3 : Nat)) * 128 + x).toNat


/-- Twice the signed area of the triangle `P Q R`: positive for a left turn,
negative for a right turn, zero when the three points are collinear. -/
def orient (px py qx qy rx ry : Int) : Int :=
  (qx - px) * (ry - py) - (qy - py) * (rx - px)

/-- Any three vertices taken in list order turn the same way or lie on one
line: never right for `sign = 1`, never left for `sign = -1`.  The coordinates
are read the way `oledFilledPolygon` reads them. -/
def TurnsOneWay (sign : Int) (vx vy : List Int) (vertices : Nat) : Prop :=
  ∀ i < vertices, ∀ j < vertices, ∀ k < vertices, i < j → j < k →
    0 ≤ sign * orient (vx.getD i 0) (vy.getD i 0) (vx.getD j 0) (vy.getD j 0)
      (vx.getD k 0) (vy.getD k 0)

instance (sign : Int) (vx vy : List Int) (vertices : Nat) :
    Decidable (TurnsOneWay sign vx vy vertices) := by
  unfold TurnsOneWay
  infer_instance

/-- A convex polygon whose vertices are listed in boundary order: any three
vertices taken in list order never turn right (counter-clockwise listing), or
any three never turn left (clockwise listing), and the vertices are not all on
one line.  Vertices lying on an edge of the polygon are allowed. -/
def ConvexPolygon (vx vy : List Int) (vertices : Nat) : Prop :=
  (TurnsOneWay 1 vx vy vertices ∨ TurnsOneWay (-1) vx vy vertices) ∧
  ∃ i < vertices, ∃ j < vertices, ∃ k < vertices,
    orient (vx.getD i 0) (vy.getD i 0) (vx.getD j 0) (vy.getD j 0)
      (vx.getD k 0) (vy.getD k 0) ≠ 0

instance (vx vy : List Int) (vertices : Nat) : Decidable (ConvexPolygon vx vy vertices) := by
  unfold ConvexPolygon
  infer_instance

/-- The values of the C type `int` (32 bits, two's complement).  The
definitions above compute on `Int` without wrap-around; they agree with the
source as long as every intermediate `int` value satisfies this predicate. -/
def fitsInt (v : Int) : Prop :=
  -2147483648 ≤ v ∧ v ≤ 2147483647

instance (v : Int) : Decidable (fitsInt v) := by
  unfold fitsInt
  infer_instance
/-! ## Field lemmas for the cursor and block primitives -/

@[simp] theorem oledSetPosition_written (s : State) (x y : Int) :
    (oledSetPosition s x y).written =
      s.written ++ positionPackets s.oled_type s.oled_flip x y := by
  simp [oledSetPosition, oledWriteCommand, positionPackets]

@[simp] theorem oledSetPosition_iScreenOffset (s : State) (x y : Int) :
    (oledSetPosition s x y).iScreenOffset = y * 128 + x := rfl

@[simp] theorem oledSetPosition_ucScreen (s : State) (x y : Int) :
    (oledSetPosition s x y).ucScreen = s.ucScreen := rfl

@[simp] theorem oledSetPosition_overrun (s : State) (x y : Int) :
    (oledSetPosition s x y).overrun = s.overrun := rfl

@[simp] theorem oledSetPosition_file_i2c (s : State) (x y : Int) :
    (oledSetPosition s x y).file_i2c = s.file_i2c := rfl

@[simp] theorem oledSetPosition_oled_type (s : State) (x y : Int) :
    (oledSetPosition s x y).oled_type = s.oled_type := rfl

@[simp] theorem oledSetPosition_oled_flip (s : State) (x y : Int) :
    (oledSetPosition s x y).oled_flip = s.oled_flip := rfl

@[simp] theorem oledWriteDataBlock_written (s : State) (ucBuf : List Nat) :
    (oledWriteDataBlock s ucBuf).written = s.written ++ [0x40 :: ucBuf] := rfl

@[simp] theorem oledWriteDataBlock_iScreenOffset (s : State) (ucBuf : List Nat) :
    (oledWriteDataBlock s ucBuf).iScreenOffset = s.iScreenOffset + (ucBuf.length : Int) := rfl

@[simp] theorem oledWriteDataBlock_file_i2c (s : State) (ucBuf : List Nat) :
    (oledWriteDataBlock s ucBuf).file_i2c = s.file_i2c := rfl

@[simp] theorem oledWriteDataBlock_oled_type (s : State) (ucBuf : List Nat) :
    (oledWriteDataBlock s ucBuf).oled_type = s.oled_type := rfl

@[simp] theorem oledWriteDataBlock_oled_flip (s : State) (ucBuf : List Nat) :
    (oledWriteDataBlock s ucBuf).oled_flip = s.oled_flip := rfl

/-- A block write that stays inside `ucScreen` copies the bytes at the latched
offset and raises no overrun. -/
theorem oledWriteDataBlock_fits (s : State) (ucBuf : List Nat)
    (hlen : ucBuf.length ≤ 128) (h0 : 0 ≤ s.iScreenOffset)
    (h1 : s.iScreenOffset + (ucBuf.length : Int) ≤ 1024) :
    (oledWriteDataBlock s ucBuf).ucScreen = memcpy s.ucScreen s.iScreenOffset.toNat ucBuf ∧
    (oledWriteDataBlock s ucBuf).overrun = s.overrun := by
  have hfit : ((ucBuf.length : Int) ≤ 128 ∧ 0 ≤ s.iScreenOffset ∧
      s.iScreenOffset + (ucBuf.length : Int) ≤ 1024) := ⟨by exact_mod_cast hlen, h0, h1⟩
  simp only [oledWriteDataBlock, hfit, and_self, decide_True, if_true, Bool.not_true,
    Bool.or_false]

/-! ## Bit-level facts -/

theorem bits32_natCast (n : Nat) (h : n < 4294967296) : bits32 (n : Int) = n := by
  unfold bits32
  have : ((n : Int) % 4294967296) = ((n % 4294967296 : Nat) : Int) := by norm_cast
  rw [this, Int.toNat_ofNat, Nat.mod_eq_of_lt h]

theorem and_seven (n : Nat) : n &&& 7 = n % 8 :=
  Nat.and_pow_two_sub_one_eq_mod n 3

theorem shiftRight_three (n : Nat) : ((n : Int) >>> (3 : Nat)) = ((n / 8 : Nat) : Int) := by
  rw [Int.shiftRight_eq_div_pow]; norm_cast

theorem testBit_of_lt_256 (b j : Nat) (hb : b < 256) (hj : 8 ≤ j) : b.testBit j = false := by
  apply Nat.testBit_lt_two_pow
  calc b < 2 ^ 8 := hb
    _ ≤ 2 ^ j := Nat.pow_le_pow_right (by decide) hj

theorem clearBit_testBit_any (ucOld k j : Nat) (hk : k < 8) :
    (toUChar (ucOld &&& not32 (0x1 <<< k))).testBit j =
      (decide (j < 8) && ucOld.testBit j && !decide (j = k)) := by
  have h256 : (256 : Nat) = 2 ^ 8 := by norm_num
  have hff : (0xFFFFFFFF : Nat) = 2 ^ 32 - 1 := by norm_num
  unfold toUChar not32
  rw [h256, hff, Nat.testBit_mod_two_pow, Nat.testBit_and, Nat.testBit_xor,
    Nat.testBit_two_pow_sub_one, Nat.one_shiftLeft, Nat.testBit_two_pow]
  by_cases hj : j < 8
  · have h32 : j < 32 := by omega
    by_cases hjk : j = k
    · subst hjk; simp [hj, h32]
    · have : ¬ k = j := fun h => hjk h.symm
      simp [hj, h32, hjk, this]
  · simp [hj]

theorem clearBit_testBit (ucOld k j : Nat) (hold : ucOld < 256) (hk : k < 8) :
    (toUChar (ucOld &&& not32 (0x1 <<< k))).testBit j =
      (ucOld.testBit j && !decide (j = k)) := by
  rw [clearBit_testBit_any ucOld k j hk]
  by_cases hj : j < 8
  · simp [hj]
  · simp [hj, testBit_of_lt_256 ucOld j hold (by omega)]

theorem setBit_testBit (uc k j : Nat) (huc : uc < 256) (hk : k < 8) :
    (toUChar (uc ||| (0x1 <<< k))).testBit j = (uc.testBit j || decide (j = k)) := by
  have h256 : (256 : Nat) = 2 ^ 8 := by norm_num
  unfold toUChar
  rw [h256, Nat.testBit_mod_two_pow, Nat.testBit_or, Nat.one_shiftLeft, Nat.testBit_two_pow]
  by_cases hj : j < 8
  · by_cases hjk : j = k
    · subst hjk; simp [hj]
    · have : ¬ k = j := fun h => hjk h.symm
      simp [hj, hjk, this]
  · have hjk : ¬ j = k := by omega
    have : ¬ k = j := fun h => hjk h.symm
    simp [hj, hjk, this, testBit_of_lt_256 uc j huc (by omega)]

theorem toUChar_lt (n : Nat) : toUChar n < 256 := Nat.mod_lt _ (by decide)

/-- Bits of the byte derived by `oledSetPixel` from a stored byte: bit `y & 7`
follows the colour, the other bits are kept. -/
theorem pixelByte_testBit (ucOld : Nat) (y : Int) (ucColor j : Nat) (hold : ucOld < 256) :
    (pixelByte ucOld y ucColor).testBit j =
      if j = bits32 y &&& 7 then decide (ucColor ≠ 0) else ucOld.testBit j := by
  have hk : bits32 y &&& 7 < 8 := by rw [and_seven]; omega
  unfold pixelByte
  by_cases hc : ucColor = 0
  · simp only [hc, ne_eq, not_true_eq_false, if_false, decide_False]
    rw [clearBit_testBit ucOld _ j hold hk]
    by_cases hjk : j = bits32 y &&& 7 <;> simp [hjk]
  · simp only [hc, ne_eq, not_false_eq_true, if_true, decide_True]
    rw [setBit_testBit _ _ j (toUChar_lt _) hk, clearBit_testBit ucOld _ j hold hk]
    by_cases hjk : j = bits32 y &&& 7 <;> simp [hjk]

theorem pixelByte_lt (ucOld : Nat) (y : Int) (ucColor : Nat) : pixelByte ucOld y ucColor < 256 := by
  unfold pixelByte
  split <;> exact toUChar_lt _


/-- The shadow buffer after `oledSetPosition` then a one-byte block write, when
the latched offset lies inside the array. -/
theorem ucScreen_setPosition_write (s : State) (x p : Int) (uc : Nat)
    (h0 : 0 ≤ p * 128 + x) (h1 : p * 128 + x ≤ 1023) :
    (oledWriteDataBlock (oledSetPosition s x p) [uc]).ucScreen =
      fun j => if j = (p * 128 + x).toNat then uc else s.ucScreen j := by
  funext j
  have hfit : ((1 : Int) ≤ 128 ∧ 0 ≤ p * 128 + x ∧ p * 128 + x + 1 ≤ 1024) := by omega
  simp only [oledWriteDataBlock, oledSetPosition, oledWriteCommand, List.length_singleton,
    Nat.cast_one, hfit, and_self, decide_True, if_true, memcpy]
  by_cases hj : j = (p * 128 + x).toNat
  · subst hj; simp
  · have : ¬ ((p * 128 + x).toNat ≤ j ∧ j < (p * 128 + x).toNat + 1) := by omega
    rw [if_neg this, if_neg hj]

/-- The value of `oledSetPixel` on an initialized session when the index passes
the range check. -/
theorem oledSetPixel_inRange (s : State) (x y : Int) (ucColor : Nat)
    (hinit : s.file_i2c ≠ 0)
    (h0 : 0 ≤ (y >>> (3 : Nat)) * 128 + x) (h1 : (y >>> (3 : Nat)) * 128 + x ≤ 1023) :
    oledSetPixel s x y ucColor =
      if pixelByte (s.ucScreen ((y >>> (3 : Nat)) * 128 + x).toNat) y ucColor
          ≠ s.ucScreen ((y >>> (3 : Nat)) * 128 + x).toNat then
        (0, oledWriteDataBlock (oledSetPosition s x (y >>> (3 : Nat)))
          [pixelByte (s.ucScreen ((y >>> (3 : Nat)) * 128 + x).toNat) y ucColor])
      else (0, s) := by
  have hr : ¬ ((y >>> (3 : Nat)) * 128 + x < 0 ∨ (y >>> (3 : Nat)) * 128 + x > 1023) := by omega
  simp only [oledSetPixel, hinit, if_false, hr]

/-- After a successful `oledSetPixel` the addressed byte is the derived byte and
every other byte is as before. -/
theorem oledSetPixel_ucScreen (s : State) (x y : Int) (ucColor : Nat)
    (hinit : s.file_i2c ≠ 0)
    (h0 : 0 ≤ (y >>> (3 : Nat)) * 128 + x) (h1 : (y >>> (3 : Nat)) * 128 + x ≤ 1023) (j : Nat) :
    (oledSetPixel s x y ucColor).2.ucScreen j =
      if j = ((y >>> (3 : Nat)) * 128 + x).toNat then
        pixelByte (s.ucScreen ((y >>> (3 : Nat)) * 128 + x).toNat) y ucColor
      else s.ucScreen j := by
  rw [oledSetPixel_inRange s x y ucColor hinit h0 h1]
  by_cases hne : pixelByte (s.ucScreen ((y >>> (3 : Nat)) * 128 + x).toNat) y ucColor
      ≠ s.ucScreen ((y >>> (3 : Nat)) * 128 + x).toNat
  · rw [if_pos hne]
    simp only [ucScreen_setPosition_write s x _ _ h0 h1]
  · rw [if_neg hne]
    by_cases hj : j = ((y >>> (3 : Nat)) * 128 + x).toNat
    · rw [if_pos hj, hj]; exact (not_not.mp hne).symm
    · rw [if_neg hj]

/-- Index and bit number of an on-panel pixel, in natural-number terms. -/
theorem onPanel_index (x y : Int) (hx0 : 0 ≤ x) (hx1 : x < 128) (hy0 : 0 ≤ y) (hy1 : y < 64) :
    (y >>> (3 : Nat)) * 128 + x = (((y.toNat / 8) * 128 + x.toNat : Nat) : Int) ∧
    bits32 y &&& 7 = y.toNat % 8 ∧ (y.toNat / 8) * 128 + x.toNat ≤ 1023 := by
  obtain ⟨n, rfl⟩ := Int.eq_ofNat_of_zero_le hy0
  obtain ⟨m, rfl⟩ := Int.eq_ofNat_of_zero_le hx0
  have hn : n < 64 := by omega
  have hm : m < 128 := by omega
  refine ⟨?_, ?_, ?_⟩
  · rw [shiftRight_three]; simp only [Int.toNat_ofNat]; push_cast; ring
  · rw [bits32_natCast n (by omega), and_seven]; simp
  · simp only [Int.toNat_ofNat]; omega

/-- An on-panel pixel passes the range check of an initialized session. -/
theorem oledSetPixel_onPanel_ok (s : State) (x y : Int) (ucColor : Nat)
    (hinit : s.file_i2c ≠ 0) (hx0 : 0 ≤ x) (hx1 : x < 128) (hy0 : 0 ≤ y) (hy1 : y < 64) :
    (oledSetPixel s x y ucColor).1 = 0 := by
  obtain ⟨hidx, _, hle⟩ := onPanel_index x y hx0 hx1 hy0 hy1
  have h0 : 0 ≤ (y >>> (3 : Nat)) * 128 + x := by rw [hidx]; exact Int.ofNat_nonneg _
  have h1 : (y >>> (3 : Nat)) * 128 + x ≤ 1023 := by rw [hidx]; exact_mod_cast hle
  rw [oledSetPixel_inRange s x y ucColor hinit h0 h1]
  split <;> rfl

/-- C1: on an initialized session whose buffer holds bytes, `oledSetPixel` at an
on-panel pixel (0 ≤ x < 128, 0 ≤ y < 64) returns 0; afterwards bit `y & 7` of byte
`(y >> 3) * 128 + x` of the shadow buffer is 1 exactly when the colour is
non-zero, and every other bit of every byte is unchanged. -/
theorem oledSetPixel_sets_bit (s : State) (x y : Int) (ucColor : Nat)
    (hinit : s.file_i2c ≠ 0) (hbytes : ∀ i, s.ucScreen i < 256)
    (hx0 : 0 ≤ x) (hx1 : x < 128) (hy0 : 0 ≤ y) (hy1 : y < 64) :
    (oledSetPixel s x y ucColor).1 = 0 ∧
    ((oledSetPixel s x y ucColor).2.ucScreen ((y.toNat / 8) * 128 + x.toNat)).testBit
        (y.toNat % 8) = decide (ucColor ≠ 0) ∧
    ∀ i b : Nat, (i, b) ≠ ((y.toNat / 8) * 128 + x.toNat, y.toNat % 8) →
      ((oledSetPixel s x y ucColor).2.ucScreen i).testBit b = (s.ucScreen i).testBit b := by
  obtain ⟨hidx, hbit, hle⟩ := onPanel_index x y hx0 hx1 hy0 hy1
  have h0 : 0 ≤ (y >>> (3 : Nat)) * 128 + x := by rw [hidx]; exact Int.ofNat_nonneg _
  have h1 : (y >>> (3 : Nat)) * 128 + x ≤ 1023 := by rw [hidx]; exact_mod_cast hle
  have hnat : ((y >>> (3 : Nat)) * 128 + x).toNat = (y.toNat / 8) * 128 + x.toNat := by
    rw [hidx, Int.toNat_ofNat]
  refine ⟨?_, ?_, ?_⟩
  · rw [oledSetPixel_inRange s x y ucColor hinit h0 h1]
    split <;> rfl
  · rw [oledSetPixel_ucScreen s x y ucColor hinit h0 h1, hnat, if_pos rfl,
      pixelByte_testBit _ _ _ _ (hbytes _), hbit, if_pos rfl]
  · intro i b hib
    rw [oledSetPixel_ucScreen s x y ucColor hinit h0 h1, hnat]
    by_cases hi : i = (y.toNat / 8) * 128 + x.toNat
    · rw [if_pos hi, pixelByte_testBit _ _ _ _ (hbytes _), hbit]
      have hb : b ≠ y.toNat % 8 := fun hb => hib (by rw [hi, hb])
      rw [if_neg hb, hi]
    · rw [if_neg hi]

/-! ## Addressing -/

theorem bits32_small (a : Nat) (ha : a < 4294967296) :
    bits32 (a : Int) = a := bits32_natCast a ha

theorem shiftRight_four (a : Nat) : ((a : Int) >>> (4 : Nat)) = ((a >>> 4 : Nat) : Int) := rfl

/-- The packets of `oledSetPosition` for a corrected column below 256 and a
corrected page below 16: no conversion truncates. -/
theorem packets_of_nat (a b : Nat) (ha : a < 256) (hb : b < 16) :
    ([[0x00, toUChar (0xb0 ||| bits32 (b : Int))],
      [0x00, toUChar (0x00 ||| (bits32 (a : Int) &&& 0xf))],
      [0x00, toUChar (0x10 ||| (bits32 ((a : Int) >>> (4 : Nat)) &&& 0xf))]] : List (List Nat)) =
    [[0x00, 0xB0 ||| b], [0x00, a &&& 0x0F], [0x00, 0x10 ||| ((a >>> 4) &&& 0x0F)]] := by
  have h15 : ∀ n : Nat, n &&& 0xf < 2 ^ 8 := fun n => by
    have : n &&& 0xf = n % 16 := Nat.and_pow_two_sub_one_eq_mod n 4
    omega
  have e1 : toUChar (0xb0 ||| b) = 0xb0 ||| b := by
    apply Nat.mod_eq_of_lt
    exact Nat.or_lt_two_pow (n := 8) (by norm_num) (by norm_num; omega)
  have e2 : toUChar (0x00 ||| (a &&& 0xf)) = a &&& 0xf := by
    rw [Nat.zero_or]; exact Nat.mod_eq_of_lt (h15 a)
  have e3 : toUChar (0x10 ||| ((a >>> 4) &&& 0xf)) = 0x10 ||| ((a >>> 4) &&& 0xf) := by
    apply Nat.mod_eq_of_lt
    exact Nat.or_lt_two_pow (n := 8) (by norm_num) (h15 _)
  have ha4 : a >>> 4 < 4294967296 := by
    rw [Nat.shiftRight_eq_div_pow]; omega
  rw [shiftRight_four, bits32_small a (by omega), bits32_small b (by omega),
    bits32_small _ ha4, e1, e2, e3]

/-- For on-panel logical coordinates the packets of `oledSetPosition` are the
address commands of the corrected coordinates. -/
theorem positionPackets_onPanel (t flip : Int) (x y : Nat) (hx : x < 128) (hy : y < 8) :
    positionPackets t flip (x : Int) (y : Int) = addressCommands t flip x y := by
  unfold positionPackets addressCommands correctedColumn correctedPage
  by_cases h4 : t = OLED_64x32
  · by_cases hf : flip = 0
    · simp only [h4, hf, if_true, and_self]
      have := packets_of_nat (x + 32) (y + 4) (by omega) (by omega)
      push_cast at this
      exact this
    · simp only [h4, hf, if_true, if_false, and_false]
      have := packets_of_nat (x + 32) y (by omega) (by omega)
      push_cast at this
      exact this
  · by_cases h3 : t = OLED_132x64
    · simp only [h4, h3, if_true, if_false, false_and]
      have := packets_of_nat (x + 2) y (by omega) (by omega)
      push_cast at this
      exact this
    · simp only [h4, h3, if_false, false_and]
      exact packets_of_nat x y (by omega) (by omega)

/-- C7: for every panel type, flip flag, column 0 ≤ x < 128 and page 0 ≤ y < 8,
`oledSetPosition` appends exactly three command packets, page select then low
column nibble then high column nibble of the corrected address (x+32, y+4) for
the unflipped 64x32 panel, (x+32, y) for the flipped one, (x+2, y) for 132x64 and
(x, y) otherwise; the two nibbles recombine to the corrected column, and the
shadow write offset becomes y*128 + x. -/
theorem oledSetPosition_commands (s : State) (x y : Int)
    (hx0 : 0 ≤ x) (hx1 : x < 128) (hy0 : 0 ≤ y) (hy1 : y < 8) :
    (oledSetPosition s x y).written =
      s.written ++
        [[0x00, 0xB0 ||| correctedPage s.oled_type s.oled_flip y.toNat],
         [0x00, correctedColumn s.oled_type x.toNat &&& 0x0F],
         [0x00, 0x10 ||| ((correctedColumn s.oled_type x.toNat >>> 4) &&& 0x0F)]] ∧
    correctedPage s.oled_type s.oled_flip y.toNat =
      (if s.oled_type = OLED_64x32 ∧ s.oled_flip = 0 then y.toNat + 4 else y.toNat) ∧
    correctedColumn s.oled_type x.toNat =
      (if s.oled_type = OLED_64x32 then x.toNat + 32
       else if s.oled_type = OLED_132x64 then x.toNat + 2 else x.toNat) ∧
    (correctedColumn s.oled_type x.toNat &&& 0x0F) +
        16 * ((correctedColumn s.oled_type x.toNat >>> 4) &&& 0x0F) =
      correctedColumn s.oled_type x.toNat ∧
    (oledSetPosition s x y).iScreenOffset = y * 128 + x ∧
    (oledSetPosition s x y).ucScreen = s.ucScreen := by
  obtain ⟨n, rfl⟩ := Int.eq_ofNat_of_zero_le hy0
  obtain ⟨m, rfl⟩ := Int.eq_ofNat_of_zero_le hx0
  have hm : m < 128 := by omega
  have hn : n < 8 := by omega
  refine ⟨?_, rfl, rfl, ?_, rfl, rfl⟩
  · rw [oledSetPosition_written, positionPackets_onPanel _ _ m n hm hn]
    rfl
  · have hc : correctedColumn s.oled_type m < 256 := by
      unfold correctedColumn; split_ifs <;> omega
    simp only [Int.toNat_ofNat]
    generalize correctedColumn s.oled_type m = a at hc
    have e1 : a &&& 0x0F = a % 16 := Nat.and_pow_two_sub_one_eq_mod a 4
    have e2 : (a >>> 4) &&& 0x0F = (a >>> 4) % 16 := Nat.and_pow_two_sub_one_eq_mod _ 4
    rw [e1, e2, Nat.shiftRight_eq_div_pow]
    omega

/-- Witness for C7: column 5, page 2 of an unflipped 64x32 panel. -/
theorem oledSetPosition_commands_witness :
    (oledSetPosition { State.boot with file_i2c := 3, oled_type := OLED_64x32 } 5 2).written =
      [[0x00, 0xB6], [0x00, 0x05], [0x00, 0x12]] := by
  have h := (oledSetPosition_commands
    { State.boot with file_i2c := 3, oled_type := OLED_64x32 } 5 2
    (by decide) (by decide) (by decide) (by decide)).1
  rw [h]
  decide

/-! ## Dirty check -/

/-- Bits of the derived byte for an arbitrary stored value. -/
theorem pixelByte_testBit_any (ucOld : Nat) (y : Int) (ucColor j : Nat) :
    (pixelByte ucOld y ucColor).testBit j =
      if j = bits32 y &&& 7 then decide (ucColor ≠ 0)
      else (decide (j < 8) && ucOld.testBit j) := by
  have hk : bits32 y &&& 7 < 8 := by rw [and_seven]; omega
  unfold pixelByte
  by_cases hc : ucColor = 0
  · simp only [hc, ne_eq, not_true_eq_false, if_false, decide_False]
    rw [clearBit_testBit_any ucOld _ j hk]
    by_cases hjk : j = bits32 y &&& 7 <;> simp [hjk]
  · simp only [hc, ne_eq, not_false_eq_true, if_true, decide_True]
    rw [setBit_testBit _ _ j (toUChar_lt _) hk, clearBit_testBit_any ucOld _ j hk]
    by_cases hjk : j = bits32 y &&& 7 <;> simp [hjk]

/-- Deriving the byte a second time changes nothing. -/
theorem pixelByte_idem (ucOld : Nat) (y : Int) (ucColor : Nat) :
    pixelByte (pixelByte ucOld y ucColor) y ucColor = pixelByte ucOld y ucColor := by
  apply Nat.eq_of_testBit_eq
  intro j
  rw [pixelByte_testBit_any _ y ucColor j, pixelByte_testBit_any ucOld y ucColor j]
  by_cases hj : j = bits32 y &&& 7
  · simp only [if_pos hj]
  · simp only [if_neg hj]
    by_cases h8 : j < 8 <;> simp [h8]

theorem oledSetPixel_file_i2c (s : State) (x y : Int) (ucColor : Nat) :
    (oledSetPixel s x y ucColor).2.file_i2c = s.file_i2c := by
  unfold oledSetPixel
  dsimp only
  split_ifs <;> rfl

/-- C2: the dirty check of `oledSetPixel` on an initialized session and an
on-panel pixel.  When the derived byte equals the stored byte the call returns
the state as it was (no packet is written); when it differs the call appends
exactly the three address commands for column x and page y >> 3 followed by
the data packet [0x40, new byte]; so no packet is written exactly when the
bytes are equal, and repeating the call writes nothing and changes nothing. -/
theorem oledSetPixel_dirty_check (s : State) (x y : Int) (ucColor : Nat)
    (hinit : s.file_i2c ≠ 0)
    (hx0 : 0 ≤ x) (hx1 : x < 128) (hy0 : 0 ≤ y) (hy1 : y < 64) :
    (pixelByte (s.ucScreen ((y.toNat / 8) * 128 + x.toNat)) y ucColor
        = s.ucScreen ((y.toNat / 8) * 128 + x.toNat) →
      oledSetPixel s x y ucColor = (0, s)) ∧
    (pixelByte (s.ucScreen ((y.toNat / 8) * 128 + x.toNat)) y ucColor
        ≠ s.ucScreen ((y.toNat / 8) * 128 + x.toNat) →
      (oledSetPixel s x y ucColor).1 = 0 ∧
      (oledSetPixel s x y ucColor).2.written =
        s.written ++ addressCommands s.oled_type s.oled_flip x.toNat (y.toNat / 8) ++
          [[0x40, pixelByte (s.ucScreen ((y.toNat / 8) * 128 + x.toNat)) y ucColor]]) ∧
    ((oledSetPixel s x y ucColor).2.written = s.written ↔
      pixelByte (s.ucScreen ((y.toNat / 8) * 128 + x.toNat)) y ucColor
        = s.ucScreen ((y.toNat / 8) * 128 + x.toNat)) ∧
    oledSetPixel (oledSetPixel s x y ucColor).2 x y ucColor =
      (0, (oledSetPixel s x y ucColor).2) := by
  obtain ⟨hidx, hbit, hle⟩ := onPanel_index x y hx0 hx1 hy0 hy1
  have h0 : 0 ≤ (y >>> (3 : Nat)) * 128 + x := by rw [hidx]; exact Int.ofNat_nonneg _
  have h1 : (y >>> (3 : Nat)) * 128 + x ≤ 1023 := by rw [hidx]; exact_mod_cast hle
  have hnat : ((y >>> (3 : Nat)) * 128 + x).toNat = (y.toNat / 8) * 128 + x.toNat := by
    rw [hidx, Int.toNat_ofNat]
  have hpage : y >>> (3 : Nat) = ((y.toNat / 8 : Nat) : Int) := by
    obtain ⟨n, rfl⟩ := Int.eq_ofNat_of_zero_le hy0
    rw [shiftRight_three]; simp
  have hxn : x = ((x.toNat : Nat) : Int) := (Int.toNat_of_nonneg hx0).symm
  have hpk : positionPackets s.oled_type s.oled_flip x (y >>> (3 : Nat)) =
      addressCommands s.oled_type s.oled_flip x.toNat (y.toNat / 8) := by
    rw [hpage]
    conv_lhs => rw [hxn]
    exact positionPackets_onPanel _ _ _ _ (by omega) (by omega)
  have hval := oledSetPixel_inRange s x y ucColor hinit h0 h1
  rw [hnat] at hval
  have hchanged : pixelByte (s.ucScreen ((y.toNat / 8) * 128 + x.toNat)) y ucColor
        ≠ s.ucScreen ((y.toNat / 8) * 128 + x.toNat) →
      (oledSetPixel s x y ucColor).1 = 0 ∧
      (oledSetPixel s x y ucColor).2.written =
        s.written ++ addressCommands s.oled_type s.oled_flip x.toNat (y.toNat / 8) ++
          [[0x40, pixelByte (s.ucScreen ((y.toNat / 8) * 128 + x.toNat)) y ucColor]] := by
    intro hne
    rw [hval, if_pos hne]
    refine ⟨rfl, ?_⟩
    simp only [oledWriteDataBlock_written, oledSetPosition_written, hpk]
  refine ⟨?_, hchanged, ?_, ?_⟩
  · intro heq
    rw [hval, if_neg (not_not.mpr heq)]
  · constructor
    · intro hw
      by_contra hne
      have h2 := (hchanged hne).2
      rw [hw] at h2
      have hlen := congrArg List.length h2
      simp [addressCommands] at hlen
    · intro heq
      rw [hval, if_neg (not_not.mpr heq)]
  · have hinit2 : (oledSetPixel s x y ucColor).2.file_i2c ≠ 0 := by
      rw [oledSetPixel_file_i2c]; exact hinit
    have hstored : (oledSetPixel s x y ucColor).2.ucScreen
        ((y >>> (3 : Nat)) * 128 + x).toNat =
        pixelByte (s.ucScreen ((y >>> (3 : Nat)) * 128 + x).toNat) y ucColor := by
      rw [oledSetPixel_ucScreen s x y ucColor hinit h0 h1, if_pos rfl]
    rw [oledSetPixel_inRange _ x y ucColor hinit2 h0 h1, hstored, pixelByte_idem]
    simp

/-- Witness for C2: setting pixel (5, 10) on a cleared 128x64 session. -/
theorem oledSetPixel_dirty_check_witness :
    (oledSetPixel { State.boot with file_i2c := 3, oled_type := OLED_128x64 } 5 10 1).2.written =
      [[0x00, 0xB1], [0x00, 0x05], [0x00, 0x10], [0x40, 0x04]] ∧
    (oledSetPixel (oledSetPixel { State.boot with file_i2c := 3, oled_type := OLED_128x64 }
        5 10 1).2 5 10 1).2.written =
      [[0x00, 0xB1], [0x00, 0x05], [0x00, 0x10], [0x40, 0x04]] := by
  have h := oledSetPixel_dirty_check
    { State.boot with file_i2c := 3, oled_type := OLED_128x64 } 5 10 1
    (by decide) (by decide) (by decide) (by decide) (by decide)
  refine ⟨?_, ?_⟩
  · rw [(h.2.1 (by decide)).2]
    decide
  · rw [h.2.2.2]
    rw [(h.2.1 (by decide)).2]
    decide

/-- Witness for C1: setting pixel (5, 10) on a cleared 128x64 session sets bit 2
of byte 133. -/
theorem oledSetPixel_sets_bit_witness :
    ((oledSetPixel { State.boot with file_i2c := 3, oled_type := OLED_128x64 }
      5 10 1).2.ucScreen 133).testBit 2 = true :=
  (oledSetPixel_sets_bit { State.boot with file_i2c := 3, oled_type := OLED_128x64 } 5 10 1
    (by decide) (fun _ => by show (0 : Nat) < 256; decide) (by decide) (by decide) (by decide) (by decide)).2.1

/-! ## Range check of `oledSetPixel` -/

/-- C3 (as stated, refuted): on a 128x32 session left by `oledInit`, the pixel
(0, 40) lies below the 32 rows of the panel and its index 640 lies beyond
width*height/8 = 512, yet `oledSetPixel` returns 0 and changes byte 640; on a
128x64 session the pixel (128, 0) lies right of the panel and is accepted too. -/
theorem oledSetPixel_accepts_offPanel :
    (oledInit State.boot 3 0 OLED_128x32 0 0).2.file_i2c ≠ 0 ∧
    (oledInit State.boot 3 0 OLED_128x32 0 0).2._width = 128 ∧
    (oledInit State.boot 3 0 OLED_128x32 0 0).2._height = 32 ∧
    (oledSetPixel (oledInit State.boot 3 0 OLED_128x32 0 0).2 0 40 1).1 = 0 ∧
    (oledSetPixel (oledInit State.boot 3 0 OLED_128x32 0 0).2 0 40 1).2.ucScreen 640 = 1 ∧
    (oledInit State.boot 3 0 OLED_128x32 0 0).2.ucScreen 640 = 0 ∧
    (oledInit State.boot 3 0 OLED_128x64 0 0).2._width = 128 ∧
    (oledSetPixel (oledInit State.boot 3 0 OLED_128x64 0 0).2 128 0 1).1 = 0 := by
  decide

/-- C3 (amended): whatever the panel type, `oledSetPixel` returns 0 when the
session is initialized and 0 ≤ x < 128, 0 ≤ y < 64 (the shadow buffer is the
fixed 1024-byte array with row stride 128); it returns -1 and hands back the
state untouched (shadow buffer unchanged, no packet written) when the session
is uninitialized, and also when the index (y >> 3) * 128 + x lies outside
0 .. 1023, for `int` arguments `x`, `y` for which neither the product
(y >> 3) * 128 nor the sum overflows the `int` range. -/
theorem oledSetPixel_result (s : State) (x y : Int) (ucColor : Nat) :
    (s.file_i2c ≠ 0 → 0 ≤ x → x < 128 → 0 ≤ y → y < 64 →
      (oledSetPixel s x y ucColor).1 = 0) ∧
    (s.file_i2c = 0 → oledSetPixel s x y ucColor = (-1, s)) ∧
    (fitsInt x → fitsInt y → fitsInt ((y >>> (3 : Nat)) * 128) →
      fitsInt ((y >>> (3 : Nat)) * 128 + x) →
      (y >>> (3 : Nat)) * 128 + x < 0 ∨ 1023 < (y >>> (3 : Nat)) * 128 + x →
      oledSetPixel s x y ucColor = (-1, s)) := by
  refine ⟨?_, ?_, ?_⟩
  · intro hinit hx0 hx1 hy0 hy1
    exact (oledSetPixel_onPanel_ok s x y ucColor hinit hx0 hx1 hy0 hy1)
  · intro hinit
    unfold oledSetPixel
    rw [if_pos hinit]
  · intro _ _ _ _ h
    unfold oledSetPixel
    by_cases hinit : s.file_i2c = 0
    · rw [if_pos hinit]
    · rw [if_neg hinit]
      have hr : (y >>> (3 : Nat)) * 128 + x < 0 ∨ (y >>> (3 : Nat)) * 128 + x > 1023 := by
        rcases h with h | h
        · exact Or.inl h
        · exact Or.inr h
      simp only [hr, if_true]

/-- Witness for C3 (amended): pixel (127, 63) is accepted on a 128x32 session,
pixel (0, 64) is refused. -/
theorem oledSetPixel_result_witness :
    (oledSetPixel { State.boot with file_i2c := 3, oled_type := OLED_128x32 } 127 63 1).1 = 0 ∧
    (oledSetPixel { State.boot with file_i2c := 3, oled_type := OLED_128x32 } 0 64 1).1 = -1 :=
  ⟨(oledSetPixel_result { State.boot with file_i2c := 3, oled_type := OLED_128x32 } 127 63 1).1
      (by decide) (by decide) (by decide) (by decide) (by decide),
    congrArg Prod.fst
      ((oledSetPixel_result { State.boot with file_i2c := 3, oled_type := OLED_128x32 }
        0 64 1).2.2 (by decide) (by decide) (by decide) (by decide) (Or.inr (by decide)))⟩

/-! ## Counted loops and block copies -/

theorem forLoop_zero (body : Nat → State → State) (s : State) : forLoop 0 body s = s := rfl

theorem forLoop_succ (n : Nat) (body : Nat → State → State) (s : State) :
    forLoop (n + 1) body s = body n (forLoop n body s) := by
  unfold forLoop
  rw [List.range_succ, List.foldl_append]
  rfl

theorem memcpy_replicate (f : Nat → Nat) (off w p j : Nat) :
    memcpy f off (List.replicate w p) j = if off ≤ j ∧ j < off + w then p else f j := by
  unfold memcpy
  simp only [List.length_replicate]
  by_cases h : off ≤ j ∧ j < off + w
  · rw [if_pos h, if_pos h]
    have : j - off < w := by omega
    simp [List.getD_eq_getElem?_getD, List.getElem?_replicate, this]
  · rw [if_neg h, if_neg h]

/-! ## Fill -/

/-- The state after the first `k` page rows of the loop of `oledFill`, `w` being
the number of bytes written per row. -/
theorem fill_rows (s : State) (p w k : Nat) (hw : w ≤ 128) (hk : k ≤ 8) :
    (forLoop k (fun y st =>
        oledWriteDataBlock (oledSetPosition st 0 y) (List.replicate w p)) s).written =
      s.written ++ (List.range k).flatMap (fun y =>
        positionPackets s.oled_type s.oled_flip 0 (y : Int) ++ [0x40 :: List.replicate w p]) ∧
    (forLoop k (fun y st =>
        oledWriteDataBlock (oledSetPosition st 0 y) (List.replicate w p)) s).ucScreen =
      (fun j => if j / 128 < k ∧ j % 128 < w then p else s.ucScreen j) ∧
    (forLoop k (fun y st =>
        oledWriteDataBlock (oledSetPosition st 0 y) (List.replicate w p)) s).overrun = s.overrun ∧
    (forLoop k (fun y st =>
        oledWriteDataBlock (oledSetPosition st 0 y) (List.replicate w p)) s).oled_type
      = s.oled_type ∧
    (forLoop k (fun y st =>
        oledWriteDataBlock (oledSetPosition st 0 y) (List.replicate w p)) s).oled_flip
      = s.oled_flip ∧
    (forLoop k (fun y st =>
        oledWriteDataBlock (oledSetPosition st 0 y) (List.replicate w p)) s).file_i2c
      = s.file_i2c := by
  induction k with
  | zero =>
    refine ⟨by simp [forLoop_zero], ?_, rfl, rfl, rfl, rfl⟩
    funext j
    simp [forLoop_zero]
  | succ k ih =>
    obtain ⟨hwr, hscr, hov, hty, hfl, hfd⟩ := ih (by omega)
    rw [forLoop_succ]
    generalize forLoop k (fun y st =>
        oledWriteDataBlock (oledSetPosition st 0 y) (List.replicate w p)) s = st at *
    have hoff0 : 0 ≤ (oledSetPosition st 0 (k : Int)).iScreenOffset := by
      simp only [oledSetPosition_iScreenOffset]; omega
    have hoff1 : (oledSetPosition st 0 (k : Int)).iScreenOffset +
        ((List.replicate w p).length : Int) ≤ 1024 := by
      simp only [oledSetPosition_iScreenOffset, List.length_replicate]; omega
    obtain ⟨hcopy, hover⟩ := oledWriteDataBlock_fits (oledSetPosition st 0 (k : Int))
      (List.replicate w p) (by simpa using hw) hoff0 hoff1
    refine ⟨?_, ?_, ?_, ?_, ?_, ?_⟩
    · rw [oledWriteDataBlock_written, oledSetPosition_written, hwr, hty, hfl,
        List.range_succ, List.flatMap_append]
      simp
    · rw [hcopy]
      funext j
      have hoff : (oledSetPosition st 0 (k : Int)).iScreenOffset.toNat = k * 128 := by
        simp only [oledSetPosition_iScreenOffset]; omega
      rw [hoff, memcpy_replicate, oledSetPosition_ucScreen, hscr]
      dsimp only
      by_cases h1 : k * 128 ≤ j ∧ j < k * 128 + w
      · have h2 : j / 128 < k + 1 ∧ j % 128 < w := by omega
        rw [if_pos h1, if_pos h2]
      · rw [if_neg h1]
        by_cases h3 : j / 128 < k ∧ j % 128 < w
        · have h4 : j / 128 < k + 1 ∧ j % 128 < w := by omega
          rw [if_pos h3, if_pos h4]
        · have h4 : ¬ (j / 128 < k + 1 ∧ j % 128 < w) := by omega
          rw [if_neg h3, if_neg h4]
    · rw [hover, oledSetPosition_overrun, hov]
    · rw [oledWriteDataBlock_oled_type, oledSetPosition_oled_type, hty]
    · rw [oledWriteDataBlock_oled_flip, oledSetPosition_oled_flip, hfl]
    · rw [oledWriteDataBlock_file_i2c, oledSetPosition_file_i2c, hfd]

/-- The function `oledFill` on an initialized session, as its loop over the page
rows of the panel. -/
theorem oledFill_eq (s : State) (p : Nat) (hinit : s.file_i2c ≠ 0) :
    oledFill s p = (0, forLoop (panelPages s.oled_type) (fun y st =>
      oledWriteDataBlock (oledSetPosition st 0 y)
        (List.replicate (panelWidth s.oled_type) p)) s) := by
  have htake : (List.replicate 128 p).take
      ((if s.oled_type = OLED_64x32 then 4 else 8) * 16) =
      List.replicate (panelWidth s.oled_type) p := by
    unfold panelWidth
    split_ifs <;> simp [List.take_replicate]
  unfold oledFill
  rw [if_neg hinit]
  simp only [htake]
  rfl

theorem panelPages_le (t : Int) : panelPages t ≤ 8 := by
  unfold panelPages; split_ifs <;> omega

theorem panelWidth_le (t : Int) : panelWidth t ≤ 128 := by
  unfold panelWidth; split_ifs <;> omega

/-- C5: on an initialized session of any panel type, `oledFill p` returns 0 and
appends, for each page row 0 .. height/8 - 1 in ascending order, the address
commands for column 0 of that page followed by one data packet made of the
marker 0x40 and one byte `p` per panel column; the prior content of the shadow
buffer plays no part. -/
theorem oledFill_trace (s : State) (p : Nat) (hinit : s.file_i2c ≠ 0) :
    (oledFill s p).1 = 0 ∧
    (oledFill s p).2.written =
      s.written ++ (List.range (panelPages s.oled_type)).flatMap (fun y =>
        addressCommands s.oled_type s.oled_flip 0 y ++
          [0x40 :: List.replicate (panelWidth s.oled_type) p]) := by
  rw [oledFill_eq s p hinit]
  refine ⟨rfl, ?_⟩
  rw [(fill_rows s p _ _ (panelWidth_le _) (panelPages_le _)).1]
  congr 1
  apply List.flatMap_congr
  intro y hy
  have hy8 : y < 8 := lt_of_lt_of_le (List.mem_range.mp hy) (panelPages_le _)
  have := positionPackets_onPanel s.oled_type s.oled_flip 0 y (by omega) hy8
  simp only [Nat.cast_zero] at this
  rw [this]

/-- Witness for C5: the fill of a 64x32 session, unflipped. -/
theorem oledFill_trace_witness :
    (oledFill { State.boot with file_i2c := 3, oled_type := OLED_64x32 } 0xFF).2.written =
      [[0x00, 0xB4], [0x00, 0x00], [0x00, 0x12], 0x40 :: List.replicate 64 0xFF,
       [0x00, 0xB5], [0x00, 0x00], [0x00, 0x12], 0x40 :: List.replicate 64 0xFF,
       [0x00, 0xB6], [0x00, 0x00], [0x00, 0x12], 0x40 :: List.replicate 64 0xFF,
       [0x00, 0xB7], [0x00, 0x00], [0x00, 0x12], 0x40 :: List.replicate 64 0xFF] := by
  rw [(oledFill_trace { State.boot with file_i2c := 3, oled_type := OLED_64x32 } 0xFF
    (by decide)).2]
  decide

/-- The shadow buffer after `oledFill p` on an initialized session. -/
theorem oledFill_ucScreen (s : State) (p : Nat) (hinit : s.file_i2c ≠ 0) (j : Nat) :
    (oledFill s p).2.ucScreen j =
      if j / 128 < panelPages s.oled_type ∧ j % 128 < panelWidth s.oled_type then p
      else s.ucScreen j := by
  rw [oledFill_eq s p hinit]
  simp only [(fill_rows s p _ _ (panelWidth_le _) (panelPages_le _)).2.1]

theorem oledFill_file_i2c (s : State) (p : Nat) (hinit : s.file_i2c ≠ 0) :
    (oledFill s p).2.file_i2c = s.file_i2c := by
  rw [oledFill_eq s p hinit]
  exact (fill_rows s p _ _ (panelWidth_le _) (panelPages_le _)).2.2.2.2.2

theorem oledFill_oled_type (s : State) (p : Nat) (hinit : s.file_i2c ≠ 0) :
    (oledFill s p).2.oled_type = s.oled_type := by
  rw [oledFill_eq s p hinit]
  exact (fill_rows s p _ _ (panelWidth_le _) (panelPages_le _)).2.2.2.1

/-- C6 (as stated, refuted): on a 64x32 session whose shadow byte 64 holds 1
(`oledSetPixel 64 0` put it there), `oledFill 0` returns 0 and leaves that
byte at 1; the same holds after `oledFill 0xFF` followed by `oledFill 0x00`,
where the byte is still 1 and not 0. -/
theorem oledFill_leaves_bytes :
    (oledSetPixel { State.boot with file_i2c := 3, oled_type := OLED_64x32 } 64 0 1).1 = 0 ∧
    (oledFill (oledSetPixel { State.boot with file_i2c := 3, oled_type := OLED_64x32 }
        64 0 1).2 0).1 = 0 ∧
    (oledFill (oledSetPixel { State.boot with file_i2c := 3, oled_type := OLED_64x32 }
        64 0 1).2 0).2.ucScreen 64 = 1 ∧
    (oledFill (oledFill (oledSetPixel
        { State.boot with file_i2c := 3, oled_type := OLED_64x32 } 64 0 1).2 0xFF).2
        0x00).2.ucScreen 64 = 1 := by
  decide

/-- C6 (amended): on an initialized session of any panel type, after `oledFill p`
every shadow byte of a visible cell (page below the panel's page count, column
below its width, at index page*128 + column) equals `p` and every other byte of
the array is unchanged; for the panel types with 8 pages and 128 columns
(neither OLED_128x32 nor OLED_64x32) all 1024 bytes equal `p`; and `oledFill
0xFF` followed by `oledFill 0x00` leaves every visible cell at zero. -/
theorem oledFill_shadow (s : State) (p : Nat) (hinit : s.file_i2c ≠ 0) :
    (∀ page col : Nat, page < panelPages s.oled_type → col < panelWidth s.oled_type →
      (oledFill s p).2.ucScreen (page * 128 + col) = p) ∧
    (∀ j : Nat, ¬ (j / 128 < panelPages s.oled_type ∧ j % 128 < panelWidth s.oled_type) →
      (oledFill s p).2.ucScreen j = s.ucScreen j) ∧
    (s.oled_type ≠ OLED_128x32 → s.oled_type ≠ OLED_64x32 →
      ∀ j : Nat, j < 1024 → (oledFill s p).2.ucScreen j = p) ∧
    (∀ page col : Nat, page < panelPages s.oled_type → col < panelWidth s.oled_type →
      (oledFill (oledFill s 0xFF).2 0x00).2.ucScreen (page * 128 + col) = 0) := by
  have hvis : ∀ (t : Int) (page col : Nat), page < panelPages t → col < panelWidth t →
      ((page * 128 + col) / 128 < panelPages t ∧ (page * 128 + col) % 128 < panelWidth t) := by
    intro t page col hp hc
    have := panelWidth_le t
    have h1 : (page * 128 + col) / 128 = page := by omega
    have h2 : (page * 128 + col) % 128 = col := by omega
    rw [h1, h2]; exact ⟨hp, hc⟩
  refine ⟨?_, ?_, ?_, ?_⟩
  · intro page col hp hc
    rw [oledFill_ucScreen s p hinit, if_pos (hvis _ page col hp hc)]
  · intro j hj
    rw [oledFill_ucScreen s p hinit, if_neg hj]
  · intro h1 h4 j hj
    have hp : panelPages s.oled_type = 8 := by
      unfold panelPages; rw [if_neg (by tauto)]
    have hw : panelWidth s.oled_type = 128 := by
      unfold panelWidth; rw [if_neg h4]
    rw [oledFill_ucScreen s p hinit, hp, hw, if_pos (by omega)]
  · intro page col hp hc
    have hinit2 : (oledFill s 0xFF).2.file_i2c ≠ 0 := by
      rw [oledFill_file_i2c s _ hinit]; exact hinit
    rw [oledFill_ucScreen _ _ hinit2, oledFill_oled_type s _ hinit,
      if_pos (hvis _ page col hp hc)]

/-- Witness for C6 (amended): after filling a 128x64 session with 0xAA, byte
1023 holds 0xAA. -/
theorem oledFill_shadow_witness :
    (oledFill { State.boot with file_i2c := 3, oled_type := OLED_128x64 } 0xAA).2.ucScreen 1023
      = 0xAA :=
  (oledFill_shadow { State.boot with file_i2c := 3, oled_type := OLED_128x64 } 0xAA
    (by decide)).2.2.1 (by decide) (by decide) 1023 (by decide)

/-! ## Text -/

theorem memcpy_append (f : Nat → Nat) (off : Nat) (a b : List Nat) :
    memcpy (memcpy f off a) (off + a.length) b = memcpy f off (a ++ b) := by
  funext j
  unfold memcpy
  simp only [List.length_append, List.getD_eq_getElem?_getD]
  by_cases h1 : off + a.length ≤ j ∧ j < off + a.length + b.length
  · have h2 : off ≤ j ∧ j < off + (a.length + b.length) := by omega
    rw [if_pos h1, if_pos h2, List.getElem?_append_right (by omega)]
    congr 2
    omega
  · rw [if_neg h1]
    by_cases h3 : off ≤ j ∧ j < off + a.length
    · have h2 : off ≤ j ∧ j < off + (a.length + b.length) := by omega
      rw [if_pos h3, if_pos h2, List.getElem?_append_left (by omega)]
    · have h2 : ¬ (off ≤ j ∧ j < off + (a.length + b.length)) := by omega
      rw [if_neg h3, if_neg h2]

theorem memcpy_nil (f : Nat → Nat) (off : Nat) : memcpy f off [] = f := by
  funext j
  unfold memcpy
  simp

theorem fontSlice_length (font : Nat → Nat) (start len : Nat) :
    (fontSlice font start len).length = len := by
  simp [fontSlice]

theorem forLoop_congr (n : Nat) (body1 body2 : Nat → State → State) (s : State)
    (h : ∀ i, i < n → ∀ st, body1 i st = body2 i st) :
    forLoop n body1 s = forLoop n body2 s := by
  induction n with
  | zero => rfl
  | succ n ih =>
    rw [forLoop_succ, forLoop_succ, ih (fun i hi st => h i (by omega) st), h n (by omega)]

theorem range_map_getD (l : List Nat) (m : Nat) (hm : m ≤ l.length) :
    (List.range m).map (fun i => l.getD i 0) = l.take m := by
  induction m with
  | zero => simp
  | succ m ih =>
    have hlt : m < l.length := by omega
    rw [List.range_succ, List.map_append, ih (by omega), List.take_succ]
    simp [List.getD_eq_getElem?_getD, List.getElem?_eq_getElem hlt]

/-- The state after `k` consecutive block writes of `w`-byte glyphs that start
at the latched offset and stay inside `ucScreen`. -/
theorem glyph_run (s1 : State) (glyph : Nat → List Nat) (w k : Nat)
    (hlen : ∀ i, (glyph i).length = w) (hw : w ≤ 128)
    (h0 : 0 ≤ s1.iScreenOffset) (h1 : s1.iScreenOffset + ((w * k : Nat) : Int) ≤ 1024) :
    (forLoop k (fun i st => oledWriteDataBlock st (glyph i)) s1).written =
      s1.written ++ (List.range k).map (fun i => 0x40 :: glyph i) ∧
    (forLoop k (fun i st => oledWriteDataBlock st (glyph i)) s1).ucScreen =
      memcpy s1.ucScreen s1.iScreenOffset.toNat ((List.range k).flatMap glyph) ∧
    ((List.range k).flatMap glyph).length = w * k ∧
    (forLoop k (fun i st => oledWriteDataBlock st (glyph i)) s1).iScreenOffset =
      s1.iScreenOffset + ((w * k : Nat) : Int) ∧
    (forLoop k (fun i st => oledWriteDataBlock st (glyph i)) s1).overrun = s1.overrun := by
  induction k with
  | zero =>
    refine ⟨by simp [forLoop_zero], ?_, by simp, by simp [forLoop_zero], rfl⟩
    simp [forLoop_zero, memcpy_nil]
  | succ k ih =>
    have hk : s1.iScreenOffset + ((w * k : Nat) : Int) ≤ 1024 := by
      have : w * k ≤ w * (k + 1) := Nat.mul_le_mul_left w (Nat.le_succ k)
      omega
    obtain ⟨hwr, hscr, hl, hoff, hov⟩ := ih hk
    rw [forLoop_succ]
    generalize forLoop k (fun i st => oledWriteDataBlock st (glyph i)) s1 = st at *
    have hmul : w * (k + 1) = w * k + w := by ring
    have hfit := oledWriteDataBlock_fits st (glyph k) (by rw [hlen]; exact hw)
      (by rw [hoff]; omega) (by rw [hoff, hlen]; omega)
    refine ⟨?_, ?_, ?_, ?_, ?_⟩
    · rw [oledWriteDataBlock_written, hwr, List.range_succ, List.map_append]
      simp
    · rw [hfit.1, hscr, hoff, List.range_succ, List.flatMap_append]
      have e : (s1.iScreenOffset + ((w * k : Nat) : Int)).toNat =
          s1.iScreenOffset.toNat + ((List.range k).flatMap glyph).length := by
        rw [hl]; omega
      rw [e, memcpy_append]
      simp
    · rw [List.range_succ, List.flatMap_append, List.length_append, hl]
      simp [hlen, hmul]
    · rw [oledWriteDataBlock_iScreenOffset, hoff, hlen, hmul]
      push_cast; ring
    · rw [hfit.2, hov]

/-- The small-font branch of `oledWriteString` on an initialized session. -/
theorem oledWriteString_small_eq (ucFont ucSmallFont : Nat → Nat) (s : State) (x y : Int)
    (szMsg : List Nat) (hinit : s.file_i2c ≠ 0) :
    oledWriteString ucFont ucSmallFont s x y szMsg FONT_SMALL =
      if (if (szMsg.length : Int) + x > 21 then 21 - x else (szMsg.length : Int)) < 0 then
        (-1, oledSetPosition s (x * 6) y)
      else
        (0, forLoop (if (szMsg.length : Int) + x > 21 then 21 - x
            else (szMsg.length : Int)).toNat
          (fun i st => oledWriteDataBlock st (fontSlice ucSmallFont (szMsg.getD i 0 * 6) 6))
          (oledSetPosition s (x * 6) y)) := by
  unfold oledWriteString
  rw [if_neg hinit]
  simp only [FONT_SMALL, FONT_NORMAL, FONT_BIG]
  rw [if_neg (by decide), if_neg (by decide), if_neg (by decide)]

/-- The number of characters the small font renders from cell `x`. -/
theorem small_count (x : Int) (n : Nat) (hx0 : 0 ≤ x) (hx1 : x ≤ 20) :
    (if (n : Int) + x > 21 then 21 - x else (n : Int)) = ((min n (21 - x.toNat) : Nat) : Int) := by
  split_ifs with h <;> omega

/-- C8: small font (6 bytes per glyph, 21 cells per row).  On an initialized
session, for a start cell 0 ≤ x ≤ 20, a page 0 ≤ y < 8 and a text of n
characters, `oledWriteString` returns 0, sends after the address commands one
data packet per character for the first min(n, 21 - x) characters, and copies
their 6-byte table slices, in order and contiguously, into the shadow buffer
from offset y*128 + 6*x on: 6 * min(n, 21 - x) bytes, nothing else changing
and no overrun occurring.  A text of exactly 21 - x characters is therefore
written whole, and one more character at its end changes nothing. -/
theorem oledWriteString_small (ucFont ucSmallFont : Nat → Nat) (s : State) (x y : Int)
    (szMsg : List Nat) (hinit : s.file_i2c ≠ 0)
    (hx0 : 0 ≤ x) (hx1 : x ≤ 20) (hy0 : 0 ≤ y) (hy1 : y < 8) :
    (oledWriteString ucFont ucSmallFont s x y szMsg FONT_SMALL).1 = 0 ∧
    (oledWriteString ucFont ucSmallFont s x y szMsg FONT_SMALL).2.written =
      s.written ++ addressCommands s.oled_type s.oled_flip (6 * x.toNat) y.toNat ++
        (szMsg.take (min szMsg.length (21 - x.toNat))).map
          (fun ch => 0x40 :: fontSlice ucSmallFont (ch * 6) 6) ∧
    (oledWriteString ucFont ucSmallFont s x y szMsg FONT_SMALL).2.ucScreen =
      memcpy s.ucScreen (y.toNat * 128 + 6 * x.toNat)
        ((szMsg.take (min szMsg.length (21 - x.toNat))).flatMap
          (fun ch => fontSlice ucSmallFont (ch * 6) 6)) ∧
    ((szMsg.take (min szMsg.length (21 - x.toNat))).flatMap
        (fun ch => fontSlice ucSmallFont (ch * 6) 6)).length =
      6 * min szMsg.length (21 - x.toNat) ∧
    (oledWriteString ucFont ucSmallFont s x y szMsg FONT_SMALL).2.overrun = s.overrun ∧
    (szMsg.length = 21 - x.toNat → ∀ ch : Nat,
      oledWriteString ucFont ucSmallFont s x y (szMsg ++ [ch]) FONT_SMALL =
        oledWriteString ucFont ucSmallFont s x y szMsg FONT_SMALL) := by
  have hval := oledWriteString_small_eq ucFont ucSmallFont s x y szMsg hinit
  rw [small_count x szMsg.length hx0 hx1] at hval
  rw [if_neg (by omega), Int.toNat_ofNat] at hval
  have hm : min szMsg.length (21 - x.toNat) ≤ szMsg.length := Nat.min_le_left _ _
  have hm21 : min szMsg.length (21 - x.toNat) ≤ 21 - x.toNat := Nat.min_le_right _ _
  generalize min szMsg.length (21 - x.toNat) = m at hval hm hm21 ⊢
  have hoffv : (oledSetPosition s (x * 6) y).iScreenOffset =
      ((y.toNat * 128 + 6 * x.toNat : Nat) : Int) := by
    rw [oledSetPosition_iScreenOffset]; omega
  have hrun := glyph_run (oledSetPosition s (x * 6) y)
    (fun i => fontSlice ucSmallFont (szMsg.getD i 0 * 6) 6) 6 m
    (fun i => fontSlice_length _ _ _) (by omega)
    (by rw [hoffv]; exact Int.ofNat_nonneg _) (by rw [hoffv]; omega)
  obtain ⟨hwr, hscr, hl, -, hov⟩ := hrun
  have hglyphs : (List.range m).flatMap
      (fun i => fontSlice ucSmallFont (szMsg.getD i 0 * 6) 6) =
      (szMsg.take m).flatMap (fun ch => fontSlice ucSmallFont (ch * 6) 6) := by
    rw [← range_map_getD szMsg m hm, List.flatMap_map]
  have hpackets : (List.range m).map
      (fun i => 0x40 :: fontSlice ucSmallFont (szMsg.getD i 0 * 6) 6) =
      (szMsg.take m).map (fun ch => 0x40 :: fontSlice ucSmallFont (ch * 6) 6) := by
    rw [← range_map_getD szMsg m hm, List.map_map]
    rfl
  have hpos : positionPackets s.oled_type s.oled_flip (x * 6) y =
      addressCommands s.oled_type s.oled_flip (6 * x.toNat) y.toNat := by
    have hx6 : x * 6 = ((6 * x.toNat : Nat) : Int) := by omega
    have hyn : y = ((y.toNat : Nat) : Int) := by omega
    rw [hx6]
    conv_lhs => rw [hyn]
    exact positionPackets_onPanel _ _ _ _ (by omega) (by omega)
  refine ⟨by rw [hval], ?_, ?_, ?_, ?_, ?_⟩
  · rw [hval]
    show (forLoop m _ _).written = _
    rw [hwr, oledSetPosition_written, hpos, hpackets]
  · rw [hval]
    show (forLoop m _ _).ucScreen = _
    rw [hscr, hglyphs, hoffv, Int.toNat_ofNat, oledSetPosition_ucScreen]
  · rw [← hglyphs, hl]
  · rw [hval]
    show (forLoop m _ _).overrun = _
    rw [hov, oledSetPosition_overrun]
  · intro hfull ch
    rw [oledWriteString_small_eq ucFont ucSmallFont s x y (szMsg ++ [ch]) hinit,
      oledWriteString_small_eq ucFont ucSmallFont s x y szMsg hinit]
    have hc1 : (if ((szMsg ++ [ch]).length : Int) + x > 21 then 21 - x
        else ((szMsg ++ [ch]).length : Int)) = (szMsg.length : Int) := by
      rw [List.length_append, List.length_singleton]
      split_ifs with h <;> omega
    have hc2 : (if (szMsg.length : Int) + x > 21 then 21 - x
        else (szMsg.length : Int)) = (szMsg.length : Int) := by
      split_ifs with h <;> omega
    rw [hc1, hc2, if_neg (by omega), if_neg (by omega), Int.toNat_ofNat]
    have hloop := forLoop_congr szMsg.length
      (fun i st => oledWriteDataBlock st
        (fontSlice ucSmallFont ((szMsg ++ [ch]).getD i 0 * 6) 6))
      (fun i st => oledWriteDataBlock st (fontSlice ucSmallFont (szMsg.getD i 0 * 6) 6))
      (oledSetPosition s (x * 6) y)
      (fun i hi st => by
        have : (szMsg ++ [ch]).getD i 0 = szMsg.getD i 0 := by
          simp [List.getD_eq_getElem?_getD, List.getElem?_append_left hi]
        simp only [this])
    rw [hloop]

/-- Witness for C8: three characters written from cell 19 of page 1 are cut to
two, the third being dropped. -/
theorem oledWriteString_small_witness :
    (oledWriteString (fun i => i % 256) (fun i => i % 256)
        { State.boot with file_i2c := 3, oled_type := OLED_128x64 } 19 1 [65, 66, 67]
        FONT_SMALL).2.written =
      [[0x00, 0xB1], [0x00, 0x02], [0x00, 0x17],
       [0x40, 134, 135, 136, 137, 138, 139], [0x40, 140, 141, 142, 143, 144, 145]] := by
  rw [(oledWriteString_small (fun i => i % 256) (fun i => i % 256)
    { State.boot with file_i2c := 3, oled_type := OLED_128x64 } 19 1 [65, 66, 67]
    (by decide) (by decide) (by decide) (by decide) (by decide)).2.1]
  decide

/-- C9 (as stated, refuted): with zero room left (start cell 21 for the small
font, 16 for the normal font, 8 for the big font) `oledWriteString` returns 0,
not an error; it sends no data packet. -/
theorem oledWriteString_zero_room :
    (oledWriteString (fun _ => 0) (fun _ => 0)
      { State.boot with file_i2c := 3, oled_type := OLED_128x64 } 21 0 [65] FONT_SMALL).1 = 0 ∧
    (oledWriteString (fun _ => 0) (fun _ => 0)
      { State.boot with file_i2c := 3, oled_type := OLED_128x64 } 16 0 [65] FONT_NORMAL).1 = 0 ∧
    (oledWriteString (fun _ => 0) (fun _ => 0)
      { State.boot with file_i2c := 3, oled_type := OLED_128x64 } 8 0 [65] FONT_BIG).1 = 0 ∧
    (oledWriteString (fun _ => 0) (fun _ => 0)
      { State.boot with file_i2c := 3, oled_type := OLED_128x64 } 21 0 [65]
        FONT_SMALL).2.written = [[0x00, 0xB0], [0x00, 0x0E], [0x00, 0x17]] := by
  decide

/-- A start cell that leaves negative room makes `oledWriteString` return -1. -/
theorem writeString_negative_room (ucFont ucSmallFont : Nat → Nat) (s : State) (x y : Int)
    (szMsg : List Nat) (iSize : Int)
    (hnormal : iSize = FONT_NORMAL → 16 < x) (hbig : iSize = FONT_BIG → 8 < x)
    (hsmall : iSize = FONT_SMALL → 21 < x) :
    (oledWriteString ucFont ucSmallFont s x y szMsg iSize).1 = -1 := by
  unfold oledWriteString
  by_cases hinit : s.file_i2c = 0
  · rw [if_pos hinit]
  · rw [if_neg hinit]
    by_cases hsz : iSize < FONT_NORMAL ∨ iSize > FONT_SMALL
    · rw [if_pos hsz]
    · rw [if_neg hsz]
      by_cases hb : iSize = FONT_BIG
      · have := hbig hb
        have hneg : (if (szMsg.length : Int) + x > 8 then 8 - x else (szMsg.length : Int)) < 0 := by
          split_ifs with h <;> omega
        simp only [if_pos hb, hneg, if_true]
      · by_cases hn : iSize = FONT_NORMAL
        · have := hnormal hn
          have hneg : (if (szMsg.length : Int) + x > 16 then 16 - x
              else (szMsg.length : Int)) < 0 := by
            split_ifs with h <;> omega
          simp only [if_neg hb, if_pos hn, hneg, if_true]
        · have hs : iSize = FONT_SMALL := by
            simp only [FONT_NORMAL, FONT_BIG, FONT_SMALL] at hsz hb hn ⊢
            omega
          have := hsmall hs
          have hneg : (if (szMsg.length : Int) + x > 21 then 21 - x
              else (szMsg.length : Int)) < 0 := by
            split_ifs with h <;> omega
          simp only [if_neg hb, if_neg hn, hneg, if_true]

/-- C9 (amended): for every font size and every text, `oledWriteString` returns
the error -1 whenever the start cell leaves negative room: x > 16 for the normal
font, x > 8 for the big font, x > 21 for the small font; this for start cells
and texts for which the `int` values `iLen + x` and `x * 8` of the function do
not overflow. -/
theorem oledWriteString_no_room (ucFont ucSmallFont : Nat → Nat) (s : State) (x y : Int)
    (szMsg : List Nat) (iSize : Int)
    (_hsum : fitsInt ((szMsg.length : Int) + x)) (_hmul : fitsInt (x * 8))
    (hnormal : iSize = FONT_NORMAL → 16 < x) (hbig : iSize = FONT_BIG → 8 < x)
    (hsmall : iSize = FONT_SMALL → 21 < x) :
    (oledWriteString ucFont ucSmallFont s x y szMsg iSize).1 = -1 :=
  writeString_negative_room ucFont ucSmallFont s x y szMsg iSize hnormal hbig hsmall

/-- Witness for C9 (amended): start cell 22 with the small font. -/
theorem oledWriteString_no_room_witness :
    (oledWriteString (fun _ => 0) (fun _ => 0)
      { State.boot with file_i2c := 3, oled_type := OLED_128x64 } 22 0 [65] FONT_SMALL).1 = -1 :=
  oledWriteString_no_room (fun _ => 0) (fun _ => 0)
    { State.boot with file_i2c := 3, oled_type := OLED_128x64 } 22 0 [65] FONT_SMALL
    (by decide) (by decide) (by decide) (by decide) (by decide)

/-! ## Uninitialized session -/

theorem plot_uninitialized (s : State) (pts : List (Int × Int)) (ucColor : Nat)
    (h : s.file_i2c = 0) : plot s pts ucColor = s := by
  unfold plot
  induction pts with
  | nil => rfl
  | cons p rest ih =>
    rw [List.foldl_cons]
    have : (oledSetPixel s p.1 p.2 ucColor).2 = s := by
      unfold oledSetPixel; rw [if_pos h]
    rw [this]; exact ih

/-- C10 (as stated, refuted): on the session as the program starts (never
initialized) `oledLine` from (0,0) to (3,2) returns 0, and `oledPrintf` returns
the length of the formatted text, 0 for an empty one and 2 for a text of two
characters, whatever `oledWriteString` reported. -/
theorem uninitialized_not_reported :
    (oledLine 4 State.boot 0 0 3 2 1).map Prod.fst = some 0 ∧
    (oledPrintf (fun _ => 0) (fun _ => 0) State.boot 0 0 [] FONT_NORMAL).1 = 0 ∧
    (oledPrintf (fun _ => 0) (fun _ => 0) State.boot 0 0 [72, 105] FONT_NORMAL).1 = 2 ∧
    (oledWriteString (fun _ => 0) (fun _ => 0) State.boot 0 0 [72, 105] FONT_NORMAL).1 = -1 := by
  decide

/-- C10 (amended): while the session is uninitialized, `oledSetContrast`,
`oledFill`, `oledSetPixel` and `oledWriteString` each return the non-zero
error -1 and hand back the state untouched (no packet written, shadow buffer
unchanged); a session is uninitialized at program start, after a failed
`oledInit` and after `oledShutdown`. -/
theorem uninitialized_error (ucFont ucSmallFont : Nat → Nat) (s : State)
    (h : s.file_i2c = 0) :
    (∀ ucContrast, oledSetContrast s ucContrast = (-1, s)) ∧
    (∀ ucData, oledFill s ucData = (-1, s)) ∧
    (∀ x y ucColor, oledSetPixel s x y ucColor = (-1, s)) ∧
    (∀ x y szMsg iSize, oledWriteString ucFont ucSmallFont s x y szMsg iSize = (-1, s)) ∧
    State.boot.file_i2c = 0 ∧
    (∀ (t : State) (fd rc iType bFlip bInvert : Int),
      (oledInit t fd rc iType bFlip bInvert).1 ≠ 0 →
        (oledInit t fd rc iType bFlip bInvert).2.file_i2c = 0) ∧
    (∀ t : State, (oledShutdown t).file_i2c = 0) := by
  refine ⟨?_, ?_, ?_, ?_, rfl, ?_, ?_⟩
  · intro c; unfold oledSetContrast; rw [if_pos h]
  · intro c; unfold oledFill; rw [if_pos h]
  · intro x y c; unfold oledSetPixel; rw [if_pos h]
  · intro x y m sz; unfold oledWriteString; rw [if_pos h]
  · intro t fd rc iType bFlip bInvert hne
    unfold oledInit at hne ⊢
    by_cases hfd : fd < 0
    · simp only [if_pos hfd]
    · by_cases hrc : rc < 0
      · simp only [if_neg hfd, if_pos hrc]
      · simp only [if_neg hfd, if_neg hrc] at hne
        exact absurd rfl hne
  · intro t
    unfold oledShutdown
    by_cases ht : t.file_i2c = 0
    · simp only [ne_eq, ht, not_true_eq_false, if_false]
    · simp only [ne_eq, ht, not_false_eq_true, if_true]

/-- Witness for C10 (amended): the four calls on the session at program start. -/
theorem uninitialized_error_witness :
    (oledSetContrast State.boot 0x7F).1 = -1 ∧ (oledFill State.boot 0).1 = -1 ∧
    (oledSetPixel State.boot 0 0 1).1 = -1 ∧
    (oledWriteString (fun _ => 0) (fun _ => 0) State.boot 0 0 [65] FONT_NORMAL).1 = -1 :=
  ⟨congrArg Prod.fst ((uninitialized_error (fun _ => 0) (fun _ => 0) State.boot rfl).1 0x7F),
   congrArg Prod.fst ((uninitialized_error (fun _ => 0) (fun _ => 0) State.boot rfl).2.1 0),
   congrArg Prod.fst ((uninitialized_error (fun _ => 0) (fun _ => 0) State.boot rfl).2.2.1 0 0 1),
   congrArg Prod.fst
     ((uninitialized_error (fun _ => 0) (fun _ => 0) State.boot rfl).2.2.2.1 0 0 [65]
       FONT_NORMAL)⟩

/-! ## Shadow buffer against the controller -/

/-- C4 (the code at the failing input): a 128x64 session fresh from `oledInit`,
controller RAM cleared, mirrors the device; `oledSetPixel 128 0 1` is accepted
(returns 0) and sends the address commands of page 0, column 128 with the data
byte 1, so the controller stores the byte in page 0 while the shadow buffer
stores it at index 128, the cell of page 1, column 0: there the shadow byte is
1 and the device byte is 0, and the mirror invariant is lost. -/
theorem mirror_lost_offPanel :
    Mirror (oledInit State.boot 3 0 OLED_128x64 0 0).2
      (Device.run ⟨0, 0, fun _ _ => 0⟩ (oledInit State.boot 3 0 OLED_128x64 0 0).2.written) ∧
    (oledSetPixel (oledInit State.boot 3 0 OLED_128x64 0 0).2 128 0 1).1 = 0 ∧
    (oledSetPixel (oledInit State.boot 3 0 OLED_128x64 0 0).2 128 0 1).2.written =
      [oled64_initbuf, [0x00, 0xB0], [0x00, 0x00], [0x00, 0x18], [0x40, 0x01]] ∧
    (oledSetPixel (oledInit State.boot 3 0 OLED_128x64 0 0).2 128 0 1).2.ucScreen
      (1 * 128 + 0) = 1 ∧
    (Device.run ⟨0, 0, fun _ _ => 0⟩
      (oledSetPixel (oledInit State.boot 3 0 OLED_128x64 0 0).2 128 0 1).2.written).ram 1 0
        = 0 ∧
    (Device.run ⟨0, 0, fun _ _ => 0⟩
      (oledSetPixel (oledInit State.boot 3 0 OLED_128x64 0 0).2 128 0 1).2.written).ram 0 128
        = 1 ∧
    ¬ Mirror (oledSetPixel (oledInit State.boot 3 0 OLED_128x64 0 0).2 128 0 1).2
      (Device.run ⟨0, 0, fun _ _ => 0⟩
        (oledSetPixel (oledInit State.boot 3 0 OLED_128x64 0 0).2 128 0 1).2.written) := by
  have hshadow : (oledSetPixel (oledInit State.boot 3 0 OLED_128x64 0 0).2 128 0 1).2.ucScreen
      (1 * 128 + 0) = 1 := by decide
  have hdevice : (Device.run ⟨0, 0, fun _ _ => 0⟩
      (oledSetPixel (oledInit State.boot 3 0 OLED_128x64 0 0).2 128 0 1).2.written).ram 1 0
        = 0 := by decide
  refine ⟨?_, by decide, by decide, hshadow, hdevice, by decide, ?_⟩
  · intro page col _ _
    rfl
  · intro hm
    have h := hm 1 0 (by decide) (by decide)
    have hp : correctedPage
        (oledSetPixel (oledInit State.boot 3 0 OLED_128x64 0 0).2 128 0 1).2.oled_type
        (oledSetPixel (oledInit State.boot 3 0 OLED_128x64 0 0).2 128 0 1).2.oled_flip 1 = 1 := by
      decide
    have hc : correctedColumn
        (oledSetPixel (oledInit State.boot 3 0 OLED_128x64 0 0).2 128 0 1).2.oled_type 0 = 0 := by
      decide
    rw [hp, hc, hshadow, hdevice] at h
    exact absurd h (by decide)

/-! ## The controller model -/

theorem Device.receive_command (d : Device) (c : Nat) :
    d.receive [0x00, c] = d.command c := rfl

theorem Device.receive_data (d : Device) (bytes : List Nat) :
    d.receive (0x40 :: bytes) = bytes.foldl Device.data d := by
  unfold Device.receive
  split
  · rename_i h; simp at h
  · rename_i h; simp at h; rw [h]
  · rfl

theorem Device.run_append (d : Device) (a b : List (List Nat)) :
    d.run (a ++ b) = (d.run a).run b := by
  unfold Device.run
  rw [List.foldl_append]

theorem Device.command_ram (d : Device) (c : Nat) : (d.command c).ram = d.ram := by
  unfold Device.command
  split_ifs <;> rfl

theorem or_B0 (b : Nat) (hb : b < 8) : 0xB0 ||| b = 0xB0 + b := by
  interval_cases b <;> rfl

theorem or_10 (h : Nat) (hh : h < 16) : 0x10 ||| h = 0x10 + h := by
  interval_cases h <;> rfl

/-- The three address commands latch the corrected page and column and leave
the RAM alone. -/
theorem Device.run_address (d : Device) (a b : Nat) (ha : a < 256) (hb : b < 8) :
    d.run [[0x00, 0xB0 ||| b], [0x00, a &&& 0x0F], [0x00, 0x10 ||| ((a >>> 4) &&& 0x0F)]] =
      { page := b, col := a, ram := d.ram } := by
  have e1 : a &&& 0x0F = a % 16 := Nat.and_pow_two_sub_one_eq_mod a 4
  have e2 : (a >>> 4) &&& 0x0F = (a / 16) % 16 := by
    rw [Nat.shiftRight_eq_div_pow]; exact Nat.and_pow_two_sub_one_eq_mod _ 4
  rw [or_B0 b hb, e1, e2, or_10 _ (Nat.mod_lt _ (by decide))]
  simp only [Device.run, List.foldl_cons, List.foldl_nil, Device.receive_command]
  have c1 : Device.command d (0xB0 + b) = { d with page := b } := by
    unfold Device.command
    rw [if_pos (by omega)]
    have : 0xB0 + b - 0xB0 = b := by omega
    rw [this]
  rw [c1]
  have c2 : Device.command { d with page := b } (a % 16) =
      { page := b, col := (d.col / 16) * 16 + a % 16, ram := d.ram } := by
    unfold Device.command
    rw [if_neg (by omega), if_pos (by omega)]
  rw [c2]
  unfold Device.command
  rw [if_neg (by omega), if_neg (by omega), if_pos (by omega)]
  have : (0x10 + a / 16 % 16 - 0x10) * 16 + (d.col / 16 * 16 + a % 16) % 16 = a := by omega
  simp only [this]

theorem Device.data_run (bytes : List Nat) (d : Device) :
    (bytes.foldl Device.data d).page = d.page ∧
    (bytes.foldl Device.data d).col = d.col + bytes.length ∧
    ∀ p c, (bytes.foldl Device.data d).ram p c =
      if p = d.page ∧ d.col ≤ c ∧ c < d.col + bytes.length then bytes.getD (c - d.col) 0
      else d.ram p c := by
  induction bytes generalizing d with
  | nil =>
    refine ⟨rfl, rfl, ?_⟩
    intro p c
    have : ¬ (p = d.page ∧ d.col ≤ c ∧ c < d.col + ([] : List Nat).length) := by
      simp
    rw [if_neg this]
    rfl
  | cons b rest ih =>
    obtain ⟨hp, hc, hr⟩ := ih (d.data b)
    rw [List.foldl_cons]
    refine ⟨by rw [hp]; rfl, by rw [hc]; simp [Device.data]; omega, ?_⟩
    intro p c
    rw [hr p c]
    have hpg : (d.data b).page = d.page := rfl
    have hcl : (d.data b).col = d.col + 1 := rfl
    have hrm : (d.data b).ram p c = if p = d.page ∧ c = d.col then b else d.ram p c := rfl
    rw [hpg, hcl, hrm, List.length_cons]
    by_cases h1 : p = d.page ∧ d.col + 1 ≤ c ∧ c < d.col + 1 + rest.length
    · have h2 : p = d.page ∧ d.col ≤ c ∧ c < d.col + (rest.length + 1) := by omega
      rw [if_pos h1, if_pos h2]
      have hsub : c - d.col = (c - (d.col + 1)) + 1 := by omega
      rw [hsub]
      simp [List.getD_eq_getElem?_getD]
    · rw [if_neg h1]
      by_cases h3 : p = d.page ∧ c = d.col
      · have h2 : p = d.page ∧ d.col ≤ c ∧ c < d.col + (rest.length + 1) := by omega
        rw [if_pos h3, if_pos h2]
        have hsub : c - d.col = 0 := by omega
        rw [hsub]
        simp [List.getD_eq_getElem?_getD]
      · have h2 : ¬ (p = d.page ∧ d.col ≤ c ∧ c < d.col + (rest.length + 1)) := by omega
        rw [if_neg h3, if_neg h2]

/-- Address commands never change the RAM, whatever the coordinates. -/
theorem Device.run_positionPackets_ram (d : Device) (t flip x y : Int) :
    (d.run (positionPackets t flip x y)).ram = d.ram := by
  unfold positionPackets
  simp only [Device.run, List.foldl_cons, List.foldl_nil, Device.receive_command,
    Device.command_ram]

theorem correctedPage_lt (t flip : Int) (y : Nat) (hy : y < panelPages t) :
    correctedPage t flip y < 8 := by
  unfold correctedPage
  unfold panelPages at hy
  split_ifs at hy ⊢ <;> omega

theorem correctedColumn_lt (t : Int) (x : Nat) (hx : x < 128) : correctedColumn t x < 256 := by
  unfold correctedColumn
  split_ifs <;> omega

/-! ## The mirror invariant on the rows of the panel -/

/-- Moving the cursor anywhere keeps the mirror invariant. -/
theorem MirrorInv.setPosition {d0 : Device} {t flip : Int} {s : State}
    (h : MirrorInv d0 t flip s) (x y : Int) : MirrorInv d0 t flip (oledSetPosition s x y) := by
  obtain ⟨ht, hf, hfd, hov, hm⟩ := h
  refine ⟨ht, hf, hfd, hov, ?_⟩
  intro page col hp hc
  rw [oledSetPosition_written, Device.run_append, Device.run_positionPackets_ram]
  exact hm page col hp hc

/-- Moving the cursor to a column below 128 of a page of the panel latches the
same cell in the session and in the controller. -/
theorem MirrorInv.setPosition_at {d0 : Device} {t flip : Int} {s : State}
    (h : MirrorInv d0 t flip s) (x y : Nat) (hx : x < 128) (hy : y < panelPages t) :
    MirrorAt d0 t flip (oledSetPosition s (x : Int) (y : Int)) x y := by
  refine ⟨h.setPosition _ _, ?_, ?_, ?_⟩
  · rw [oledSetPosition_iScreenOffset]; push_cast; ring
  · have hy8 : y < 8 := lt_of_lt_of_le hy (panelPages_le t)
    rw [oledSetPosition_written, Device.run_append, h.1, h.2.1,
      positionPackets_onPanel t flip x y hx hy8]
    unfold addressCommands
    rw [Device.run_address _ _ _ (correctedColumn_lt t x hx) (correctedPage_lt t flip y hy)]
  · have hy8 : y < 8 := lt_of_lt_of_le hy (panelPages_le t)
    rw [oledSetPosition_written, Device.run_append, h.1, h.2.1,
      positionPackets_onPanel t flip x y hx hy8]
    unfold addressCommands
    rw [Device.run_address _ _ _ (correctedColumn_lt t x hx) (correctedPage_lt t flip y hy)]

theorem correctedPage_inj (t flip : Int) (a b : Nat) :
    correctedPage t flip a = correctedPage t flip b ↔ a = b := by
  unfold correctedPage
  split_ifs <;> omega

theorem correctedColumn_add (t : Int) (x n : Nat) :
    correctedColumn t (x + n) = correctedColumn t x + n := by
  unfold correctedColumn
  split_ifs <;> omega

theorem correctedColumn_sub (t : Int) (a b : Nat) :
    correctedColumn t a - correctedColumn t b = a - b := by
  unfold correctedColumn
  split_ifs <;> omega

theorem correctedColumn_le (t : Int) (a b : Nat) :
    correctedColumn t a ≤ correctedColumn t b ↔ a ≤ b := by
  unfold correctedColumn
  split_ifs <;> omega

theorem correctedColumn_lt_add (t : Int) (a b n : Nat) :
    correctedColumn t a < correctedColumn t b + n ↔ a < b + n := by
  unfold correctedColumn
  split_ifs <;> omega

/-- A block write that ends inside the row of the latched page keeps the mirror
invariant and leaves both cursors behind the block. -/
theorem MirrorAt.write {d0 : Device} {t flip : Int} {s : State} {x y : Nat}
    (h : MirrorAt d0 t flip s x y) (ucBuf : List Nat)
    (hx : x + ucBuf.length ≤ 128) (hy : y < panelPages t) :
    MirrorAt d0 t flip (oledWriteDataBlock s ucBuf) (x + ucBuf.length) y := by
  obtain ⟨⟨ht, hf, hfd, hov, hm⟩, hoff, hpage, hcol⟩ := h
  have hy8 : y < 8 := lt_of_lt_of_le hy (panelPages_le t)
  have hfit := oledWriteDataBlock_fits s ucBuf (by omega) (by rw [hoff]; omega)
    (by rw [hoff]; omega)
  have hdev : Device.run d0 (oledWriteDataBlock s ucBuf).written =
      ucBuf.foldl Device.data (Device.run d0 s.written) := by
    rw [oledWriteDataBlock_written, Device.run_append]
    simp only [Device.run, List.foldl_cons, List.foldl_nil, Device.receive_data]
  obtain ⟨dpage, dcol, dram⟩ := Device.data_run ucBuf (Device.run d0 s.written)
  refine ⟨⟨ht, hf, hfd, by rw [hfit.2, hov], ?_⟩, ?_, ?_, ?_⟩
  · intro page col hp hc
    have hw := panelWidth_le t
    rw [oledWriteDataBlock_oled_type, ht] at hp hc
    rw [oledWriteDataBlock_oled_type, oledWriteDataBlock_oled_flip, ht, hf, hfit.1, hdev,
      dram, hpage, hcol, hoff, Int.toNat_ofNat]
    unfold memcpy
    by_cases hin : y * 128 + x ≤ page * 128 + col ∧ page * 128 + col < y * 128 + x + ucBuf.length
    · have hpy : page = y := by omega
      have hcx : x ≤ col ∧ col < x + ucBuf.length := by omega
      rw [if_pos hin, if_pos ⟨by rw [hpy], (correctedColumn_le t x col).mpr hcx.1,
        (correctedColumn_lt_add t col x _).mpr hcx.2⟩, correctedColumn_sub]
      congr 1
      omega
    · have hout : ¬ (correctedPage t flip page = correctedPage t flip y ∧
          correctedColumn t x ≤ correctedColumn t col ∧
          correctedColumn t col < correctedColumn t x + ucBuf.length) := by
        rw [correctedPage_inj, correctedColumn_le, correctedColumn_lt_add]
        omega
      rw [if_neg hin, if_neg hout]
      have := hm page col (by rw [ht]; exact hp) (by rw [ht]; exact hc)
      rw [ht, hf] at this
      exact this
  · rw [oledWriteDataBlock_iScreenOffset, hoff]; push_cast; ring
  · rw [hdev, dpage, hpage]
  · rw [hdev, dcol, hcol, correctedColumn_add]

theorem forLoop_inv (P : State → Prop) (n : Nat) (body : Nat → State → State) (s : State)
    (hs : P s) (hbody : ∀ i, i < n → ∀ st, P st → P (body i st)) : P (forLoop n body s) := by
  induction n with
  | zero => exact hs
  | succ n ih =>
    rw [forLoop_succ]
    exact hbody n (by omega) _ (ih (fun i hi st hst => hbody i (by omega) st hst))

/-- One cursor move to column `x < 128` of a panel page followed by a block that
ends inside the row keeps the mirror invariant. -/
theorem MirrorInv.block {d0 : Device} {t flip : Int} {s : State}
    (h : MirrorInv d0 t flip s) (x y : Int) (ucBuf : List Nat)
    (hx0 : 0 ≤ x) (hx1 : x + (ucBuf.length : Int) ≤ 128) (hx2 : x < 128)
    (hy0 : 0 ≤ y) (hy1 : y < (panelPages t : Int)) :
    MirrorInv d0 t flip (oledWriteDataBlock (oledSetPosition s x y) ucBuf) := by
  obtain ⟨m, rfl⟩ := Int.eq_ofNat_of_zero_le hx0
  obtain ⟨n, rfl⟩ := Int.eq_ofNat_of_zero_le hy0
  have hn : n < panelPages t := by exact_mod_cast hy1
  exact ((h.setPosition_at m n (by omega) hn).write ucBuf (by omega) hn).1

/-- The mirror invariant survives `oledSetPixel` at 0 ≤ x < 128 on a pixel row
of the panel. -/
theorem MirrorInv.setPixel {d0 : Device} {t flip : Int} {s : State}
    (h : MirrorInv d0 t flip s) (x y : Int) (ucColor : Nat)
    (hx0 : 0 ≤ x) (hx1 : x < 128) (hy0 : 0 ≤ y) (hy1 : y < 8 * (panelPages t : Int)) :
    MirrorInv d0 t flip (oledSetPixel s x y ucColor).2 := by
  have hp8 := panelPages_le t
  have hy64 : y < 64 := by omega
  obtain ⟨hidx, _, hle⟩ := onPanel_index x y hx0 hx1 hy0 hy64
  have h0 : 0 ≤ (y >>> (3 : Nat)) * 128 + x := by rw [hidx]; exact Int.ofNat_nonneg _
  have h1 : (y >>> (3 : Nat)) * 128 + x ≤ 1023 := by rw [hidx]; exact_mod_cast hle
  have hpage : y >>> (3 : Nat) = ((y.toNat / 8 : Nat) : Int) := by
    obtain ⟨n, rfl⟩ := Int.eq_ofNat_of_zero_le hy0
    rw [shiftRight_three]; simp
  rw [oledSetPixel_inRange s x y ucColor h.2.2.1 h0 h1]
  split
  · exact h.block x _ _ hx0 (by simp; omega) hx1 (by rw [hpage]; exact Int.ofNat_nonneg _)
      (by rw [hpage]; omega)
  · exact h

/-- The mirror invariant survives `oledFill`. -/
theorem MirrorInv.fill {d0 : Device} {t flip : Int} {s : State}
    (h : MirrorInv d0 t flip s) (ucData : Nat) : MirrorInv d0 t flip (oledFill s ucData).2 := by
  rw [oledFill_eq s ucData h.2.2.1, h.1]
  apply forLoop_inv (MirrorInv d0 t flip) _ _ _ h
  intro i hi st hst
  have hw := panelWidth_le t
  exact hst.block 0 (i : Int) _ (le_refl _) (by simp; omega) (by decide)
    (Int.ofNat_nonneg _) (by exact_mod_cast hi)

/-- Consecutive glyph blocks behind a latched cursor keep the mirror invariant
as long as they end inside the row. -/
theorem MirrorAt.glyphs {d0 : Device} {t flip : Int} {s1 : State} {x y : Nat}
    (h : MirrorAt d0 t flip s1 x y) (glyph : Nat → List Nat) (w k : Nat)
    (hlen : ∀ i, (glyph i).length = w) (hx : x + w * k ≤ 128) (hy : y < panelPages t) :
    MirrorAt d0 t flip (forLoop k (fun i st => oledWriteDataBlock st (glyph i)) s1)
      (x + w * k) y := by
  induction k with
  | zero => simpa [forLoop_zero] using h
  | succ k ih =>
    have hmul : w * (k + 1) = w * k + w := by ring
    rw [forLoop_succ]
    have hk := ih (by rw [hmul] at hx; omega)
    have := hk.write (glyph k) (by rw [hlen]; omega) hy
    rw [hlen, Nat.add_assoc, ← hmul] at this
    exact this

/-- The normal-font branch of `oledWriteString` on an initialized session. -/
theorem oledWriteString_normal_eq (ucFont ucSmallFont : Nat → Nat) (s : State) (x y : Int)
    (szMsg : List Nat) (hinit : s.file_i2c ≠ 0) :
    oledWriteString ucFont ucSmallFont s x y szMsg FONT_NORMAL =
      if (if (szMsg.length : Int) + x > 16 then 16 - x else (szMsg.length : Int)) < 0 then
        (-1, oledSetPosition s (x * 8) y)
      else
        (0, forLoop (if (szMsg.length : Int) + x > 16 then 16 - x
            else (szMsg.length : Int)).toNat
          (fun i st => oledWriteDataBlock st (fontSlice ucFont (szMsg.getD i 0 * 8) 8))
          (oledSetPosition s (x * 8) y)) := by
  unfold oledWriteString
  rw [if_neg hinit]
  simp only [FONT_SMALL, FONT_NORMAL, FONT_BIG]
  rw [if_neg (by decide), if_neg (by decide), if_pos trivial]

/-- The big-font branch of `oledWriteString` on an initialized session. -/
theorem oledWriteString_big_eq (ucFont ucSmallFont : Nat → Nat) (s : State) (x y : Int)
    (szMsg : List Nat) (hinit : s.file_i2c ≠ 0) :
    oledWriteString ucFont ucSmallFont s x y szMsg FONT_BIG =
      if (if (szMsg.length : Int) + x > 8 then 8 - x else (szMsg.length : Int)) < 0 then
        (-1, s)
      else
        (0, forLoop (if (szMsg.length : Int) + x > 8 then 8 - x
            else (szMsg.length : Int)).toNat
          (fun i st =>
            oledWriteDataBlock
              (oledSetPosition
                (oledWriteDataBlock
                  (oledSetPosition
                    (oledWriteDataBlock (oledSetPosition st (x * 16 + ((i : Int) * 16)) y)
                      (fontSlice ucFont (9728 + szMsg.getD i 0 * 64) 16))
                    (x * 16 + ((i : Int) * 16)) (y + 1))
                  (fontSlice ucFont (9728 + szMsg.getD i 0 * 64 + 16) 16))
                (x * 16 + ((i : Int) * 16)) (y + 2))
              (fontSlice ucFont (9728 + szMsg.getD i 0 * 64 + 32) 16)) s) := by
  unfold oledWriteString
  rw [if_neg hinit]
  simp only [FONT_SMALL, FONT_NORMAL, FONT_BIG]
  rw [if_neg (by decide), if_pos trivial]

/-- A cursor move followed by glyph blocks of `w` bytes each, started at a
non-negative column and ending inside the row of a panel page, keeps the mirror
invariant; so does the bare cursor move when no glyph is written. -/
theorem MirrorInv.text {d0 : Device} {t flip : Int} {s : State}
    (h : MirrorInv d0 t flip s) (x y : Int) (glyph : Nat → List Nat) (w k : Nat)
    (hlen : ∀ i, (glyph i).length = w) (hx0 : 0 ≤ x)
    (hx1 : 0 < k → x + ((w * k : Nat) : Int) ≤ 128 ∧ x < 128)
    (hy0 : 0 ≤ y) (hy1 : y < (panelPages t : Int)) :
    MirrorInv d0 t flip
      (forLoop k (fun i st => oledWriteDataBlock st (glyph i)) (oledSetPosition s x y)) := by
  by_cases hk : k = 0
  · subst hk
    exact h.setPosition x y
  · obtain ⟨hfit, hx2⟩ := hx1 (by omega)
    obtain ⟨m, rfl⟩ := Int.eq_ofNat_of_zero_le hx0
    obtain ⟨n, rfl⟩ := Int.eq_ofNat_of_zero_le hy0
    have hn : n < panelPages t := by exact_mod_cast hy1
    exact ((h.setPosition_at m n (by omega) hn).glyphs glyph w k hlen (by omega) hn).1

/-- The mirror invariant survives `oledWriteString` for a text that starts at a
non-negative cell and whose glyph rows are pages of the panel. -/
theorem MirrorInv.writeString {d0 : Device} {t flip : Int} {s : State}
    (h : MirrorInv d0 t flip s) (ucFont ucSmallFont : Nat → Nat) (x y : Int)
    (szMsg : List Nat) (iSize : Int) (hx0 : 0 ≤ x) (hy0 : 0 ≤ y)
    (hy1 : y + (if iSize = FONT_BIG then 3 else 1) ≤ (panelPages t : Int)) :
    MirrorInv d0 t flip (oledWriteString ucFont ucSmallFont s x y szMsg iSize).2 := by
  have hinit := h.2.2.1
  by_cases hb : iSize = FONT_BIG
  · subst hb
    rw [if_pos rfl] at hy1
    rw [oledWriteString_big_eq ucFont ucSmallFont s x y szMsg hinit]
    have hroom : (if (szMsg.length : Int) + x > 8 then 8 - x else (szMsg.length : Int)) + x ≤ 8 := by
      split_ifs with hlong <;> omega
    generalize (if (szMsg.length : Int) + x > 8 then 8 - x else (szMsg.length : Int)) = iLen
      at hroom ⊢
    by_cases hneg : iLen < 0
    · rw [if_pos hneg]; exact h
    · rw [if_neg hneg]
      apply forLoop_inv (MirrorInv d0 t flip) _ _ _ h
      intro i hi st hst
      have h16 : ∀ g, ((fontSlice ucFont g 16).length : Int) = 16 := fun g => by
        rw [fontSlice_length]; rfl
      have b1 := hst.block (x * 16 + ((i : Int) * 16)) y
        (fontSlice ucFont (9728 + szMsg.getD i 0 * 64) 16)
        (by omega) (by rw [h16]; omega) (by omega) hy0 (by omega)
      have b2 := b1.block (x * 16 + ((i : Int) * 16)) (y + 1)
        (fontSlice ucFont (9728 + szMsg.getD i 0 * 64 + 16) 16)
        (by omega) (by rw [h16]; omega) (by omega) (by omega) (by omega)
      exact b2.block (x * 16 + ((i : Int) * 16)) (y + 2)
        (fontSlice ucFont (9728 + szMsg.getD i 0 * 64 + 32) 16)
        (by omega) (by rw [h16]; omega) (by omega) (by omega) (by omega)
  · rw [if_neg hb] at hy1
    by_cases hn : iSize = FONT_NORMAL
    · subst hn
      rw [oledWriteString_normal_eq ucFont ucSmallFont s x y szMsg hinit]
      have hroom : (if (szMsg.length : Int) + x > 16 then 16 - x
          else (szMsg.length : Int)) + x ≤ 16 := by
        split_ifs with hlong <;> omega
      generalize (if (szMsg.length : Int) + x > 16 then 16 - x else (szMsg.length : Int)) = iLen
        at hroom ⊢
      by_cases hneg : iLen < 0
      · rw [if_pos hneg]; exact h.setPosition _ _
      · rw [if_neg hneg]
        exact h.text (x * 8) y _ 8 _ (fun i => fontSlice_length _ _ _) (by omega)
          (fun hpos => by omega) hy0 (by omega)
    · by_cases hs : iSize = FONT_SMALL
      · subst hs
        rw [oledWriteString_small_eq ucFont ucSmallFont s x y szMsg hinit]
        have hroom : (if (szMsg.length : Int) + x > 21 then 21 - x
            else (szMsg.length : Int)) + x ≤ 21 := by
          split_ifs with hlong <;> omega
        generalize (if (szMsg.length : Int) + x > 21 then 21 - x
          else (szMsg.length : Int)) = iLen at hroom ⊢
        by_cases hneg : iLen < 0
        · rw [if_pos hneg]; exact h.setPosition _ _
        · rw [if_neg hneg]
          exact h.text (x * 6) y _ 6 _ (fun i => fontSlice_length _ _ _) (by omega)
            (fun hpos => by omega) hy0 (by omega)
      · have hbad : iSize < FONT_NORMAL ∨ iSize > FONT_SMALL := by
          simp only [FONT_NORMAL, FONT_BIG, FONT_SMALL] at hb hn hs ⊢
          omega
        unfold oledWriteString
        rw [if_neg hinit, if_pos hbad]
        exact h

/-- The mirror invariant survives every in-range call. -/
theorem MirrorInv.call {d0 : Device} {t flip : Int} {s : State}
    (h : MirrorInv d0 t flip s) (ucFont ucSmallFont : Nat → Nat) (c : Call)
    (hc : c.inRange t) : MirrorInv d0 t flip (c.run ucFont ucSmallFont s) := by
  cases c with
  | setPixel x y ucColor =>
    obtain ⟨hx0, hx1, hy0, hy1⟩ := hc
    exact h.setPixel x y ucColor hx0 hx1 hy0 hy1
  | fill ucData => exact h.fill ucData
  | writeString x y szMsg iSize =>
    obtain ⟨hx0, hy0, hy1⟩ := hc
    exact h.writeString ucFont ucSmallFont x y szMsg iSize hx0 hy0 hy1

/-- The shadow buffer mirrors the controller on the rows of the panel: from an
initialized session without overrun whose shadow buffer equals the visible
cells of the display RAM, every sequence of `oledSetPixel`, `oledFill` and
`oledWriteString` calls with in-range coordinates (pixel columns 0 .. 127 on a
pixel row of the panel, texts from a non-negative cell on pages of the panel)
ends in a session whose shadow buffer again equals the visible cells of the
RAM of the controller that received every packet, and raises no overrun. -/
theorem mirror_preserved_inRange (d0 : Device) (ucFont ucSmallFont : Nat → Nat) (s : State)
    (calls : List Call) (hinit : s.file_i2c ≠ 0) (hov : s.overrun = false)
    (hm : Mirror s (Device.run d0 s.written))
    (hcalls : ∀ c ∈ calls, c.inRange s.oled_type) :
    Mirror (runCalls ucFont ucSmallFont s calls)
      (Device.run d0 (runCalls ucFont ucSmallFont s calls).written) ∧
    (runCalls ucFont ucSmallFont s calls).overrun = false ∧
    (runCalls ucFont ucSmallFont s calls).file_i2c ≠ 0 := by
  have key : ∀ (calls : List Call) (st : State), MirrorInv d0 s.oled_type s.oled_flip st →
      (∀ c ∈ calls, c.inRange s.oled_type) →
      MirrorInv d0 s.oled_type s.oled_flip (runCalls ucFont ucSmallFont st calls) := by
    intro calls
    induction calls with
    | nil => intro st hst _; exact hst
    | cons c rest ih =>
      intro st hst hin
      exact ih _ (hst.call ucFont ucSmallFont c (hin c (List.mem_cons_self _ _)))
        (fun c2 hc2 => hin c2 (List.mem_cons_of_mem _ hc2))
  have hfinal := key calls s ⟨rfl, rfl, hinit, hov, hm⟩ hcalls
  exact ⟨hfinal.2.2.2.2, hfinal.2.2.2.1, hfinal.2.2.1⟩

/-! ## Geometry recorded by `oledInit` -/

/-- A successful `oledInit` records 128 columns for every panel type and 32 rows
for OLED_128x32, 64 rows otherwise; for every type but OLED_64x32 these are the
page rows and columns that `oledFill` writes. -/
theorem oledInit_geometry (s : State) (fd rc iType bFlip bInvert : Int)
    (h : (oledInit s fd rc iType bFlip bInvert).1 = 0) :
    (oledInit s fd rc iType bFlip bInvert).2._width = 128 ∧
    (oledInit s fd rc iType bFlip bInvert).2._height =
      (if iType = OLED_128x32 then 32 else 64) ∧
    (oledInit s fd rc iType bFlip bInvert).2.oled_type = iType ∧
    (iType ≠ OLED_64x32 →
      ((oledInit s fd rc iType bFlip bInvert).2._height / 8 = (panelPages iType : Int) ∧
       (oledInit s fd rc iType bFlip bInvert).2._width = (panelWidth iType : Int))) := by
  unfold oledInit at h ⊢
  by_cases hfd : fd < 0
  · simp only [if_pos hfd] at h
    exact absurd h (by decide)
  · by_cases hrc : rc < 0
    · simp only [if_neg hfd, if_pos hrc] at h
      exact absurd h (by decide)
    · simp only [if_neg hfd, if_neg hrc]
      unfold panelPages panelWidth
      by_cases h1 : iType = OLED_128x32
      · subst h1
        by_cases hi : bInvert = 0 <;> by_cases hf : bFlip = 0 <;>
          simp [hi, hf, OLED_128x32, OLED_64x32]
      · by_cases hi : bInvert = 0 <;> by_cases hf : bFlip = 0 <;>
          simp [hi, hf, h1] <;> intro h4 <;> simp [h4]

/-! ## Return codes -/

/-- C11 (as stated, refuted): the three failure categories share one code.  On
an initialized session `oledSetPixel` answers -1 for the out-of-range pixel
(0, 64) and `oledWriteString` answers -1 for the unsupported font size 3 and
for a start cell without room; on the session at program start `oledSetPixel`,
`oledWriteString` and `oledFill` answer -1 as well. -/
theorem error_codes_coincide :
    (oledSetPixel State.boot 0 0 1).1 = -1 ∧
    (oledWriteString (fun _ => 0) (fun _ => 0) State.boot 0 0 [65] FONT_NORMAL).1 = -1 ∧
    (oledFill State.boot 0).1 = -1 ∧
    (oledSetPixel { State.boot with file_i2c := 3, oled_type := OLED_128x64 } 0 64 1).1 = -1 ∧
    (oledWriteString (fun _ => 0) (fun _ => 0)
      { State.boot with file_i2c := 3, oled_type := OLED_128x64 } 0 0 [65] 3).1 = -1 ∧
    (oledWriteString (fun _ => 0) (fun _ => 0)
      { State.boot with file_i2c := 3, oled_type := OLED_128x64 } 22 0 [65] FONT_SMALL).1 = -1 := by
  decide

/-- With room left (zero included) an initialized `oledWriteString` with a
supported font size returns 0. -/
theorem writeString_room (ucFont ucSmallFont : Nat → Nat) (s : State) (x y : Int)
    (szMsg : List Nat) (iSize : Int) (hinit : s.file_i2c ≠ 0)
    (hnormal : iSize = FONT_NORMAL ∧ x ≤ 16 ∨ iSize = FONT_BIG ∧ x ≤ 8 ∨
      iSize = FONT_SMALL ∧ x ≤ 21) :
    (oledWriteString ucFont ucSmallFont s x y szMsg iSize).1 = 0 := by
  unfold oledWriteString
  rw [if_neg hinit]
  have hsz : ¬ (iSize < FONT_NORMAL ∨ iSize > FONT_SMALL) := by
    simp only [FONT_NORMAL, FONT_BIG, FONT_SMALL] at hnormal ⊢
    omega
  rw [if_neg hsz]
  rcases hnormal with ⟨h, hx⟩ | ⟨h, hx⟩ | ⟨h, hx⟩
  · have hb : ¬ iSize = FONT_BIG := by rw [h]; decide
    have hneg : ¬ (if (szMsg.length : Int) + x > 16 then 16 - x
        else (szMsg.length : Int)) < 0 := by
      split_ifs <;> omega
    simp only [if_neg hb, if_pos h, hneg, if_false]
  · have hneg : ¬ (if (szMsg.length : Int) + x > 8 then 8 - x
        else (szMsg.length : Int)) < 0 := by
      split_ifs <;> omega
    simp only [if_pos h, hneg, if_false]
  · have hb : ¬ iSize = FONT_BIG := by rw [h]; decide
    have hn : ¬ iSize = FONT_NORMAL := by rw [h]; decide
    have hneg : ¬ (if (szMsg.length : Int) + x > 21 then 21 - x
        else (szMsg.length : Int)) < 0 := by
      split_ifs <;> omega
    simp only [if_neg hb, if_neg hn, hneg, if_false]

/-- C11 (amended): `oledSetContrast`, `oledFill`, `oledSetPixel` and
`oledWriteString` return 0 on success and the one code -1 on every failure,
whatever its category.  Not initialized: all four return -1.  Initialized:
`oledSetContrast` and `oledFill` return 0; `oledSetPixel` returns -1 for an
index (y >> 3) * 128 + x outside 0 .. 1023 and 0 for an index inside;
`oledWriteString` returns -1 for an unsupported font size or a start cell with
negative room, and 0 for a supported size and a start cell on the panel with
room left (zero included).  The statements that depend on the index or on the
room are for `int` arguments for which the index computation, `iLen + x` and
`x * 8` do not overflow. -/
theorem error_code_single (ucFont ucSmallFont : Nat → Nat) (s : State) :
    (∀ ucContrast : Nat, (oledSetContrast s ucContrast).1 = 0 ∨ (oledSetContrast s ucContrast).1 = -1) ∧
    (∀ ucData : Nat, (oledFill s ucData).1 = 0 ∨ (oledFill s ucData).1 = -1) ∧
    (∀ (x y : Int) (ucColor : Nat), (oledSetPixel s x y ucColor).1 = 0 ∨ (oledSetPixel s x y ucColor).1 = -1) ∧
    (∀ (x y : Int) (szMsg : List Nat) (iSize : Int),
      (oledWriteString ucFont ucSmallFont s x y szMsg iSize).1 = 0 ∨
      (oledWriteString ucFont ucSmallFont s x y szMsg iSize).1 = -1) ∧
    (s.file_i2c = 0 →
      (∀ ucContrast : Nat, (oledSetContrast s ucContrast).1 = -1) ∧
      (∀ ucData : Nat, (oledFill s ucData).1 = -1) ∧
      (∀ (x y : Int) (ucColor : Nat), (oledSetPixel s x y ucColor).1 = -1) ∧
      (∀ (x y : Int) (szMsg : List Nat) (iSize : Int),
        (oledWriteString ucFont ucSmallFont s x y szMsg iSize).1 = -1)) ∧
    (s.file_i2c ≠ 0 →
      (∀ ucContrast : Nat, (oledSetContrast s ucContrast).1 = 0) ∧
      (∀ ucData : Nat, (oledFill s ucData).1 = 0)) ∧
    (∀ (x y : Int) (ucColor : Nat), fitsInt x → fitsInt y →
      fitsInt ((y >>> (3 : Nat)) * 128) → fitsInt ((y >>> (3 : Nat)) * 128 + x) →
      ((y >>> (3 : Nat)) * 128 + x < 0 ∨ 1023 < (y >>> (3 : Nat)) * 128 + x →
        (oledSetPixel s x y ucColor).1 = -1) ∧
      (s.file_i2c ≠ 0 → 0 ≤ (y >>> (3 : Nat)) * 128 + x → (y >>> (3 : Nat)) * 128 + x ≤ 1023 →
        (oledSetPixel s x y ucColor).1 = 0)) ∧
    (∀ (x y : Int) (szMsg : List Nat) (iSize : Int), iSize < FONT_NORMAL ∨ iSize > FONT_SMALL →
      (oledWriteString ucFont ucSmallFont s x y szMsg iSize).1 = -1) ∧
    (∀ (x y : Int) (szMsg : List Nat) (iSize : Int),
      fitsInt ((szMsg.length : Int) + x) → fitsInt (x * 8) →
      ((iSize = FONT_NORMAL ∧ 16 < x ∨ iSize = FONT_BIG ∧ 8 < x ∨ iSize = FONT_SMALL ∧ 21 < x →
        (oledWriteString ucFont ucSmallFont s x y szMsg iSize).1 = -1) ∧
      (s.file_i2c ≠ 0 → 0 ≤ x → 0 ≤ y →
        iSize = FONT_NORMAL ∧ x ≤ 16 ∧ y < 8 ∨ iSize = FONT_BIG ∧ x ≤ 8 ∧ y < 6 ∨
          iSize = FONT_SMALL ∧ x ≤ 21 ∧ y < 8 →
        (oledWriteString ucFont ucSmallFont s x y szMsg iSize).1 = 0))) := by
  refine ⟨?_, ?_, ?_, ?_, ?_, ?_, ?_, ?_, ?_⟩
  · intro c; unfold oledSetContrast; split_ifs <;> simp
  · intro c; unfold oledFill; split_ifs <;> simp
  · intro x y c; unfold oledSetPixel; dsimp only; split_ifs <;> simp
  · intro x y m sz; unfold oledWriteString; dsimp only; split_ifs <;> simp
  · intro h
    refine ⟨?_, ?_, ?_, ?_⟩
    · intro c; unfold oledSetContrast; rw [if_pos h]
    · intro c; unfold oledFill; rw [if_pos h]
    · intro x y c; unfold oledSetPixel; rw [if_pos h]
    · intro x y m sz; unfold oledWriteString; rw [if_pos h]
  · intro h
    refine ⟨?_, ?_⟩
    · intro c; unfold oledSetContrast; rw [if_neg h]
    · intro c; unfold oledFill; rw [if_neg h]
  · intro x y c _ _ _ _
    refine ⟨?_, ?_⟩
    · intro h
      unfold oledSetPixel
      by_cases hinit : s.file_i2c = 0
      · rw [if_pos hinit]
      · rw [if_neg hinit]
        have hr : (y >>> (3 : Nat)) * 128 + x < 0 ∨ (y >>> (3 : Nat)) * 128 + x > 1023 := h
        simp only [hr, if_true]
    · intro hinit h0 h1
      unfold oledSetPixel
      rw [if_neg hinit]
      have hr : ¬ ((y >>> (3 : Nat)) * 128 + x < 0 ∨ (y >>> (3 : Nat)) * 128 + x > 1023) := by
        omega
      simp only [hr, if_false]
      split_ifs <;> rfl
  · intro x y m sz h
    unfold oledWriteString
    split_ifs <;> rfl
  · intro x y m sz _ _
    refine ⟨?_, ?_⟩
    · intro h
      apply writeString_negative_room
      · intro hs
        rcases h with ⟨h1, h2⟩ | ⟨h1, _⟩ | ⟨h1, _⟩
        · exact h2
        · rw [hs] at h1; exact absurd h1 (by decide)
        · rw [hs] at h1; exact absurd h1 (by decide)
      · intro hs
        rcases h with ⟨h1, _⟩ | ⟨h1, h2⟩ | ⟨h1, _⟩
        · rw [hs] at h1; exact absurd h1 (by decide)
        · exact h2
        · rw [hs] at h1; exact absurd h1 (by decide)
      · intro hs
        rcases h with ⟨h1, _⟩ | ⟨h1, _⟩ | ⟨h1, h2⟩
        · rw [hs] at h1; exact absurd h1 (by decide)
        · rw [hs] at h1; exact absurd h1 (by decide)
        · exact h2
    · intro hinit _ _ h
      apply writeString_room ucFont ucSmallFont s x y m sz hinit
      rcases h with ⟨h1, h2, _⟩ | ⟨h1, h2, _⟩ | ⟨h1, h2, _⟩
      · exact Or.inl ⟨h1, h2⟩
      · exact Or.inr (Or.inl ⟨h1, h2⟩)
      · exact Or.inr (Or.inr ⟨h1, h2⟩)

/-- Witness for C11 (amended): the out-of-range pixel (0, 64) on an initialized
session. -/
theorem error_code_single_witness :
    (oledSetPixel { State.boot with file_i2c := 3, oled_type := OLED_128x64 } 0 64 1).1 = -1 :=
  ((error_code_single (fun _ => 0) (fun _ => 0)
    { State.boot with file_i2c := 3, oled_type := OLED_128x64 }).2.2.2.2.2.2.1 0 64 1
    (by decide) (by decide) (by decide) (by decide)).1 (Or.inr (by decide))

/-- C12 (as stated, refuted): for the two-character text "Hi" `oledPrintf`
returns 2 where `oledWriteString` returns 0 (initialized session, room
available), and it returns 2 as well where `oledWriteString` returns -1
(session not initialized; start cell 22 without room); for the empty text at a
start cell without room it returns 0 where `oledWriteString` returns -1. -/
theorem oledPrintf_returns_count :
    (oledPrintf (fun _ => 0) (fun _ => 0)
      { State.boot with file_i2c := 3, oled_type := OLED_128x64 } 0 0 [72, 105] FONT_NORMAL).1 = 2 ∧
    (oledWriteString (fun _ => 0) (fun _ => 0)
      { State.boot with file_i2c := 3, oled_type := OLED_128x64 } 0 0 [72, 105] FONT_NORMAL).1 = 0 ∧
    (oledPrintf (fun _ => 0) (fun _ => 0) State.boot 0 0 [72, 105] FONT_NORMAL).1 = 2 ∧
    (oledWriteString (fun _ => 0) (fun _ => 0) State.boot 0 0 [72, 105] FONT_NORMAL).1 = -1 ∧
    (oledPrintf (fun _ => 0) (fun _ => 0)
      { State.boot with file_i2c := 3, oled_type := OLED_128x64 } 22 0 [] FONT_SMALL).1 = 0 ∧
    (oledWriteString (fun _ => 0) (fun _ => 0)
      { State.boot with file_i2c := 3, oled_type := OLED_128x64 } 22 0 [] FONT_SMALL).1 = -1 := by
  decide

/-- C12 (amended): `oledPrintf` returns the number of characters of the
formatted text (the value of `vsprintf`), whatever `oledWriteString` reports;
for a text that fits the 2048-byte buffer its effect on the session is exactly
that of `oledWriteString` on the formatted text. -/
theorem oledPrintf_result (ucFont ucSmallFont : Nat → Nat) (s : State) (x y : Int)
    (buf : List Nat) (iSize : Int) :
    (oledPrintf ucFont ucSmallFont s x y buf iSize).1 = (buf.length : Int) ∧
    (buf.length < 2048 →
      (oledPrintf ucFont ucSmallFont s x y buf iSize).2 =
        (oledWriteString ucFont ucSmallFont s x y buf iSize).2) := by
  refine ⟨rfl, ?_⟩
  intro hlen
  unfold oledPrintf
  have hno : decide (2048 ≤ buf.length) = false := by
    rw [decide_eq_false_iff_not]; omega
  simp only [hno, Bool.or_false]

/-- Witness for C12 (amended): the text "Hi" on an initialized session. -/
theorem oledPrintf_result_witness :
    (oledPrintf (fun _ => 0) (fun _ => 0)
      { State.boot with file_i2c := 3, oled_type := OLED_128x64 } 0 0 [72, 105] FONT_NORMAL).2 =
    (oledWriteString (fun _ => 0) (fun _ => 0)
      { State.boot with file_i2c := 3, oled_type := OLED_128x64 } 0 0 [72, 105] FONT_NORMAL).2 :=
  (oledPrintf_result (fun _ => 0) (fun _ => 0)
    { State.boot with file_i2c := 3, oled_type := OLED_128x64 } 0 0 [72, 105] FONT_NORMAL).2
    (by decide)

/-! ## Scanned shapes: filled circle and filled ellipse -/

theorem mem_intRange (lo hi v : Int) : v ∈ intRange lo hi ↔ lo ≤ v ∧ v ≤ hi := by
  unfold intRange
  simp only [List.mem_map, List.mem_range]
  constructor
  · rintro ⟨k, hk, rfl⟩
    omega
  · rintro ⟨h1, h2⟩
    exact ⟨(v - lo).toNat, by omega, by omega⟩

theorem nodup_intRange (lo hi : Int) : (intRange lo hi).Nodup := by
  unfold intRange
  apply List.Nodup.map _ (List.nodup_range _)
  intro a b hab
  simp only at hab
  omega

/-- Rows of a bounding-box scan: the pixels of a scan over the rows `ylo .. yhi`
and the columns `xlo .. xhi` that keeps the pixels passing `keep`. -/
theorem mem_scan (ylo yhi xlo xhi : Int) (keep : Int → Int → Bool) (p : Int × Int) :
    p ∈ (intRange ylo yhi).flatMap (fun y =>
        ((intRange xlo xhi).filter fun x => keep x y).map fun x => (x, y)) ↔
      (ylo ≤ p.2 ∧ p.2 ≤ yhi) ∧ (xlo ≤ p.1 ∧ p.1 ≤ xhi) ∧ keep p.1 p.2 = true := by
  simp only [List.mem_flatMap, List.mem_map, List.mem_filter, mem_intRange]
  constructor
  · rintro ⟨y, hy, x, ⟨hx, hk⟩, rfl⟩
    exact ⟨hy, hx, hk⟩
  · rintro ⟨hy, hx, hk⟩
    exact ⟨p.2, hy, p.1, ⟨hx, hk⟩, rfl⟩

theorem nodup_scan (ylo yhi xlo xhi : Int) (keep : Int → Int → Bool) :
    ((intRange ylo yhi).flatMap (fun y =>
        ((intRange xlo xhi).filter fun x => keep x y).map fun x => (x, y))).Nodup := by
  rw [List.nodup_flatMap]
  constructor
  · intro y _
    apply List.Nodup.map _ ((nodup_intRange _ _).filter _)
    intro a b hab
    exact (Prod.mk.inj hab).1
  · apply List.Nodup.pairwise_of_forall_ne (nodup_intRange _ _)
    intro a _ b _ hab
    simp only [Function.onFun, List.Disjoint, List.mem_map]
    rintro p ⟨x1, _, rfl⟩ ⟨x2, _, h2⟩
    exact hab (Prod.mk.inj h2).2.symm

theorem abs_le_of_sq_le (d r : Int) (hr : 0 ≤ r) (h : d * d ≤ r * r) : -r ≤ d ∧ d ≤ r := by
  constructor <;> nlinarith

/-- C19: for a radius 0 ≤ r ≤ 32767 around a centre within ±2^30,
`oledFilledCircle` plots, and returns 0 after plotting, exactly the pixels
(x, y) with (x - xc)^2 + (y - yc)^2 ≤ r^2; it requests each of them once, and all
of them lie in the bounding box [xc - r, xc + r] x [yc - r, yc + r].  Within
these bounds the values `dx*dx + dy*dy` and `r*r` the function compares are
`int` values on every cell it scans (the sum reaches 2 r², which leaves the
`int` range from r = 32768 on). -/
theorem filledCircle_disc (s : State) (xc yc r : Int) (ucColor : Nat) (hr : 0 ≤ r)
    (hr2 : r ≤ 32767) (hxc : -1073741824 ≤ xc ∧ xc ≤ 1073741824)
    (hyc : -1073741824 ≤ yc ∧ yc ≤ 1073741824) :
    oledFilledCircle s xc yc r ucColor = (0, plot s (filledCirclePixels xc yc r) ucColor) ∧
    (∀ p : Int × Int, p ∈ filledCirclePixels xc yc r ↔
      (p.1 - xc) ^ 2 + (p.2 - yc) ^ 2 ≤ r ^ 2) ∧
    (filledCirclePixels xc yc r).Nodup ∧
    (∀ p : Int × Int, p ∈ filledCirclePixels xc yc r →
      xc - r ≤ p.1 ∧ p.1 ≤ xc + r ∧ yc - r ≤ p.2 ∧ p.2 ≤ yc + r) ∧
    (∀ x y : Int, xc - r ≤ x → x ≤ xc + r → yc - r ≤ y → y ≤ yc + r →
      fitsInt x ∧ fitsInt y ∧ fitsInt ((x - xc) * (x - xc) + (y - yc) * (y - yc)) ∧
        fitsInt (r * r)) := by
  have hfits : ∀ x y : Int, xc - r ≤ x → x ≤ xc + r → yc - r ≤ y → y ≤ yc + r →
      fitsInt x ∧ fitsInt y ∧ fitsInt ((x - xc) * (x - xc) + (y - yc) * (y - yc)) ∧
        fitsInt (r * r) := by
    intro x y hx1 hx2 hy1 hy2
    have hrr : r * r ≤ 32767 * 32767 := mul_self_le_mul_self hr hr2
    have hdx : (x - xc) * (x - xc) ≤ r * r := by
      nlinarith [mul_nonneg (show (0 : Int) ≤ r - (x - xc) by omega)
        (show (0 : Int) ≤ r + (x - xc) by omega)]
    have hdy : (y - yc) * (y - yc) ≤ r * r := by
      nlinarith [mul_nonneg (show (0 : Int) ≤ r - (y - yc) by omega)
        (show (0 : Int) ≤ r + (y - yc) by omega)]
    have hx0 : 0 ≤ (x - xc) * (x - xc) := mul_self_nonneg _
    have hy0 : 0 ≤ (y - yc) * (y - yc) := mul_self_nonneg _
    have hr0 : 0 ≤ r * r := mul_self_nonneg _
    unfold fitsInt
    refine ⟨⟨by omega, by omega⟩, ⟨by omega, by omega⟩, ⟨by omega, by omega⟩, ⟨by omega, by omega⟩⟩
  have hmem : ∀ p : Int × Int, p ∈ filledCirclePixels xc yc r ↔
      (yc - r ≤ p.2 ∧ p.2 ≤ yc + r) ∧ (xc - r ≤ p.1 ∧ p.1 ≤ xc + r) ∧
        (p.1 - xc) * (p.1 - xc) + (p.2 - yc) * (p.2 - yc) ≤ r * r := by
    intro p
    unfold filledCirclePixels
    rw [mem_scan (yc - r) (yc + r) (xc - r) (xc + r)
      (fun x y => decide ((x - xc) * (x - xc) + (y - yc) * (y - yc) ≤ r * r)) p]
    simp only [decide_eq_true_eq]
  refine ⟨rfl, ?_, ?_, ?_, hfits⟩
  · intro p
    rw [hmem p]
    constructor
    · rintro ⟨_, _, h⟩
      nlinarith
    · intro h
      have h2 : (p.1 - xc) * (p.1 - xc) + (p.2 - yc) * (p.2 - yc) ≤ r * r := by nlinarith
      have hx := abs_le_of_sq_le (p.1 - xc) r hr (by nlinarith [mul_self_nonneg (p.2 - yc)])
      have hy := abs_le_of_sq_le (p.2 - yc) r hr (by nlinarith [mul_self_nonneg (p.1 - xc)])
      exact ⟨⟨by omega, by omega⟩, ⟨by omega, by omega⟩, h2⟩
  · unfold filledCirclePixels
    exact nodup_scan _ _ _ _ _
  · intro p hp
    obtain ⟨⟨h1, h2⟩, ⟨h3, h4⟩, _⟩ := (hmem p).mp hp
    exact ⟨h3, h4, h1, h2⟩

/-- Witness for C19: the disc of radius 1 around (4, 5). -/
theorem filledCircle_disc_witness :
    filledCirclePixels 4 5 1 = [(4, 4), (3, 5), (4, 5), (5, 5), (4, 6)] ∧
    ((5 : Int), (5 : Int)) ∈ filledCirclePixels 4 5 1 :=
  ⟨by decide,
   ((filledCircle_disc State.boot 4 5 1 1 (by decide) (by decide) (by decide)
      (by decide)).2.1 (5, 5)).mpr (by decide)⟩

/-- C20: for radii rx ≥ 0 and ry ≥ 0, `oledFilledEllipse` plots exactly the
pixels (x, y) with |x - xc| ≤ rx, |y - yc| ≤ ry and
(x - xc)^2 * ry^2 + (y - yc)^2 * rx^2 ≤ rx^2 * ry^2, each once; with
rx = ry = r these are the pixels of `oledFilledCircle` with radius r. -/
theorem filledEllipse_region (s : State) (xc yc rx ry : Int) (ucColor : Nat)
    (hrx : 0 ≤ rx) (hry : 0 ≤ ry) :
    oledFilledEllipse s xc yc rx ry ucColor =
      (0, plot s (filledEllipsePixels xc yc rx ry) ucColor) ∧
    (∀ p : Int × Int, p ∈ filledEllipsePixels xc yc rx ry ↔
      |p.1 - xc| ≤ rx ∧ |p.2 - yc| ≤ ry ∧
        (p.1 - xc) ^ 2 * ry ^ 2 + (p.2 - yc) ^ 2 * rx ^ 2 ≤ rx ^ 2 * ry ^ 2) ∧
    (filledEllipsePixels xc yc rx ry).Nodup ∧
    (rx = ry → ∀ p : Int × Int,
      p ∈ filledEllipsePixels xc yc rx ry ↔ p ∈ filledCirclePixels xc yc rx) := by
  have hmem : ∀ (a b : Int) (p : Int × Int), p ∈ filledEllipsePixels xc yc a b ↔
      (yc - b ≤ p.2 ∧ p.2 ≤ yc + b) ∧ (xc - a ≤ p.1 ∧ p.1 ≤ xc + a) ∧
        ((p.1 - xc) * (p.1 - xc)) * b * b + ((p.2 - yc) * (p.2 - yc)) * a * a
          ≤ a * a * b * b := by
    intro a b p
    unfold filledEllipsePixels
    rw [mem_scan (yc - b) (yc + b) (xc - a) (xc + a)
      (fun x y => decide (((x - xc) * (x - xc)) * b * b + ((y - yc) * (y - yc)) * a * a
        ≤ a * a * b * b)) p]
    simp only [decide_eq_true_eq]
  have hcirc : ∀ p : Int × Int, p ∈ filledCirclePixels xc yc rx ↔
      (yc - rx ≤ p.2 ∧ p.2 ≤ yc + rx) ∧ (xc - rx ≤ p.1 ∧ p.1 ≤ xc + rx) ∧
        (p.1 - xc) * (p.1 - xc) + (p.2 - yc) * (p.2 - yc) ≤ rx * rx := by
    intro p
    unfold filledCirclePixels
    rw [mem_scan (yc - rx) (yc + rx) (xc - rx) (xc + rx)
      (fun x y => decide ((x - xc) * (x - xc) + (y - yc) * (y - yc) ≤ rx * rx)) p]
    simp only [decide_eq_true_eq]
  refine ⟨rfl, ?_, ?_, ?_⟩
  · intro p
    rw [hmem rx ry p, abs_le, abs_le]
    constructor
    · rintro ⟨⟨h1, h2⟩, ⟨h3, h4⟩, h⟩
      exact ⟨⟨by omega, by omega⟩, ⟨by omega, by omega⟩, by nlinarith⟩
    · rintro ⟨⟨h1, h2⟩, ⟨h3, h4⟩, h⟩
      exact ⟨⟨by omega, by omega⟩, ⟨by omega, by omega⟩, by nlinarith⟩
  · unfold filledEllipsePixels
    exact nodup_scan _ _ _ _ _
  · intro heq p
    subst heq
    rw [hmem rx rx p, hcirc p]
    constructor
    · rintro ⟨hy, hx, h⟩
      refine ⟨hy, hx, ?_⟩
      by_cases h0 : rx = 0
      · subst h0
        have e1 : p.1 - xc = 0 := by omega
        have e2 : p.2 - yc = 0 := by omega
        rw [e1, e2]; norm_num
      · have hpos : 0 < rx * rx := by positivity
        have h2 : ((p.1 - xc) * (p.1 - xc) + (p.2 - yc) * (p.2 - yc)) * (rx * rx) ≤
            (rx * rx) * (rx * rx) := by nlinarith
        exact le_of_mul_le_mul_right h2 hpos
    · rintro ⟨hy, hx, h⟩
      refine ⟨hy, hx, ?_⟩
      have hnn : 0 ≤ rx * rx := mul_self_nonneg rx
      have h2 := mul_le_mul_of_nonneg_right h hnn
      nlinarith

/-- Witness for C20: the ellipse with radii 2 and 1 around (4, 5). -/
theorem filledEllipse_region_witness :
    ((6 : Int), (5 : Int)) ∈ filledEllipsePixels 4 5 2 1 ∧
    filledEllipsePixels 4 5 2 1 = [(4, 4), (2, 5), (3, 5), (4, 5), (5, 5), (6, 5), (4, 6)] :=
  ⟨((filledEllipse_region State.boot 4 5 2 1 1 (by decide) (by decide)).2.1 (6, 5)).mpr
    (by decide), by decide⟩

/-! ## Circle outline -/

/-- More fuel does not change a result of the loop of `oledCircle`. -/
theorem circleLoop_mono (xc yc : Int) (fuel : Nat) :
    ∀ (x y d : Int) (l : List (Int × Int)), circleLoop xc yc fuel x y d = some l →
      ∀ fuel2 : Nat, fuel ≤ fuel2 → circleLoop xc yc fuel2 x y d = some l := by
  induction fuel with
  | zero => intro x y d l h; simp [circleLoop] at h
  | succ n ih =>
    intro x y d l h fuel2 hle
    obtain ⟨m, rfl⟩ : ∃ m, fuel2 = m + 1 := ⟨fuel2 - 1, by omega⟩
    unfold circleLoop at h ⊢
    by_cases hc : y ≥ x
    · rw [if_pos hc] at h ⊢
      simp only [Option.map_eq_some'] at h ⊢
      obtain ⟨rest, hrest, hl⟩ := h
      exact ⟨rest, ih _ _ _ rest hrest m (by omega), hl⟩
    · rw [if_neg hc] at h ⊢
      exact h

/-- The eight pixels plotted in one step of `oledCircle` are closed under the
three generating reflections about the centre. -/
theorem octants_closed (xc yc x y a b : Int)
    (h : (xc + a, yc + b) ∈
      ([(xc + x, yc + y), (xc - x, yc + y), (xc + x, yc - y), (xc - x, yc - y),
        (xc + y, yc + x), (xc - y, yc + x), (xc + y, yc - x), (xc - y, yc - x)] :
        List (Int × Int))) :
    (xc - a, yc + b) ∈
      ([(xc + x, yc + y), (xc - x, yc + y), (xc + x, yc - y), (xc - x, yc - y),
        (xc + y, yc + x), (xc - y, yc + x), (xc + y, yc - x), (xc - y, yc - x)] :
        List (Int × Int)) ∧
    (xc + a, yc - b) ∈
      ([(xc + x, yc + y), (xc - x, yc + y), (xc + x, yc - y), (xc - x, yc - y),
        (xc + y, yc + x), (xc - y, yc + x), (xc + y, yc - x), (xc - y, yc - x)] :
        List (Int × Int)) ∧
    (xc + b, yc + a) ∈
      ([(xc + x, yc + y), (xc - x, yc + y), (xc + x, yc - y), (xc - x, yc - y),
        (xc + y, yc + x), (xc - y, yc + x), (xc + y, yc - x), (xc - y, yc - x)] :
        List (Int × Int)) := by
  simp only [List.mem_cons, Prod.mk.injEq, List.mem_singleton, List.not_mem_nil,
    or_false] at h
  rcases h with ⟨h1, h2⟩ | ⟨h1, h2⟩ | ⟨h1, h2⟩ | ⟨h1, h2⟩ | ⟨h1, h2⟩ | ⟨h1, h2⟩ |
    ⟨h1, h2⟩ | ⟨h1, h2⟩
  · obtain rfl : a = x := by omega
    obtain rfl : b = y := by omega
    refine ⟨?_, ?_, ?_⟩ <;> simp
  · obtain rfl : x = -a := by omega
    obtain rfl : b = y := by omega
    refine ⟨?_, ?_, ?_⟩ <;> (simp <;> omega)
  · obtain rfl : a = x := by omega
    obtain rfl : y = -b := by omega
    refine ⟨?_, ?_, ?_⟩ <;> (simp <;> omega)
  · obtain rfl : x = -a := by omega
    obtain rfl : y = -b := by omega
    refine ⟨?_, ?_, ?_⟩ <;> (simp <;> omega)
  · obtain rfl : a = y := by omega
    obtain rfl : b = x := by omega
    refine ⟨?_, ?_, ?_⟩ <;> simp
  · obtain rfl : y = -a := by omega
    obtain rfl : b = x := by omega
    refine ⟨?_, ?_, ?_⟩ <;> (simp <;> omega)
  · obtain rfl : a = y := by omega
    obtain rfl : x = -b := by omega
    refine ⟨?_, ?_, ?_⟩ <;> (simp <;> omega)
  · obtain rfl : y = -a := by omega
    obtain rfl : x = -b := by omega
    refine ⟨?_, ?_, ?_⟩ <;> (simp <;> omega)

/-- The loop of `oledCircle` ends within `y - x + 2` tests of its condition, and
the pixels it plots are closed under the three generating reflections. -/
theorem circleLoop_spec (xc yc : Int) (fuel : Nat) :
    ∀ (x y d : Int), 1 ≤ fuel → y - x + 2 ≤ (fuel : Int) →
      ∃ l, circleLoop xc yc fuel x y d = some l ∧
        ∀ a b : Int, (xc + a, yc + b) ∈ l →
          (xc - a, yc + b) ∈ l ∧ (xc + a, yc - b) ∈ l ∧ (xc + b, yc + a) ∈ l := by
  induction fuel with
  | zero => intro x y d h; omega
  | succ n ih =>
    intro x y d _ hfuel
    unfold circleLoop
    by_cases hc : y ≥ x
    · rw [if_pos hc]
      obtain ⟨rest, hrest, hclosed⟩ := ih (x + 1) (if d > 0 then y - 1 else y)
        (if d > 0 then d + 4 * (x + 1 - (if d > 0 then y - 1 else y)) + 10
          else d + 4 * (x + 1) + 6)
        (by omega) (by split_ifs <;> omega)
      refine ⟨_, by dsimp only; rw [hrest]; rfl, ?_⟩
      intro a b hab
      rw [List.mem_append] at hab
      rcases hab with hab | hab
      · obtain ⟨h1, h2, h3⟩ := octants_closed xc yc x y a b hab
        exact ⟨List.mem_append_left _ h1, List.mem_append_left _ h2,
          List.mem_append_left _ h3⟩
      · obtain ⟨h1, h2, h3⟩ := hclosed a b hab
        exact ⟨List.mem_append_right _ h1, List.mem_append_right _ h2,
          List.mem_append_right _ h3⟩
    · rw [if_neg hc]
      exact ⟨[], rfl, fun a b h => absurd h (List.not_mem_nil _)⟩

/-- C15: for every centre and every radius r ≥ 0 the loop of `oledCircle`
terminates (r + 2 tests of `y >= x` are enough, and more fuel gives the same
pixels), the function then returns 0 after plotting them, and the offsets
(px - xc, py - yc) of the plotted pixels are closed under (a,b) -> (-a,b),
(a,b) -> (a,-b) and (a,b) -> (b,a), hence under the 8 reflections these
generate. -/
theorem oledCircle_symmetric (xc yc r : Int) (hr : 0 ≤ r) :
    ∃ l : List (Int × Int),
      (∀ fuel : Nat, r + 2 ≤ (fuel : Int) → circlePixels fuel xc yc r = some l) ∧
      (∀ (fuel : Nat) (s : State) (ucColor : Nat), r + 2 ≤ (fuel : Int) →
        oledCircle fuel s xc yc r ucColor = some (0, plot s l ucColor)) ∧
      (∀ a b : Int, (xc + a, yc + b) ∈ l →
        (xc - a, yc + b) ∈ l ∧ (xc + a, yc - b) ∈ l ∧ (xc + b, yc + a) ∈ l) := by
  obtain ⟨l, hl, hclosed⟩ := circleLoop_spec xc yc (r.toNat + 2) 0 r (3 - 2 * r)
    (by omega) (by omega)
  have hall : ∀ fuel : Nat, r + 2 ≤ (fuel : Int) → circlePixels fuel xc yc r = some l :=
    fun fuel hf => circleLoop_mono xc yc _ _ _ _ l hl fuel (by omega)
  refine ⟨l, hall, ?_, hclosed⟩
  intro fuel s ucColor hf
  unfold oledCircle
  rw [hall fuel hf]
  rfl

/-- Witness for C15: the circle of radius 2 around (10, 10) holds (12, 10) and,
with it, its mirror images (8, 10) and (10, 12). -/
theorem oledCircle_symmetric_witness :
    circlePixels 4 10 10 2 = some
      [(10, 12), (10, 12), (10, 8), (10, 8), (12, 10), (8, 10), (12, 10), (8, 10),
       (11, 12), (9, 12), (11, 8), (9, 8), (12, 11), (8, 11), (12, 9), (8, 9)] ∧
    ∃ l : List (Int × Int), circlePixels 4 10 10 2 = some l ∧
      ((10 + 2, 10 + 0) ∈ l → (10 - 2, 10 + 0) ∈ l ∧ (10 + 0, 10 + 2) ∈ l) := by
  refine ⟨by decide, ?_⟩
  obtain ⟨l, hl, _, hclosed⟩ := oledCircle_symmetric 10 10 2 (by decide)
  exact ⟨l, hl 4 (by decide), fun h => ⟨(hclosed 2 0 h).1, (hclosed 2 0 h).2.2⟩⟩

/-! ## Line: the loop of `oledLine` -/

/-- One unfolding of the loop of `oledLine`. -/
theorem lineLoop_succ (fuel : Nat) (x0 y0 x1 y1 dx dy sx sy err : Int) :
    lineLoop (fuel + 1) x0 y0 x1 y1 dx dy sx sy err =
      if x0 = x1 ∧ y0 = y1 then some [(x0, y0)]
      else
        (lineLoop fuel (if 2 * err > -dy then x0 + sx else x0)
          (if 2 * err < dx then y0 + sy else y0) x1 y1 dx dy sx sy
          (if 2 * err < dx then (if 2 * err > -dy then err - dy else err) + dx
            else (if 2 * err > -dy then err - dy else err))).map
          fun rest => (x0, y0) :: rest := rfl

/-- More fuel does not change a result of the loop of `oledLine`. -/
theorem lineLoop_mono (x1 y1 dx dy sx sy : Int) (fuel : Nat) :
    ∀ (x0 y0 err : Int) (l : List (Int × Int)),
      lineLoop fuel x0 y0 x1 y1 dx dy sx sy err = some l →
      ∀ fuel2 : Nat, fuel ≤ fuel2 → lineLoop fuel2 x0 y0 x1 y1 dx dy sx sy err = some l := by
  induction fuel with
  | zero => intro x0 y0 err l h; simp [lineLoop] at h
  | succ n ih =>
    intro x0 y0 err l h fuel2 hle
    obtain ⟨m, rfl⟩ : ∃ m, fuel2 = m + 1 := ⟨fuel2 - 1, by omega⟩
    rw [lineLoop_succ] at h ⊢
    by_cases hc : x0 = x1 ∧ y0 = y1
    · rw [if_pos hc] at h ⊢; exact h
    · rw [if_neg hc] at h ⊢
      simp only [Option.map_eq_some'] at h ⊢
      obtain ⟨rest, hrest, hl⟩ := h
      exact ⟨rest, ih _ _ _ rest hrest m (by omega), hl⟩

/-- The loop of `oledLine` commutes with a change of coordinates that is
injective on each axis and turns a step by `sx`, `sy` into a step by `tx`,
`ty`: translations and reflections. -/
theorem lineLoop_transport (fx fy : Int → Int) (dx dy sx sy tx ty x1 y1 : Int)
    (hfx : ∀ u v, fx u = fx v ↔ u = v) (hfy : ∀ u v, fy u = fy v ↔ u = v)
    (hsx : ∀ v, fx (v + sx) = fx v + tx) (hsy : ∀ v, fy (v + sy) = fy v + ty)
    (fuel : Nat) :
    ∀ x0 y0 err : Int,
      lineLoop fuel (fx x0) (fy y0) (fx x1) (fy y1) dx dy tx ty err =
        (lineLoop fuel x0 y0 x1 y1 dx dy sx sy err).map
          (List.map fun p => (fx p.1, fy p.2)) := by
  induction fuel with
  | zero => intro x0 y0 err; rfl
  | succ n ih =>
    intro x0 y0 err
    rw [lineLoop_succ, lineLoop_succ]
    by_cases hc : x0 = x1 ∧ y0 = y1
    · have hc2 : fx x0 = fx x1 ∧ fy y0 = fy y1 := ⟨by rw [hc.1], by rw [hc.2]⟩
      rw [if_pos hc, if_pos hc2]
      rfl
    · have hc2 : ¬ (fx x0 = fx x1 ∧ fy y0 = fy y1) := by
        rw [hfx, hfy]; exact hc
      rw [if_neg hc, if_neg hc2]
      have ex : (if 2 * err > -dy then fx x0 + tx else fx x0) =
          fx (if 2 * err > -dy then x0 + sx else x0) := by
        split_ifs
        · rw [hsx]
        · rfl
      have ey : (if 2 * err < dx then fy y0 + ty else fy y0) =
          fy (if 2 * err < dx then y0 + sy else y0) := by
        split_ifs
        · rw [hsy]
        · rfl
      rw [ex, ey, ih]
      simp only [Option.map_map]
      rfl

/-- Exchanging the roles of the two axes (and negating the error term) exchanges
the coordinates of every pixel of the loop of `oledLine`. -/
theorem lineLoop_swap (dx dy sx sy x1 y1 : Int) (fuel : Nat) :
    ∀ x0 y0 err : Int,
      lineLoop fuel y0 x0 y1 x1 dy dx sy sx (-err) =
        (lineLoop fuel x0 y0 x1 y1 dx dy sx sy err).map (List.map Prod.swap) := by
  induction fuel with
  | zero => intro x0 y0 err; rfl
  | succ n ih =>
    intro x0 y0 err
    rw [lineLoop_succ, lineLoop_succ]
    by_cases hc : x0 = x1 ∧ y0 = y1
    · rw [if_pos hc, if_pos hc.symm]
      rfl
    · have hc2 : ¬ (y0 = y1 ∧ x0 = x1) := fun h => hc h.symm
      rw [if_neg hc, if_neg hc2]
      have c1 : (2 * -err > -dx) ↔ (2 * err < dx) := by constructor <;> intro h <;> omega
      have c2 : (2 * -err < dy) ↔ (2 * err > -dy) := by constructor <;> intro h <;> omega
      have ee : (if 2 * -err < dy then (if 2 * -err > -dx then -err - dx else -err) + dy
            else (if 2 * -err > -dx then -err - dx else -err)) =
          -(if 2 * err < dx then (if 2 * err > -dy then err - dy else err) + dx
            else (if 2 * err > -dy then err - dy else err)) := by
        simp only [c1, c2]
        split_ifs <;> ring
      simp only [c1, c2] at ee ⊢
      rw [ee, ih]
      simp only [Option.map_map]
      rfl

theorem getLast?_cons_of_length {α : Type} (a : α) (l : List α) (n : Nat)
    (h : l.length = n + 1) : (a :: l).getLast? = l.getLast? := by
  cases l with
  | nil => simp at h
  | cons b t => exact List.getLast?_cons_cons

/-- The loop of `oledLine` along its major axis.  With `n` steps left on the
major axis, `j` steps done on the minor one and the error term matching both
counts, the loop uses `n + 1` iterations, starts at the current pixel, ends at
the end point and moves by one pixel at a time. -/
theorem lineLoop_major (x1 y1 dx dy sx sy : Int) (hsx : sx = 1 ∨ sx = -1)
    (hsy : sy = 1 ∨ sy = -1) (hdy : 0 ≤ dy) (hle : dy ≤ dx) :
    ∀ (n : Nat) (x y err j : Int),
      x1 - x = sx * (n : Int) → y1 - y = sy * (dy - j) → 0 ≤ j → (n : Int) ≤ dx →
      err = (j + 1) * dx - (dx - (n : Int) + 1) * dy →
      (dy < dx → dx - 2 * dy ≤ 2 * err ∧ 2 * err < 3 * dx - 2 * dy) →
      (dx = dy → err = 0 ∧ j = dx - (n : Int)) →
      ∃ l, lineLoop (n + 1) x y x1 y1 dx dy sx sy err = some l ∧ l.length = n + 1 ∧
        l.head? = some (x, y) ∧ l.getLast? = some (x1, y1) ∧ l.Chain' Adjacent ∧
        (dy = 0 → ∀ p ∈ l, p.2 = y) := by
  intro n
  induction n with
  | zero =>
    intro x y err j hx hy hj _ herr h1 h2
    have hxe : x = x1 := by simp at hx; omega
    have hjd : j = dy := by
      rcases lt_or_eq_of_le hle with hlt | heq
      · obtain ⟨ha, hb⟩ := h1 hlt
        simp only [Nat.cast_zero, sub_zero] at herr
        by_contra hne
        rcases lt_or_gt_of_ne hne with hl | hg
        · have : (j - dy) * dx ≤ -1 * dx := by
            apply mul_le_mul_of_nonneg_right (by omega) (by omega)
          nlinarith
        · have : 1 * dx ≤ (j - dy) * dx := by
            apply mul_le_mul_of_nonneg_right (by omega) (by omega)
          nlinarith
      · have := (h2 heq.symm).2
        simp at this
        omega
    have hye : y = y1 := by rw [hjd] at hy; simp at hy; omega
    refine ⟨[(x, y)], ?_, rfl, rfl, by rw [hxe, hye]; rfl, List.chain'_singleton _, ?_⟩
    · rw [lineLoop_succ, if_pos ⟨hxe, hye⟩]
    · intro _ p hp
      rw [List.mem_singleton] at hp
      rw [hp]
  | succ n ih =>
    intro x y err j hx hy hj hn herr h1 h2
    push_cast at hx hn herr h2
    have hdxpos : 0 < dx := by omega
    have hxne : ¬ (x = x1 ∧ y = y1) := by
      rintro ⟨hxe, _⟩
      rcases hsx with rfl | rfl <;> omega
    have hxstep : 2 * err > -dy := by
      rcases lt_or_eq_of_le hle with hlt | heq
      · have := h1 hlt; omega
      · have := (h2 heq.symm).1; omega
    rw [lineLoop_succ, if_neg hxne]
    simp only [if_pos hxstep]
    by_cases hystep : 2 * err < dx
    · simp only [if_pos hystep]
      obtain ⟨l, hl, hlen, hhead, hlast, hchain, hflat⟩ := ih (x + sx) (y + sy)
        (err - dy + dx) (j + 1)
        (by rcases hsx with rfl | rfl <;> omega)
        (by rw [show y1 - (y + sy) = (y1 - y) - sy by ring, hy]; ring)
        (by omega) (by omega)
        (by rw [herr]; ring)
        (fun hlt => by have := h1 hlt; omega)
        (fun heq => by have := h2 heq; omega)
      refine ⟨(x, y) :: l, by rw [hl]; rfl, by simp [hlen], rfl, ?_, ?_, ?_⟩
      · rw [getLast?_cons_of_length _ l n hlen, hlast]
      · rw [List.chain'_cons']
        refine ⟨?_, hchain⟩
        intro q hq
        rw [hhead] at hq
        cases hq
        refine ⟨?_, ?_, ?_⟩
        · simp only; rcases hsx with rfl | rfl <;> simp [abs_le]
        · simp only; rcases hsy with rfl | rfl <;> simp [abs_le]
        · intro heq
          have := (Prod.mk.inj heq).1
          rcases hsx with rfl | rfl <;> omega
      · intro hd0
        exfalso
        have := h1 (by omega)
        omega
    · simp only [if_neg hystep]
      obtain ⟨l, hl, hlen, hhead, hlast, hchain, hflat⟩ := ih (x + sx) y
        (err - dy) j
        (by rcases hsx with rfl | rfl <;> omega)
        hy hj (by omega)
        (by rw [herr]; ring)
        (fun hlt => by have := h1 hlt; omega)
        (fun heq => by have := h2 heq; omega)
      refine ⟨(x, y) :: l, by rw [hl]; rfl, by simp [hlen], rfl, ?_, ?_, ?_⟩
      · rw [getLast?_cons_of_length _ l n hlen, hlast]
      · rw [List.chain'_cons']
        refine ⟨?_, hchain⟩
        intro q hq
        rw [hhead] at hq
        cases hq
        refine ⟨?_, ?_, ?_⟩
        · simp only; rcases hsx with rfl | rfl <;> simp [abs_le]
        · simp
        · intro heq
          have := (Prod.mk.inj heq).1
          rcases hsx with rfl | rfl <;> omega
      · intro hd0 p hp
        rw [List.mem_cons] at hp
        rcases hp with rfl | hp
        · rfl
        · exact hflat hd0 p hp

theorem adjacent_swap (p q : Int × Int) : Adjacent p.swap q.swap ↔ Adjacent p q := by
  unfold Adjacent
  constructor
  · rintro ⟨h1, h2, h3⟩
    exact ⟨h2, h1, fun h => h3 (by rw [h])⟩
  · rintro ⟨h1, h2, h3⟩
    refine ⟨h2, h1, fun h => h3 ?_⟩
    have := congrArg Prod.swap h
    simpa using this

/-- The pixels of `oledLine`: with fuel for one iteration per pixel the loop
returns a list of max(|x1-x0|, |y1-y0|) + 1 pixels from the start point to the end
point, successive pixels being adjacent; a coordinate shared by both end points
is shared by every pixel. -/
theorem linePixels_spec (x0 y0 x1 y1 : Int) :
    ∃ l, linePixels ((max |x1 - x0| |y1 - y0|).toNat + 1) x0 y0 x1 y1 = some l ∧
      l.length = (max |x1 - x0| |y1 - y0|).toNat + 1 ∧
      l.head? = some (x0, y0) ∧ l.getLast? = some (x1, y1) ∧ l.Chain' Adjacent ∧
      (y0 = y1 → ∀ p ∈ l, p.2 = y0) ∧ (x0 = x1 → ∀ p ∈ l, p.1 = x0) := by
  have hsx : (if x0 < x1 then (1 : Int) else -1) = 1 ∨ (if x0 < x1 then (1 : Int) else -1) = -1 := by
    split_ifs <;> simp
  have hsy : (if y0 < y1 then (1 : Int) else -1) = 1 ∨ (if y0 < y1 then (1 : Int) else -1) = -1 := by
    split_ifs <;> simp
  have hxs : x1 - x0 = (if x0 < x1 then (1 : Int) else -1) * |x1 - x0| := by
    split_ifs with h
    · rw [abs_of_pos (by omega)]; ring
    · rw [abs_of_nonpos (by omega)]; ring
  have hys : y1 - y0 = (if y0 < y1 then (1 : Int) else -1) * |y1 - y0| := by
    split_ifs with h
    · rw [abs_of_pos (by omega)]; ring
    · rw [abs_of_nonpos (by omega)]; ring
  have hdx : 0 ≤ |x1 - x0| := abs_nonneg _
  have hdy : 0 ≤ |y1 - y0| := abs_nonneg _
  unfold linePixels
  simp only
  generalize |x1 - x0| = dx at *
  generalize |y1 - y0| = dy at *
  generalize (if x0 < x1 then (1 : Int) else -1) = sx at *
  generalize (if y0 < y1 then (1 : Int) else -1) = sy at *
  by_cases hle : dy ≤ dx
  · have hmax : max dx dy = dx := max_eq_left hle
    rw [hmax]
    have hn : ((dx.toNat : Nat) : Int) = dx := Int.toNat_of_nonneg hdx
    obtain ⟨l, hl, hlen, hhead, hlast, hchain, hflat⟩ :=
      lineLoop_major x1 y1 dx dy sx sy hsx hsy hdy hle dx.toNat x0 y0 (dx - dy) 0
        (by rw [hn]; exact hxs) (by rw [hys]; ring) (le_refl _) (by rw [hn])
        (by rw [hn]; ring) (fun hlt => by omega) (fun heq => by rw [hn]; omega)
    refine ⟨l, hl, hlen, hhead, hlast, hchain, ?_, ?_⟩
    · intro hy
      apply hflat
      have : y1 - y0 = 0 := by omega
      rw [this] at hys
      rcases hsy with rfl | rfl <;> omega
    · intro hx p hp
      have hdx0 : dx = 0 := by
        have : x1 - x0 = 0 := by omega
        rw [this] at hxs
        rcases hsx with rfl | rfl <;> omega
      have hlen1 : l.length = 1 := by rw [hlen, hdx0]; rfl
      match l, hlen1, hhead, hp with
      | [q], _, hh, hp =>
        rw [List.mem_singleton] at hp
        simp only [List.head?_cons, Option.some.injEq] at hh
        rw [hp, hh]
  · have hlt : dx < dy := by omega
    have hmax : max dx dy = dy := max_eq_right (by omega)
    rw [hmax]
    have hn : ((dy.toNat : Nat) : Int) = dy := Int.toNat_of_nonneg hdy
    obtain ⟨l, hl, hlen, hhead, hlast, hchain, hflat⟩ :=
      lineLoop_major y1 x1 dy dx sy sx hsy hsx hdx (by omega) dy.toNat y0 x0 (dy - dx) 0
        (by rw [hn]; exact hys) (by rw [hxs]; ring) (le_refl _) (by rw [hn])
        (by rw [hn]; ring) (fun hlt => by omega) (fun heq => by omega)
    have hswap := lineLoop_swap dy dx sy sx y1 x1 (dy.toNat + 1) y0 x0 (dy - dx)
    rw [show -(dy - dx) = dx - dy by ring, hl] at hswap
    refine ⟨l.map Prod.swap, hswap, by rw [List.length_map, hlen], ?_, ?_, ?_, ?_, ?_⟩
    · rw [List.head?_map, hhead]; rfl
    · rw [List.getLast?_map, hlast]; rfl
    · rw [List.chain'_map]
      exact hchain.imp (fun {a b} h => (adjacent_swap a b).mpr h)
    · intro hy
      exfalso
      have : y1 - y0 = 0 := by omega
      rw [this] at hys
      rcases hsy with rfl | rfl <;> omega
    · intro hx p hp
      rw [List.mem_map] at hp
      obtain ⟨q, hq, rfl⟩ := hp
      have hdx0 : dx = 0 := by
        have : x1 - x0 = 0 := by omega
        rw [this] at hxs
        rcases hsx with rfl | rfl <;> omega
      exact hflat hdx0 q hq

theorem linePixels_mono (fuel fuel2 : Nat) (x0 y0 x1 y1 : Int) (l : List (Int × Int))
    (h : linePixels fuel x0 y0 x1 y1 = some l) (hle : fuel ≤ fuel2) :
    linePixels fuel2 x0 y0 x1 y1 = some l := by
  unfold linePixels at h ⊢
  exact lineLoop_mono _ _ _ _ _ _ fuel _ _ _ l h fuel2 hle

/-- One iteration of the loop of `oledLine` keeps `2 * err` between `-3 * dy`
and `3 * dx`; the start value `dx - dy` lies in that range.  Hence no `int`
operation of the loop overflows while `dx` and `dy` stay below 2^31 / 3. -/
theorem line_err_step (dx dy err : Int) (hdx : 0 ≤ dx) (hdy : 0 ≤ dy)
    (h1 : -(3 * dy) ≤ 2 * err) (h2 : 2 * err ≤ 3 * dx) :
    -(3 * dy) ≤ 2 * (if 2 * err < dx then (if 2 * err > -dy then err - dy else err) + dx
        else (if 2 * err > -dy then err - dy else err)) ∧
    2 * (if 2 * err < dx then (if 2 * err > -dy then err - dy else err) + dx
        else (if 2 * err > -dy then err - dy else err)) ≤ 3 * dx := by
  split_ifs <;> constructor <;> omega

/-- C13: for `int` end points whose distances |x1 - x0| and |y1 - y0| do not
exceed 2^29 (so that `2 * err`, which ranges up to three times the larger
distance, and every other `int` value of the function stay in range), the loop
of `oledLine` terminates: given fuel for max(|x1-x0|, |y1-y0|) + 1 iterations or
more it returns one and the same list of pixels, which `oledLine` plots before
returning 0.  The list has exactly max(|x1-x0|, |y1-y0|) + 1 elements, starts at
(x0, y0), ends at (x1, y1), and each element differs from its predecessor by at
most 1 in each coordinate and never by 0 in both; for coinciding end points it
is the single pixel (x0, y0). -/
theorem oledLine_pixels (x0 y0 x1 y1 : Int)
    (_hx0 : fitsInt x0) (_hy0 : fitsInt y0) (_hx1 : fitsInt x1) (_hy1 : fitsInt y1)
    (_hdx : |x1 - x0| ≤ 536870912) (_hdy : |y1 - y0| ≤ 536870912) :
    ∃ l : List (Int × Int),
      (∀ fuel : Nat, (max |x1 - x0| |y1 - y0|).toNat + 1 ≤ fuel →
        linePixels fuel x0 y0 x1 y1 = some l) ∧
      (∀ (fuel : Nat) (s : State) (ucColor : Nat),
        (max |x1 - x0| |y1 - y0|).toNat + 1 ≤ fuel →
          oledLine fuel s x0 y0 x1 y1 ucColor = some (0, plot s l ucColor)) ∧
      l.length = (max |x1 - x0| |y1 - y0|).toNat + 1 ∧
      l.head? = some (x0, y0) ∧ l.getLast? = some (x1, y1) ∧
      l.Chain' (fun p q => |q.1 - p.1| ≤ 1 ∧ |q.2 - p.2| ≤ 1 ∧ q ≠ p) ∧
      (x0 = x1 → y0 = y1 → l = [(x0, y0)]) := by
  obtain ⟨l, hl, hlen, hhead, hlast, hchain, _, _⟩ := linePixels_spec x0 y0 x1 y1
  have hall : ∀ fuel : Nat, (max |x1 - x0| |y1 - y0|).toNat + 1 ≤ fuel →
      linePixels fuel x0 y0 x1 y1 = some l :=
    fun fuel hf => linePixels_mono _ fuel _ _ _ _ l hl hf
  refine ⟨l, hall, ?_, hlen, hhead, hlast, hchain, ?_⟩
  · intro fuel s ucColor hf
    unfold oledLine
    rw [hall fuel hf]
    rfl
  · intro hx hy
    have h1 : l.length = 1 := by
      rw [hlen, hx, hy]; simp
    match l, h1, hhead with
    | [q], _, hh =>
      simp only [List.head?_cons, Option.some.injEq] at hh
      rw [hh]

/-- Witness for C13: the line from (0, 0) to (3, 2) and the line of one pixel. -/
theorem oledLine_pixels_witness :
    linePixels 4 0 0 3 2 = some [(0, 0), (1, 1), (2, 1), (3, 2)] ∧
    linePixels 1 7 7 7 7 = some [(7, 7)] ∧
    ∃ l : List (Int × Int), linePixels 4 0 0 3 2 = some l ∧ l.length = 4 := by
  refine ⟨by decide, by decide, ?_⟩
  obtain ⟨l, hl, _, hlen, _⟩ := oledLine_pixels 0 0 3 2 (by decide) (by decide) (by decide)
    (by decide) (by decide) (by decide)
  exact ⟨l, hl 4 (by decide), by rw [hlen]; decide⟩

/-! ## Line: reflections -/

/-- The offsets of a line do not depend on its start point. -/
theorem lineOffsets_eq (fuel : Nat) (px py a b : Int) :
    lineOffsets fuel px py a b = linePixels fuel 0 0 a b := by
  unfold lineOffsets linePixels
  have h := lineLoop_transport (fun v => v - px) (fun v => v - py) |a| |b|
    (if 0 < a then 1 else -1) (if 0 < b then 1 else -1)
    (if 0 < a then 1 else -1) (if 0 < b then 1 else -1) (px + a) (py + b)
    (fun u v => by show u - px = v - px ↔ u = v; constructor <;> intro h <;> omega)
    (fun u v => by show u - py = v - py ↔ u = v; constructor <;> intro h <;> omega)
    (fun v => by show v + _ - px = v - px + _; ring)
    (fun v => by show v + _ - py = v - py + _; ring) fuel px py (|a| - |b|)
  beta_reduce at h
  simp only [sub_self, add_sub_cancel_left] at h
  have ca : (px < px + a) ↔ (0 < a) := by constructor <;> intro h <;> omega
  have cb : (py < py + b) ↔ (0 < b) := by constructor <;> intro h <;> omega
  simp only [add_sub_cancel_left, sub_zero, ca, cb]
  exact h.symm

/-- Exchanging the two offsets of the end point exchanges the coordinates of
every pixel. -/
theorem linePixels_swap (fuel : Nat) (a b : Int) :
    linePixels fuel 0 0 b a = (linePixels fuel 0 0 a b).map (List.map Prod.swap) := by
  unfold linePixels
  have h := lineLoop_swap |a - 0| |b - 0| (if (0 : Int) < a then 1 else -1)
    (if (0 : Int) < b then 1 else -1) a b fuel 0 0 (|a - 0| - |b - 0|)
  rw [show -(|a - 0| - |b - 0|) = |b - 0| - |a - 0| by ring] at h
  exact h

/-- Negating the first offset of the end point negates the first coordinate of
every pixel. -/
theorem linePixels_negX (fuel : Nat) (a b : Int) :
    linePixels fuel 0 0 (-a) b =
      (linePixels fuel 0 0 a b).map (List.map fun p => (-p.1, p.2)) := by
  by_cases ha : a = 0
  · subst ha
    simp only [neg_zero]
    cases hres : linePixels fuel 0 0 0 b with
    | none => rfl
    | some l =>
      obtain ⟨l0, hl0, _, _, _, _, _, hflat⟩ := linePixels_spec 0 0 0 b
      have e1 := linePixels_mono _ (max fuel ((max |(0 : Int) - 0| |b - 0|).toNat + 1))
        _ _ _ _ l hres (le_max_left _ _)
      have e2 := linePixels_mono _ (max fuel ((max |(0 : Int) - 0| |b - 0|).toNat + 1))
        _ _ _ _ l0 hl0 (le_max_right _ _)
      rw [e1] at e2
      have hll : l = l0 := Option.some.inj e2
      subst hll
      simp only [Option.map_some', Option.some.injEq]
      symm
      calc l.map (fun p => (-p.1, p.2)) = l.map id := by
            apply List.map_congr_left
            intro p hp
            have := hflat rfl p hp
            simp only [id]
            ext
            · simp [this]
            · rfl
        _ = l := List.map_id l
  · unfold linePixels
    have h := lineLoop_transport (fun v => -v) (fun v => v) |a - 0| |b - 0|
      (if (0 : Int) < a then 1 else -1) (if (0 : Int) < b then 1 else -1)
      (-(if (0 : Int) < a then 1 else -1)) (if (0 : Int) < b then 1 else -1) a b
      (fun u v => by show -u = -v ↔ u = v; constructor <;> intro h <;> omega)
      (fun u v => Iff.rfl)
      (fun v => by show -(v + _) = -v + -_; ring) (fun v => rfl) fuel 0 0 (|a - 0| - |b - 0|)
    beta_reduce at h
    simp only [neg_zero] at h
    have es : (if (0 : Int) < -a then (1 : Int) else -1) = -(if (0 : Int) < a then 1 else -1) := by
      split_ifs <;> omega
    have ea : |-a - 0| = |a - 0| := by simp
    rw [es, ea]
    exact h

/-- Negating the second offset of the end point negates the second coordinate
of every pixel. -/
theorem linePixels_negY (fuel : Nat) (a b : Int) :
    linePixels fuel 0 0 a (-b) =
      (linePixels fuel 0 0 a b).map (List.map fun p => (p.1, -p.2)) := by
  rw [linePixels_swap fuel (-b) a, linePixels_negX fuel b a, linePixels_swap fuel a b]
  simp only [Option.map_map]
  congr 1
  funext l
  simp only [Function.comp, List.map_map]
  rfl

/-- C14: `oledLine` is symmetric in every octant.  For every start point P and
offset (a, b) the loop terminates, and the offsets relative to P of the pixels
requested for the line from P to P + (a, b) are carried by each of the
reflections (a,b) -> (-a,b), (a,b) -> (a,-b) and (a,b) -> (b,a), pixel by pixel
and in order, onto the offsets requested for the line from P to P plus the
reflected offset; in particular each reflection maps the one set of offsets
onto exactly the other. -/
theorem oledLine_octant_symmetry (px py a b : Int) :
    ∃ l : List (Int × Int), ∀ fuel : Nat, (max |a| |b|).toNat + 1 ≤ fuel →
      lineOffsets fuel px py a b = some l ∧
      lineOffsets fuel px py (-a) b = some (l.map fun o => (-o.1, o.2)) ∧
      lineOffsets fuel px py a (-b) = some (l.map fun o => (o.1, -o.2)) ∧
      lineOffsets fuel px py b a = some (l.map fun o => (o.2, o.1)) ∧
      (∀ o : Int × Int, o ∈ l.map (fun o => (-o.1, o.2)) ↔ (-o.1, o.2) ∈ l) ∧
      (∀ o : Int × Int, o ∈ l.map (fun o => (o.1, -o.2)) ↔ (o.1, -o.2) ∈ l) ∧
      (∀ o : Int × Int, o ∈ l.map (fun o => (o.2, o.1)) ↔ (o.2, o.1) ∈ l) := by
  obtain ⟨l, hl, _⟩ := linePixels_spec 0 0 a b
  simp only [sub_zero] at hl
  refine ⟨l, fun fuel hf => ?_⟩
  have h0 : linePixels fuel 0 0 a b = some l := linePixels_mono _ fuel _ _ _ _ l hl hf
  refine ⟨?_, ?_, ?_, ?_, ?_, ?_, ?_⟩
  · rw [lineOffsets_eq, h0]
  · rw [lineOffsets_eq, linePixels_negX, h0]; rfl
  · rw [lineOffsets_eq, linePixels_negY, h0]; rfl
  · rw [lineOffsets_eq, linePixels_swap, h0]; rfl
  · intro o
    rw [List.mem_map]
    constructor
    · rintro ⟨q, hq, rfl⟩
      simpa using hq
    · intro h
      exact ⟨(-o.1, o.2), h, by simp⟩
  · intro o
    rw [List.mem_map]
    constructor
    · rintro ⟨q, hq, rfl⟩
      simpa using hq
    · intro h
      exact ⟨(o.1, -o.2), h, by simp⟩
  · intro o
    rw [List.mem_map]
    constructor
    · rintro ⟨q, hq, rfl⟩
      simpa using hq
    · intro h
      exact ⟨(o.2, o.1), h, by simp⟩

/-- Witness for C14: the line with offset (3, 2) from (10, 20) and its three
reflections. -/
theorem oledLine_octant_symmetry_witness :
    lineOffsets 4 10 20 3 2 = some [(0, 0), (1, 1), (2, 1), (3, 2)] ∧
    lineOffsets 4 10 20 (-3) 2 = some [(0, 0), (-1, 1), (-2, 1), (-3, 2)] ∧
    lineOffsets 4 10 20 3 (-2) = some [(0, 0), (1, -1), (2, -1), (3, -2)] ∧
    lineOffsets 4 10 20 2 3 = some [(0, 0), (1, 1), (1, 2), (2, 3)] ∧
    ∃ l : List (Int × Int), lineOffsets 4 10 20 3 2 = some l ∧
      lineOffsets 4 10 20 2 3 = some (l.map fun o => (o.2, o.1)) := by
  refine ⟨by decide, by decide, by decide, by decide, ?_⟩
  obtain ⟨l, hl⟩ := oledLine_octant_symmetry 10 20 3 2
  exact ⟨l, (hl 4 (by decide)).1, (hl 4 (by decide)).2.2.2.1⟩

/-! ## Filled triangle: the divisors -/

/-- C16 (the code at the failing input): for the vertices (0,5), (3,5), (7,5),
all on one row, `oledFilledTriangle` runs its row loop once (i = 0) with
`total_height` = 0 and `segment_height` = 0, so both `alpha` and `beta` are
computed with a zero divisor; the same holds for any three vertices on one
row. -/
theorem filledTriangle_flat_divides_by_zero :
    triangleDivisors 0 5 3 5 7 5 = [(0, 0)] ∧
    ∀ x0 x1 x2 y : Int, triangleDivisors x0 y x1 y x2 y = [(0, 0)] := by
  refine ⟨by decide, ?_⟩
  intro x0 x1 x2 y
  unfold triangleDivisors triangleSorted intRange
  simp
  rfl

/-- Outside the flat case the divisors are sound: when the three vertices do
not all share one Y, every row of `oledFilledTriangle` divides by a non-zero
`total_height` and a non-zero `segment_height`. -/
theorem triangleDivisors_nonzero (x0 y0 x1 y1 x2 y2 : Int) (h : ¬ (y0 = y1 ∧ y1 = y2)) :
    ∀ d ∈ triangleDivisors x0 y0 x1 y1 x2 y2, d.1 ≠ 0 ∧ d.2 ≠ 0 := by
  intro d hd
  unfold triangleDivisors at hd
  simp only [List.mem_map, mem_intRange] at hd
  obtain ⟨i, ⟨hi0, hi1⟩, rfl⟩ := hd
  unfold triangleSorted at hi1 ⊢
  simp only [decide_eq_true_eq] at hi1 ⊢
  split_ifs at hi1 ⊢ <;> dsimp only at * <;> constructor <;> omega

/-! ## Repeating a shape -/

/-- A settled pixel request leaves the session as it is. -/
theorem PixelSettled.noop {s : State} {x y : Int} {ucColor : Nat}
    (h : PixelSettled s x y ucColor) : (oledSetPixel s x y ucColor).2 = s := by
  unfold oledSetPixel
  by_cases hinit : s.file_i2c = 0
  · rw [if_pos hinit]
  · rw [if_neg hinit]
    dsimp only
    by_cases hr : (y >>> (3 : Nat)) * 128 + x < 0 ∨ (y >>> (3 : Nat)) * 128 + x > 1023
    · rw [if_pos hr]
    · rw [if_neg hr]
      have heq : pixelByte (s.ucScreen ((y >>> (3 : Nat)) * 128 + x).toNat) y ucColor =
          s.ucScreen ((y >>> (3 : Nat)) * 128 + x).toNat := by
        rcases h with h | h | h | h
        · exact absurd h hinit
        · exact absurd (Or.inl h) hr
        · exact absurd (Or.inr h) hr
        · exact h
      rw [if_neg (not_not.mpr heq)]

/-- Deriving the byte for one bit keeps a byte that was already right for
another bit of the same colour. -/
theorem pixelByte_keeps (u : Nat) (y1 y2 : Int) (ucColor : Nat)
    (h : pixelByte u y1 ucColor = u) :
    pixelByte (pixelByte u y2 ucColor) y1 ucColor = pixelByte u y2 ucColor := by
  apply Nat.eq_of_testBit_eq
  intro j
  rw [pixelByte_testBit_any _ y1 ucColor j, pixelByte_testBit_any u y2 ucColor j]
  have hu := pixelByte_testBit_any u y1 ucColor j
  rw [h] at hu
  by_cases h1 : j = bits32 y1 &&& 7
  · rw [if_pos h1] at hu ⊢
    by_cases h2 : j = bits32 y2 &&& 7
    · rw [if_pos h2]
    · rw [if_neg h2, ← hu]
      have h8 : j < 8 := by rw [h1, and_seven]; omega
      simp [h8]
  · rw [if_neg h1]
    by_cases h2 : j = bits32 y2 &&& 7
    · rw [if_pos h2]
      have h8 : j < 8 := by rw [h2, and_seven]; omega
      simp [h8]
    · rw [if_neg h2]
      by_cases h8 : j < 8 <;> simp [h8]

/-- After `oledSetPixel` the same request is settled. -/
theorem PixelSettled.after (s : State) (x y : Int) (ucColor : Nat) :
    PixelSettled (oledSetPixel s x y ucColor).2 x y ucColor := by
  by_cases hinit : s.file_i2c = 0
  · left; rw [oledSetPixel_file_i2c]; exact hinit
  · by_cases h0 : (y >>> (3 : Nat)) * 128 + x < 0
    · right; left; exact h0
    · by_cases h1 : (y >>> (3 : Nat)) * 128 + x > 1023
      · right; right; left; exact h1
      · right; right; right
        rw [oledSetPixel_ucScreen s x y ucColor hinit (by omega) (by omega), if_pos rfl,
          pixelByte_idem]

/-- A settled request stays settled when another pixel is set to the same
colour. -/
theorem PixelSettled.keep {s : State} {x y : Int} {ucColor : Nat}
    (h : PixelSettled s x y ucColor) (x2 y2 : Int) :
    PixelSettled (oledSetPixel s x2 y2 ucColor).2 x y ucColor := by
  by_cases hinit : s.file_i2c = 0
  · left; rw [oledSetPixel_file_i2c]; exact hinit
  · by_cases hr2 : 0 ≤ (y2 >>> (3 : Nat)) * 128 + x2 ∧ (y2 >>> (3 : Nat)) * 128 + x2 ≤ 1023
    · rcases h with h | h | h | h
      · exact absurd h hinit
      · right; left; exact h
      · right; right; left; exact h
      · right; right; right
        rw [oledSetPixel_ucScreen s x2 y2 ucColor hinit hr2.1 hr2.2]
        by_cases hsame : ((y >>> (3 : Nat)) * 128 + x).toNat =
            ((y2 >>> (3 : Nat)) * 128 + x2).toNat
        · rw [if_pos hsame, ← hsame]
          exact pixelByte_keeps _ y y2 ucColor h
        · rw [if_neg hsame]; exact h
    · have hno : PixelSettled s x2 y2 ucColor := by
        right
        by_cases h0 : (y2 >>> (3 : Nat)) * 128 + x2 < 0
        · left; exact h0
        · right; left; omega
      rw [hno.noop]; exact h

theorem plot_nil (s : State) (ucColor : Nat) : plot s [] ucColor = s := rfl

theorem plot_cons (s : State) (p : Int × Int) (pts : List (Int × Int)) (ucColor : Nat) :
    plot s (p :: pts) ucColor = plot (oledSetPixel s p.1 p.2 ucColor).2 pts ucColor := rfl

theorem plot_append (s : State) (l1 l2 : List (Int × Int)) (ucColor : Nat) :
    plot s (l1 ++ l2) ucColor = plot (plot s l1 ucColor) l2 ucColor := by
  unfold plot
  rw [List.foldl_append]

/-- Plotting keeps settled requests settled. -/
theorem PixelSettled.plot {s : State} {x y : Int} {ucColor : Nat}
    (h : PixelSettled s x y ucColor) (pts : List (Int × Int)) :
    PixelSettled (plot s pts ucColor) x y ucColor := by
  induction pts generalizing s with
  | nil => exact h
  | cons p rest ih =>
    rw [plot_cons]
    exact ih (h.keep p.1 p.2)

/-- Plotting settled requests leaves the session as it is. -/
theorem plot_settled (s : State) (pts : List (Int × Int)) (ucColor : Nat)
    (h : ∀ p ∈ pts, PixelSettled s p.1 p.2 ucColor) : plot s pts ucColor = s := by
  induction pts with
  | nil => rfl
  | cons p rest ih =>
    rw [plot_cons, (h p (List.mem_cons_self _ _)).noop]
    exact ih (fun q hq => h q (List.mem_cons_of_mem _ hq))

/-- After a plot every request of the plot is settled. -/
theorem plot_settles (s : State) (pts : List (Int × Int)) (ucColor : Nat) :
    ∀ p ∈ pts, PixelSettled (plot s pts ucColor) p.1 p.2 ucColor := by
  induction pts generalizing s with
  | nil => intro p hp; exact absurd hp (List.not_mem_nil _)
  | cons q rest ih =>
    intro p hp
    rw [plot_cons]
    rcases List.mem_cons.mp hp with rfl | hp
    · exact (PixelSettled.after s p.1 p.2 ucColor).plot rest
    · exact ih _ p hp

/-- Plotting the same pixels a second time changes nothing: no packet is
written and the shadow buffer is kept. -/
theorem plot_twice (s : State) (pts : List (Int × Int)) (ucColor : Nat) :
    plot (plot s pts ucColor) pts ucColor = plot s pts ucColor :=
  plot_settled _ pts ucColor (plot_settles s pts ucColor)

/-- Region 1 of `oledEllipse` terminates, and leaves `y` no larger than it
found it. -/
theorem ellipseRegion1_terminates (xc yc rx2 ry2 : Int) (hrx : 0 ≤ rx2) (fuel : Nat) :
    ∀ x y px py p : Int, 1 ≤ fuel → (0 < ry2 ∨ py ≤ px) → py - px + 1 ≤ (fuel : Int) →
      ∃ r, ellipseRegion1 xc yc rx2 ry2 fuel x y px py p = some r ∧ r.2.2.1 ≤ y := by
  induction fuel with
  | zero => intro x y px py p h; omega
  | succ n ih =>
    intro x y px py p _ hry hfuel
    unfold ellipseRegion1
    by_cases hc : px < py
    · rw [if_pos hc]
      have hpos : 0 < ry2 := by
        rcases hry with h | h
        · exact h
        · omega
      obtain ⟨r, hr, hy⟩ := ih (x + 1) (if p < 0 then y else y - 1) (px + 2 * ry2)
        (if p < 0 then py else py - 2 * rx2)
        (if p < 0 then p + ry2 + (px + 2 * ry2)
          else p + ry2 + (px + 2 * ry2) - (if p < 0 then py else py - 2 * rx2))
        (by omega) (Or.inl hpos) (by split_ifs <;> omega)
      refine ⟨_, by dsimp only; rw [hr]; rfl, ?_⟩
      dsimp only
      split_ifs at hy <;> omega
    · rw [if_neg hc]
      exact ⟨_, rfl, le_refl _⟩

/-- Region 2 of `oledEllipse` terminates. -/
theorem ellipseRegion2_terminates (xc yc rx2 ry2 : Int) (fuel : Nat) :
    ∀ x y px py p : Int, 1 ≤ fuel → y + 2 ≤ (fuel : Int) →
      ∃ l, ellipseRegion2 xc yc rx2 ry2 fuel x y px py p = some l := by
  induction fuel with
  | zero => intro x y px py p h; omega
  | succ n ih =>
    intro x y px py p _ hfuel
    unfold ellipseRegion2
    by_cases hc : y ≥ 0
    · rw [if_pos hc]
      obtain ⟨l, hl⟩ := ih (if p > 0 then x else x + 1) (y - 1)
        (if p > 0 then px else px + 2 * ry2) (py - 2 * rx2)
        (if p > 0 then p + rx2 - (py - 2 * rx2)
          else p + rx2 - (py - 2 * rx2) + (if p > 0 then px else px + 2 * ry2))
        (by omega) (by omega)
      exact ⟨_, by dsimp only; rw [hl]; rfl⟩
    · rw [if_neg hc]
      exact ⟨_, rfl⟩

/-- The two loops of `oledEllipse` terminate for all radii. -/
theorem ellipsePixels_terminates (xc yc rx ry : Int) :
    ∃ (fuel : Nat) (l : List (Int × Int)), ellipsePixels fuel xc yc rx ry = some l := by
  have hrx : 0 ≤ rx * rx := mul_self_nonneg rx
  have hbound : 2 * (rx * rx) * ry ≤ 2 * (rx * rx) * |ry| :=
    mul_le_mul_of_nonneg_left (le_abs_self ry) (by omega)
  have habs : 0 ≤ 2 * (rx * rx) * |ry| := by positivity
  have hle : ry ≤ |ry| := le_abs_self ry
  have hnn : 0 ≤ |ry| := abs_nonneg ry
  obtain ⟨r1, hr1, hy⟩ := ellipseRegion1_terminates xc yc (rx * rx) (ry * ry) hrx
    (2 * (rx * rx) * |ry| + |ry| + 2).toNat 0 ry 0 (2 * (rx * rx) * ry)
    (Int.tdiv (4 * (ry * ry - rx * rx * ry) + rx * rx) 4)
    (by omega)
    (by
      by_cases h0 : ry = 0
      · right; rw [h0]; simp
      · left; exact mul_self_pos.mpr h0)
    (by omega)
  obtain ⟨l2, hl2⟩ := ellipseRegion2_terminates xc yc (rx * rx) (ry * ry)
    (2 * (rx * rx) * |ry| + |ry| + 2).toNat r1.2.1 r1.2.2.1 r1.2.2.2.1 r1.2.2.2.2
    (Int.tdiv (ry * ry * (2 * r1.2.1 + 1) * (2 * r1.2.1 + 1) +
      4 * (rx * rx * (r1.2.2.1 - 1) * (r1.2.2.1 - 1)) - 4 * (rx * rx * (ry * ry))) 4)
    (by omega) (by omega)
  refine ⟨(2 * (rx * rx) * |ry| + |ry| + 2).toNat, r1.1 ++ l2, ?_⟩
  unfold ellipsePixels
  simp only [hr1, Option.some_bind, hl2, Option.map_some']

/-- The loop of `oledLine` terminates for all end points. -/
theorem linePixels_terminates (x0 y0 x1 y1 : Int) :
    ∃ F : Nat, ∀ fuel : Nat, F ≤ fuel → ∃ l, linePixels fuel x0 y0 x1 y1 = some l := by
  obtain ⟨l, hl, _⟩ := linePixels_spec x0 y0 x1 y1
  exact ⟨_, fun fuel hf => ⟨l, linePixels_mono _ fuel _ _ _ _ l hl hf⟩⟩

/-- The three loops of `oledTriangle` terminate. -/
theorem trianglePixels_terminates (x0 y0 x1 y1 x2 y2 : Int) :
    ∃ (fuel : Nat) (l : List (Int × Int)),
      trianglePixels fuel x0 y0 x1 y1 x2 y2 = some l := by
  obtain ⟨F1, h1⟩ := linePixels_terminates x0 y0 x1 y1
  obtain ⟨F2, h2⟩ := linePixels_terminates x1 y1 x2 y2
  obtain ⟨F3, h3⟩ := linePixels_terminates x2 y2 x0 y0
  obtain ⟨a, ha⟩ := h1 (F1 + F2 + F3) (by omega)
  obtain ⟨b, hb⟩ := h2 (F1 + F2 + F3) (by omega)
  obtain ⟨c, hc⟩ := h3 (F1 + F2 + F3) (by omega)
  refine ⟨F1 + F2 + F3, a ++ b ++ c, ?_⟩
  unfold trianglePixels
  simp only [ha, hb, hc, Option.some_bind, Option.map_some']

/-- The loops of `oledPolygon` terminate. -/
theorem polygonPixels_terminates (vx vy : List Int) (vertices : Nat) :
    ∃ (fuel : Nat) (l : List (Int × Int)), polygonPixels fuel vx vy vertices = some l := by
  have key : ∀ k : Nat, ∃ F : Nat, ∀ fuel : Nat, F ≤ fuel →
      ∃ l, (List.range k).foldl (fun acc i =>
        acc.bind fun pts =>
          (linePixels fuel (vx.getD i 0) (vy.getD i 0)
            (vx.getD ((i + 1) % vertices) 0) (vy.getD ((i + 1) % vertices) 0)).map
            fun l => pts ++ l) (some []) = some l := by
    intro k
    induction k with
    | zero => exact ⟨0, fun fuel _ => ⟨[], rfl⟩⟩
    | succ k ih =>
      obtain ⟨F, hF⟩ := ih
      obtain ⟨G, hG⟩ := linePixels_terminates (vx.getD k 0) (vy.getD k 0)
        (vx.getD ((k + 1) % vertices) 0) (vy.getD ((k + 1) % vertices) 0)
      refine ⟨F + G, fun fuel hf => ?_⟩
      obtain ⟨l, hl⟩ := hF fuel (by omega)
      obtain ⟨e, he⟩ := hG fuel (by omega)
      refine ⟨l ++ e, ?_⟩
      rw [List.range_succ, List.foldl_append, hl]
      simp only [List.foldl_cons, List.foldl_nil, Option.some_bind, he, Option.map_some']
  obtain ⟨F, hF⟩ := key vertices
  obtain ⟨l, hl⟩ := hF F (le_refl _)
  exact ⟨F, l, hl⟩

theorem oledSetPixel_width (s : State) (x y : Int) (ucColor : Nat) :
    (oledSetPixel s x y ucColor).2._width = s._width := by
  unfold oledSetPixel
  dsimp only
  split_ifs <;> rfl

theorem plot_width (s : State) (pts : List (Int × Int)) (ucColor : Nat) :
    (plot s pts ucColor)._width = s._width := by
  induction pts generalizing s with
  | nil => rfl
  | cons p rest ih => rw [plot_cons, ih, oledSetPixel_width]

/-- The second of two identical `oledFilledPolygon` calls changes nothing. -/
theorem oledFilledPolygon_twice (s : State) (vx vy : List Int) (vertices : Nat)
    (ucColor : Nat) :
    oledFilledPolygon (oledFilledPolygon s vx vy vertices ucColor).2 vx vy vertices ucColor =
      (0, (oledFilledPolygon s vx vy vertices ucColor).2) := by
  have hsettled : ∀ p ∈ filledPolygonPixels vx vy vertices,
      PixelSettled (oledFilledPolygon s vx vy vertices ucColor).2 p.1 p.2 ucColor := by
    intro p hp
    exact plot_settles s (filledPolygonPixels vx vy vertices) ucColor p hp
  have hplot := plot_settled _ _ ucColor hsettled
  have hw : (oledFilledPolygon s vx vy vertices ucColor).2._width = s._width :=
    plot_width s _ ucColor
  generalize hs1 : (oledFilledPolygon s vx vy vertices ucColor).2 = s1 at hplot hw
  have hov : s1.overrun =
      ((plot s (filledPolygonPixels vx vy vertices) ucColor).overrun ||
        (intRange (polygonMinY vy vertices) (polygonMaxY vy vertices)).any fun y =>
          decide (s._width < ((polygonNodes vx vy vertices y).length : Int))) := by
    rw [← hs1]; rfl
  unfold oledFilledPolygon
  simp only [hplot, hw]
  have hb : (s1.overrun ||
      (intRange (polygonMinY vy vertices) (polygonMaxY vy vertices)).any fun y =>
        decide (s._width < ((polygonNodes vx vy vertices y).length : Int))) = s1.overrun := by
    rw [hov]
    cases (plot s (filledPolygonPixels vx vy vertices) ucColor).overrun <;>
      cases ((intRange (polygonMinY vy vertices) (polygonMaxY vy vertices)).any fun y =>
        decide (s._width < ((polygonNodes vx vy vertices y).length : Int))) <;> rfl
  rw [hb, ← hw]

/-- The loop of `oledCircle` terminates for every radius. -/
theorem circlePixels_terminates (xc yc r : Int) :
    ∃ (fuel : Nat) (l : List (Int × Int)), circlePixels fuel xc yc r = some l := by
  obtain ⟨l, hl, _⟩ := circleLoop_spec xc yc ((|r| + 2).toNat) 0 r (3 - 2 * r)
    (by have := abs_nonneg r; omega) (by have := le_abs_self r; have := abs_nonneg r; omega)
  exact ⟨_, l, hl⟩

/-- A shape whose loops produce the pixel list `pts` returns 0 both times it
is called, and the second call returns the state it was given. -/
theorem shape_repeats (pixels : Option (List (Int × Int))) (pts : List (Int × Int))
    (h : pixels = some pts) (s : State) (ucColor : Nat) :
    ∃ t : State, pixels.map (fun pts => ((0 : Int), plot s pts ucColor)) = some (0, t) ∧
      pixels.map (fun pts => ((0 : Int), plot t pts ucColor)) = some (0, t) := by
  subst h
  exact ⟨plot s pts ucColor, rfl, by rw [Option.map_some', plot_twice]⟩

/-- C18: every integer shape primitive inherits the dirty check.  From every
state (initialized or not) and for all arguments, each of `oledLine`,
`oledCircle`, `oledFilledCircle`, `oledEllipse`, `oledFilledEllipse`,
`oledSquare`, `oledFilledSquare`, `oledRectangle`, `oledFilledRectangle`,
`oledTriangle`, `oledPolygon` and `oledFilledPolygon` returns 0 and a state
`t`, and called again from `t` with the same arguments it returns 0 and `t`
itself: no packet is added to the trace `written` and no byte of `ucScreen`
changes.  The primitives with data-dependent loops do return (some fuel
suffices). -/
theorem shapes_repeat (s : State) (ucColor : Nat) :
    (∀ x0 y0 x1 y1 : Int, ∃ (fuel : Nat) (t : State),
      oledLine fuel s x0 y0 x1 y1 ucColor = some (0, t) ∧
      oledLine fuel t x0 y0 x1 y1 ucColor = some (0, t)) ∧
    (∀ xc yc r : Int, ∃ (fuel : Nat) (t : State),
      oledCircle fuel s xc yc r ucColor = some (0, t) ∧
      oledCircle fuel t xc yc r ucColor = some (0, t)) ∧
    (∀ xc yc r : Int, ∃ t : State,
      oledFilledCircle s xc yc r ucColor = (0, t) ∧
      oledFilledCircle t xc yc r ucColor = (0, t)) ∧
    (∀ xc yc rx ry : Int, ∃ (fuel : Nat) (t : State),
      oledEllipse fuel s xc yc rx ry ucColor = some (0, t) ∧
      oledEllipse fuel t xc yc rx ry ucColor = some (0, t)) ∧
    (∀ xc yc rx ry : Int, ∃ t : State,
      oledFilledEllipse s xc yc rx ry ucColor = (0, t) ∧
      oledFilledEllipse t xc yc rx ry ucColor = (0, t)) ∧
    (∀ x y size : Int, ∃ t : State,
      oledSquare s x y size ucColor = (0, t) ∧
      oledSquare t x y size ucColor = (0, t)) ∧
    (∀ x y size : Int, ∃ t : State,
      oledFilledSquare s x y size ucColor = (0, t) ∧
      oledFilledSquare t x y size ucColor = (0, t)) ∧
    (∀ x y width height : Int, ∃ t : State,
      oledRectangle s x y width height ucColor = (0, t) ∧
      oledRectangle t x y width height ucColor = (0, t)) ∧
    (∀ x y width height : Int, ∃ t : State,
      oledFilledRectangle s x y width height ucColor = (0, t) ∧
      oledFilledRectangle t x y width height ucColor = (0, t)) ∧
    (∀ x0 y0 x1 y1 x2 y2 : Int, ∃ (fuel : Nat) (t : State),
      oledTriangle fuel s x0 y0 x1 y1 x2 y2 ucColor = some (0, t) ∧
      oledTriangle fuel t x0 y0 x1 y1 x2 y2 ucColor = some (0, t)) ∧
    (∀ (vx vy : List Int) (vertices : Nat), ∃ (fuel : Nat) (t : State),
      oledPolygon fuel s vx vy vertices ucColor = some (0, t) ∧
      oledPolygon fuel t vx vy vertices ucColor = some (0, t)) ∧
    (∀ (vx vy : List Int) (vertices : Nat), ∃ t : State,
      oledFilledPolygon s vx vy vertices ucColor = (0, t) ∧
      oledFilledPolygon t vx vy vertices ucColor = (0, t)) := by
  refine ⟨?_, ?_, ?_, ?_, ?_, ?_, ?_, ?_, ?_, ?_, ?_, ?_⟩
  · intro x0 y0 x1 y1
    obtain ⟨l, hl, _⟩ := linePixels_spec x0 y0 x1 y1
    exact ⟨_, shape_repeats _ l hl s ucColor⟩
  · intro xc yc r
    obtain ⟨fuel, l, hl⟩ := circlePixels_terminates xc yc r
    exact ⟨fuel, shape_repeats _ l hl s ucColor⟩
  · intro xc yc r
    exact ⟨_, rfl, by unfold oledFilledCircle; rw [plot_twice]⟩
  · intro xc yc rx ry
    obtain ⟨fuel, l, hl⟩ := ellipsePixels_terminates xc yc rx ry
    exact ⟨fuel, shape_repeats _ l hl s ucColor⟩
  · intro xc yc rx ry
    exact ⟨_, rfl, by unfold oledFilledEllipse; rw [plot_twice]⟩
  · intro x y size
    exact ⟨_, rfl, by unfold oledSquare; rw [plot_twice]⟩
  · intro x y size
    exact ⟨_, rfl, by unfold oledFilledSquare; rw [plot_twice]⟩
  · intro x y width height
    exact ⟨_, rfl, by unfold oledRectangle; rw [plot_twice]⟩
  · intro x y width height
    exact ⟨_, rfl, by unfold oledFilledRectangle; rw [plot_twice]⟩
  · intro x0 y0 x1 y1 x2 y2
    obtain ⟨fuel, l, hl⟩ := trianglePixels_terminates x0 y0 x1 y1 x2 y2
    exact ⟨fuel, shape_repeats _ l hl s ucColor⟩
  · intro vx vy vertices
    obtain ⟨fuel, l, hl⟩ := polygonPixels_terminates vx vy vertices
    exact ⟨fuel, shape_repeats _ l hl s ucColor⟩
  · intro vx vy vertices
    exact ⟨(oledFilledPolygon s vx vy vertices ucColor).2, rfl,
      oledFilledPolygon_twice s vx vy vertices ucColor⟩

/-- The first call is not idle: on a cleared 128x64 session a filled square
of side 2 sends four packets for each of its four pixels. -/
theorem oledFilledSquare_first_call_writes :
    (oledFilledSquare { State.boot with file_i2c := 3, oled_type := OLED_128x64 }
      0 0 2 1).2.written.length = 16 := by
  decide

/-! ## Scanlines of a convex polygon -/

theorem filter_range_succ_length (p : Nat → Bool) (m : Nat) :
    ((List.range (m + 1)).filter p).length =
      ((List.range m).filter p).length + (if p m then 1 else 0) := by
  rw [List.range_succ, List.filter_append, List.length_append]
  by_cases h : p m <;> simp [h]

/-- Walking from index 0 to index `m`, the flag `f` ends where it started
exactly when it changed an even number of times. -/
theorem changes_parity (f : Nat → Bool) (m : Nat) :
    f 0 = f m ↔ ((List.range m).filter fun i => f i != f (i + 1)).length % 2 = 0 := by
  induction m with
  | zero => simp
  | succ m ih =>
    rw [filter_range_succ_length]
    revert ih
    generalize ((List.range m).filter fun i => f i != f (i + 1)).length = c
    cases f 0 <;> cases f m <;> cases f (m + 1) <;> simp <;> omega

/-- The last of at least `k + 1` changes: a change with at least `k` changes
before it. -/
theorem changes_last (f : Nat → Bool) (k : Nat) (m : Nat) :
    k + 1 ≤ ((List.range m).filter fun i => f i != f (i + 1)).length →
      ∃ a, a < m ∧ f a ≠ f (a + 1) ∧
        k ≤ ((List.range a).filter fun i => f i != f (i + 1)).length := by
  induction m with
  | zero => simp
  | succ m ih =>
    rw [filter_range_succ_length]
    by_cases h : f m = f (m + 1)
    · have hp : (f m != f (m + 1)) = false := by simp [h]
      rw [hp]
      intro hk
      obtain ⟨a, ha, hne, hc⟩ := ih (by simpa using hk)
      exact ⟨a, by omega, hne, hc⟩
    · have hp : (f m != f (m + 1)) = true := by simp [h]
      rw [hp]
      intro hk
      exact ⟨m, by omega, h, by simpa using hk⟩

/-- Three changes give four indices in increasing order on which the flag
alternates. -/
theorem changes_three (f : Nat → Bool) (m : Nat)
    (h : 3 ≤ ((List.range m).filter fun i => f i != f (i + 1)).length) :
    ∃ a b c d, a < b ∧ b < c ∧ c < d ∧ d ≤ m ∧ f a ≠ f b ∧ f b ≠ f c ∧ f c ≠ f d := by
  obtain ⟨a3, h3m, hne3, hc3⟩ := changes_last f 2 m h
  obtain ⟨a2, h23, hne2, hc2⟩ := changes_last f 1 a3 hc3
  obtain ⟨a1, h12, hne1, _⟩ := changes_last f 0 a2 hc2
  by_cases hC : f a2 = f a1
  · have hlt : a1 + 1 < a2 := by
      rcases Nat.lt_or_ge (a1 + 1) a2 with h | h
      · exact h
      · exfalso
        have : a2 = a1 + 1 := by omega
        rw [this] at hC
        exact hne1 hC.symm
    by_cases hD : f a3 = f a1
    · refine ⟨a1, a1 + 1, a2, a3 + 1, by omega, hlt, by omega, by omega, hne1, ?_, ?_⟩
      · rw [hC]; exact fun h => hne1 h.symm
      · rw [hC, ← hD]; exact hne3
    · refine ⟨a1, a1 + 1, a2, a3, by omega, hlt, by omega, by omega, hne1, ?_, ?_⟩
      · rw [hC]; exact fun h => hne1 h.symm
      · rw [hC]; exact fun h => hD h.symm
  · have hC2 : f (a2 + 1) = f a1 := by
      revert hne2 hC
      cases f a2 <;> cases f (a2 + 1) <;> cases f a1 <;> simp
    by_cases hD : f a3 = f a1
    · refine ⟨a1, a1 + 1, a2 + 1, a3 + 1, by omega, by omega, by omega, by omega, hne1, ?_, ?_⟩
      · rw [hC2]; exact fun h => hne1 h.symm
      · rw [hC2, ← hD]; exact hne3
    · have hlt : a2 + 1 < a3 := by
        rcases Nat.lt_or_ge (a2 + 1) a3 with h | h
        · exact h
        · exfalso
          have : a3 = a2 + 1 := by omega
          rw [this] at hD
          exact hD hC2
      refine ⟨a1, a1 + 1, a2 + 1, a3, by omega, by omega, hlt, by omega, hne1, ?_, ?_⟩
      · rw [hC2]; exact fun h => hne1 h.symm
      · rw [hC2]; exact fun h => hD h.symm

/-- The crossing test of `oledFilledPolygon` compares the two ends of the edge
by the flag "strictly above the scanline on the panel" (`y`-coordinate less
than the scanline). -/
theorem edgeCrosses_eq (yi yj y : Int) :
    edgeCrosses yi yj y = (decide (yi < y) != decide (yj < y)) := by
  unfold edgeCrosses
  by_cases h1 : yi < y <;> by_cases h2 : yj < y <;> simp [h1, h2] <;> omega

/-- The number of intercepts on a scanline, counted along the closed vertex
cycle of `vertices = m + 1` vertices. -/
theorem polygonNodes_length (vx vy : List Int) (m : Nat) (y : Int) :
    (polygonNodes vx vy (m + 1) y).length =
      ((List.range m).filter fun i =>
        decide (vy.getD i 0 < y) != decide (vy.getD (i + 1) 0 < y)).length +
      (if (decide (vy.getD m 0 < y) != decide (vy.getD 0 0 < y)) then 1 else 0) := by
  unfold polygonNodes
  rw [List.length_map, filter_range_succ_length]
  congr 1
  · congr 1
    apply List.filter_congr
    intro i hi
    rw [List.mem_range] at hi
    rw [edgeCrosses_eq, Nat.mod_eq_of_lt (by omega)]
  · rw [edgeCrosses_eq, Nat.mod_self]

theorem orient_rotate (px py qx qy rx ry : Int) :
    orient px py qx qy rx ry = orient qx qy rx ry px py := by
  unfold orient; ring

/-- For `X` and `Y` on the line through `A` and `B`, the turn `X Y E` is the
turn `A B E` scaled by the height gained from `X` to `Y`. -/
theorem orient_on_line (ax ay bx bY xx xy yx yy ex ey : Int)
    (hX : orient ax ay bx bY xx xy = 0) (hY : orient ax ay bx bY yx yy = 0) :
    (bY - ay) * orient xx xy yx yy ex ey = (yy - xy) * orient ax ay bx bY ex ey := by
  unfold orient at *
  linear_combination (-(yy - xy) + (ey - xy)) * hX - (ey - xy) * hY

/-- Two turns about the same point over collinear pairs that climb in opposite
directions cannot have the same sign. -/
theorem opposite_pairs (o1 o2 uy w d1 d2 sign : Int) (hs : sign = 1 ∨ sign = -1)
    (h1 : 0 ≤ sign * o1) (h2 : 0 ≤ sign * o2) (e1 : uy * o1 = d1 * w) (e2 : uy * o2 = d2 * w)
    (hd : d1 * d2 < 0) (hw : w ≠ 0) : False := by
  have hprod : 0 ≤ o1 * o2 := by
    rcases hs with rfl | rfl
    · have := mul_nonneg h1 h2
      linarith
    · have := mul_nonneg h1 h2
      linarith
  have hsq : 0 ≤ (uy * uy) * (o1 * o2) := mul_nonneg (mul_self_nonneg uy) hprod
  have heq : (uy * uy) * (o1 * o2) = (d1 * d2) * (w * w) := by
    linear_combination (uy * o2) * e1 + (d1 * w) * e2
  have hw2 : 0 < w * w := mul_self_pos.mpr hw
  have : (d1 * d2) * (w * w) < 0 := mul_neg_of_neg_of_pos hd hw2
  linarith

/-- Four vertices on which "above the scanline" alternates, among points that
turn one way, are collinear. -/
theorem alternation_collinear (sign ax ay bx bY cx cy dx dy y : Int)
    (hs : sign = 1 ∨ sign = -1)
    (h1 : 0 ≤ sign * orient bx bY cx cy dx dy) (h2 : 0 ≤ sign * orient ax ay cx cy dx dy)
    (h3 : 0 ≤ sign * orient ax ay bx bY dx dy) (h4 : 0 ≤ sign * orient ax ay bx bY cx cy)
    (halt : (ay < y ∧ y ≤ bY ∧ cy < y ∧ y ≤ dy) ∨ (bY < y ∧ y ≤ ay ∧ dy < y ∧ y ≤ cy)) :
    orient ax ay bx bY cx cy = 0 ∧ orient ax ay bx bY dx dy = 0 := by
  have key : sign * orient bx bY cx cy dx dy * (y - ay) +
      sign * orient ax ay bx bY dx dy * (y - cy) +
      sign * orient ax ay cx cy dx dy * (bY - y) +
      sign * orient ax ay bx bY cx cy * (dy - y) = 0 := by
    unfold orient; ring
  have hsum : sign * orient bx bY cx cy dx dy + sign * orient ax ay bx bY dx dy =
      sign * orient ax ay cx cy dx dy + sign * orient ax ay bx bY cx cy := by
    unfold orient; ring
  have hs0 : sign ≠ 0 := by rcases hs with rfl | rfl <;> decide
  generalize sign * orient bx bY cx cy dx dy = p1 at *
  generalize sign * orient ax ay cx cy dx dy = p2 at *
  generalize hp3 : sign * orient ax ay bx bY dx dy = p3 at *
  generalize hp4 : sign * orient ax ay bx bY cx cy = p4 at *
  have hz : p3 = 0 ∧ p4 = 0 := by
    rcases halt with ⟨ha, hb, hc, hd⟩ | ⟨hb, ha, hd, hc⟩
    · have t1 : 0 ≤ p1 * (y - ay) := mul_nonneg h1 (by omega)
      have t2 : 0 ≤ p3 * (y - cy) := mul_nonneg h3 (by omega)
      have t3 : 0 ≤ p2 * (bY - y) := mul_nonneg h2 (by omega)
      have t4 : 0 ≤ p4 * (dy - y) := mul_nonneg h4 (by omega)
      have z1 : p1 * (y - ay) = 0 := by linarith
      have z2 : p3 * (y - cy) = 0 := by linarith
      have q1 : p1 = 0 := (mul_eq_zero.mp z1).resolve_right (by omega)
      have q3 : p3 = 0 := (mul_eq_zero.mp z2).resolve_right (by omega)
      exact ⟨q3, by omega⟩
    · have t1 : 0 ≤ p1 * (ay - y) := mul_nonneg h1 (by omega)
      have t2 : 0 ≤ p3 * (cy - y) := mul_nonneg h3 (by omega)
      have t3 : 0 ≤ p2 * (y - bY) := mul_nonneg h2 (by omega)
      have t4 : 0 ≤ p4 * (y - dy) := mul_nonneg h4 (by omega)
      have z3 : p2 * (y - bY) = 0 := by linarith
      have z4 : p4 * (y - dy) = 0 := by linarith
      have q2 : p2 = 0 := (mul_eq_zero.mp z3).resolve_right (by omega)
      have q4 : p4 = 0 := (mul_eq_zero.mp z4).resolve_right (by omega)
      exact ⟨by omega, q4⟩
  constructor
  · have := hz.2
    rw [← hp4] at this
    exact (mul_eq_zero.mp this).resolve_left hs0
  · have := hz.1
    rw [← hp3] at this
    exact (mul_eq_zero.mp this).resolve_left hs0

/-- Among the vertices of a convex polygon, "above the scanline" cannot
alternate on four vertices taken in list order. -/
theorem no_alternation (X Y : Nat → Int) (n : Nat) (sign : Int) (hs : sign = 1 ∨ sign = -1)
    (hturn : ∀ i j k, i < j → j < k → k < n →
      0 ≤ sign * orient (X i) (Y i) (X j) (Y j) (X k) (Y k))
    (hnd : ∃ i j k, i < n ∧ j < n ∧ k < n ∧ orient (X i) (Y i) (X j) (Y j) (X k) (Y k) ≠ 0)
    (y : Int) (a b c d : Nat) (hab : a < b) (hbc : b < c) (hcd : c < d) (hdn : d < n)
    (halt : (Y a < y ∧ y ≤ Y b ∧ Y c < y ∧ y ≤ Y d) ∨
      (Y b < y ∧ y ≤ Y a ∧ Y d < y ∧ y ≤ Y c)) : False := by
  obtain ⟨hC, hD⟩ := alternation_collinear sign (X a) (Y a) (X b) (Y b) (X c) (Y c) (X d) (Y d) y hs
    (hturn b c d hbc hcd hdn) (hturn a c d (by omega) hcd hdn)
    (hturn a b d hab (by omega) hdn) (hturn a b c hab hbc (by omega)) halt
  have hA : orient (X a) (Y a) (X b) (Y b) (X a) (Y a) = 0 := by unfold orient; ring
  have hB : orient (X a) (Y a) (X b) (Y b) (X b) (Y b) = 0 := by unfold orient; ring
  have huy : Y b - Y a ≠ 0 := by rcases halt with h | h <;> omega
  -- a vertex off the line through the four
  have hoff : ∃ e, e < n ∧ orient (X a) (Y a) (X b) (Y b) (X e) (Y e) ≠ 0 := by
    obtain ⟨i, j, k, hi, hj, hk, hne⟩ := hnd
    by_contra hcon
    have hall : ∀ e, e < n → orient (X a) (Y a) (X b) (Y b) (X e) (Y e) = 0 := by
      intro e he
      by_contra h
      exact hcon ⟨e, he, h⟩
    have := orient_on_line (X a) (Y a) (X b) (Y b) (X i) (Y i) (X j) (Y j) (X k) (Y k)
      (hall i hi) (hall j hj)
    rw [hall k hk, mul_zero] at this
    exact hne ((mul_eq_zero.mp this).resolve_left huy)
  obtain ⟨e, hen, hw⟩ := hoff
  have hea : e ≠ a := fun h => hw (by rw [h]; exact hA)
  have heb : e ≠ b := fun h => hw (by rw [h]; exact hB)
  have hec : e ≠ c := fun h => hw (by rw [h]; exact hC)
  have hed : e ≠ d := fun h => hw (by rw [h]; exact hD)
  have eAB := orient_on_line (X a) (Y a) (X b) (Y b) (X a) (Y a) (X b) (Y b) (X e) (Y e) hA hB
  have eBC := orient_on_line (X a) (Y a) (X b) (Y b) (X b) (Y b) (X c) (Y c) (X e) (Y e) hB hC
  have eCD := orient_on_line (X a) (Y a) (X b) (Y b) (X c) (Y c) (X d) (Y d) (X e) (Y e) hC hD
  have eDA := orient_on_line (X a) (Y a) (X b) (Y b) (X d) (Y d) (X a) (Y a) (X e) (Y e) hD hA
  have dABC : (Y b - Y a) * (Y c - Y b) < 0 := by
    rcases halt with h | h
    · exact mul_neg_of_pos_of_neg (by omega) (by omega)
    · exact mul_neg_of_neg_of_pos (by omega) (by omega)
  have dBCD : (Y c - Y b) * (Y d - Y c) < 0 := by
    rcases halt with h | h
    · exact mul_neg_of_neg_of_pos (by omega) (by omega)
    · exact mul_neg_of_pos_of_neg (by omega) (by omega)
  have dCDA : (Y d - Y c) * (Y a - Y d) < 0 := by
    rcases halt with h | h
    · exact mul_neg_of_pos_of_neg (by omega) (by omega)
    · exact mul_neg_of_neg_of_pos (by omega) (by omega)
  rcases Nat.lt_or_ge e a with h1 | h1
  · -- e before a: the pairs (a, b) and (b, c)
    have t1 := hturn e a b h1 hab (by omega)
    have t2 := hturn e b c (by omega) hbc (by omega)
    rw [orient_rotate] at t1 t2
    exact opposite_pairs _ _ _ _ _ _ sign hs t1 t2 eAB eBC dABC hw
  · rcases Nat.lt_or_ge e b with h2 | h2
    · -- e between a and b: the pairs (b, c) and (c, d)
      have t1 := hturn e b c h2 hbc (by omega)
      have t2 := hturn e c d (by omega) hcd hdn
      rw [orient_rotate] at t1 t2
      exact opposite_pairs _ _ _ _ _ _ sign hs t1 t2 eBC eCD dBCD hw
    · rcases Nat.lt_or_ge e c with h3 | h3
      · -- e between b and c: the pairs (c, d) and (d, a)
        have t1 := hturn e c d h3 hcd hdn
        have t2 := hturn a e d (by omega) (by omega) hdn
        rw [orient_rotate] at t1
        rw [← orient_rotate] at t2
        exact opposite_pairs _ _ _ _ _ _ sign hs t1 t2 eCD eDA dCDA hw
      · -- e after c: the pairs (a, b) and (b, c)
        have t1 := hturn a b e hab (by omega) hen
        have t2 := hturn b c e hbc (by omega) hen
        exact opposite_pairs _ _ _ _ _ _ sign hs t1 t2 eAB eBC dABC hw

/-- The sort of `oledFilledPolygon` on two intercepts. -/
theorem sortNodes_pair (p q : Int) : sortNodes [p, q] = [min p q, max p q] := by
  unfold sortNodes
  simp only [List.length_cons, List.length_nil, List.range_succ, List.range_zero,
    List.nil_append, List.foldl_cons, List.foldl_nil]
  unfold swapIfGreater
  by_cases h : p > q
  · have h1 : min p q = q := min_eq_right (by omega)
    have h2 : max p q = p := max_eq_left (by omega)
    simp [h, h1, h2]
  · have h1 : min p q = p := min_eq_left (by omega)
    have h2 : max p q = q := max_eq_right (by omega)
    simp [h, h1, h2]

/-- Around a closed cycle on which "above the scanline" never alternates on
four vertices in order, the flag changes either never or twice. -/
theorem cycle_changes (Y : Nat → Int) (y : Int) (m : Nat)
    (hno : ∀ a b c d, a < b → b < c → c < d → d ≤ m →
      ((Y a < y ∧ y ≤ Y b ∧ Y c < y ∧ y ≤ Y d) ∨
        (Y b < y ∧ y ≤ Y a ∧ Y d < y ∧ y ≤ Y c)) → False) :
    ((List.range m).filter fun i => decide (Y i < y) != decide (Y (i + 1) < y)).length +
        (if (decide (Y m < y) != decide (Y 0 < y)) then 1 else 0) = 0 ∨
      ((List.range m).filter fun i => decide (Y i < y) != decide (Y (i + 1) < y)).length +
        (if (decide (Y m < y) != decide (Y 0 < y)) then 1 else 0) = 2 := by
  have hpar := changes_parity (fun i => decide (Y i < y)) m
  have h3 := changes_three (fun i => decide (Y i < y)) m
  beta_reduce at hpar h3
  have hle : ((List.range m).filter fun i =>
      decide (Y i < y) != decide (Y (i + 1) < y)).length ≤ 2 := by
    by_contra hgt
    obtain ⟨a, b, c, d, hab, hbc, hcd, hd, h1, h2, h3⟩ := h3 (by omega)
    apply hno a b c d hab hbc hcd hd
    by_cases ha : Y a < y <;> by_cases hb : Y b < y <;>
      by_cases hc : Y c < y <;> by_cases hd : Y d < y <;>
      simp only [ha, hb, hc, hd, decide_True, decide_False, ne_eq, not_true_eq_false,
        not_false_eq_true, reduceCtorEq] at h1 h2 h3 <;>
      first
        | (left; exact ⟨ha, by omega, hc, by omega⟩)
        | (right; exact ⟨hb, by omega, hd, by omega⟩)
  revert hpar hle
  generalize ((List.range m).filter fun i =>
      decide (Y i < y) != decide (Y (i + 1) < y)).length = t
  intro hpar hle
  by_cases h0 : Y 0 < y <;> by_cases hm : Y m < y <;>
    simp only [h0, hm, decide_True, decide_False, bne_self_eq_false, Bool.false_eq_true,
      if_false, if_true, true_iff, false_iff, Bool.true_bne, Bool.false_bne, Bool.not_true,
      Bool.not_false, reduceCtorEq] at hpar ⊢ <;> omega

/-- A convex polygon meets every scanline in no or two intercepts. -/
theorem convex_nodes_length (vx vy : List Int) (vertices : Nat)
    (h : ConvexPolygon vx vy vertices) (y : Int) :
    (polygonNodes vx vy vertices y).length = 0 ∨ (polygonNodes vx vy vertices y).length = 2 := by
  obtain ⟨hturn, i, hi, j, hj, k, hk, hne⟩ := h
  obtain ⟨m, rfl⟩ : ∃ m, vertices = m + 1 := ⟨vertices - 1, by omega⟩
  rw [polygonNodes_length]
  apply cycle_changes (fun i => vy.getD i 0) y m
  intro a b c d hab hbc hcd hd halt
  rcases hturn with ht | ht
  · exact no_alternation (fun i => vx.getD i 0) (fun i => vy.getD i 0) (m + 1) 1 (Or.inl rfl)
      (fun i j k hij hjk hk => ht i (by omega) j (by omega) k hk hij hjk)
      ⟨i, j, k, hi, hj, hk, hne⟩ y a b c d hab hbc hcd (by omega) halt
  · exact no_alternation (fun i => vx.getD i 0) (fun i => vy.getD i 0) (m + 1) (-1) (Or.inr rfl)
      (fun i j k hij hjk hk => ht i (by omega) j (by omega) k hk hij hjk)
      ⟨i, j, k, hi, hj, hk, hne⟩ y a b c d hab hbc hcd (by omega) halt

/-- C17: for every convex polygon whose vertices are listed in boundary order
and every scanline `y` (in particular every scanline between the smallest and
the largest vertex Y), `oledFilledPolygon` records either no X intercept, and
then requests no pixel on that row, or exactly two intercepts `p` and `q`, and
then requests exactly the pixels from the smaller to the larger of them: one
contiguous span. -/
theorem filledPolygon_convex_rows (vx vy : List Int) (vertices : Nat)
    (h : ConvexPolygon vx vy vertices) (y : Int) :
    (polygonNodes vx vy vertices y = [] ∧ polygonRowPixels vx vy vertices y = []) ∨
    ∃ p q : Int, polygonNodes vx vy vertices y = [p, q] ∧
      polygonRowPixels vx vy vertices y =
        (intRange (min p q) (max p q)).map fun x => (x, y) := by
  rcases convex_nodes_length vx vy vertices h y with h0 | h2
  · left
    have hn := List.length_eq_zero.mp h0
    refine ⟨hn, ?_⟩
    unfold polygonRowPixels
    rw [hn]
    rfl
  · right
    obtain ⟨p, q, hpq⟩ := List.length_eq_two.mp h2
    refine ⟨p, q, hpq, ?_⟩
    unfold polygonRowPixels
    rw [hpq, sortNodes_pair]
    simp [spanPixels]

/-- Witness for C17: the pentagon drawn by the sample program, on scanline 40. -/
theorem filledPolygon_convex_rows_witness :
    ConvexPolygon [64, 90, 76, 52, 38] [10, 30, 55, 55, 30] 5 ∧
    ((polygonNodes [64, 90, 76, 52, 38] [10, 30, 55, 55, 30] 5 40 = [] ∧
        polygonRowPixels [64, 90, 76, 52, 38] [10, 30, 55, 55, 30] 5 40 = []) ∨
      ∃ p q : Int, polygonNodes [64, 90, 76, 52, 38] [10, 30, 55, 55, 30] 5 40 = [p, q] ∧
        polygonRowPixels [64, 90, 76, 52, 38] [10, 30, 55, 55, 30] 5 40 =
          (intRange (min p q) (max p q)).map fun x => (x, 40)) :=
  ⟨by decide,
    filledPolygon_convex_rows [64, 90, 76, 52, 38] [10, 30, 55, 55, 30] 5 (by decide) 40⟩

/-- The two intercepts of the sample pentagon on scanline 40. -/
theorem polygonNodes_sample :
    polygonNodes [64, 90, 76, 52, 38] [10, 30, 55, 55, 30] 5 40 = [85, 44] := by
  decide

/-! ## Rectangle outline -/

theorem mem_upTo (n v : Int) : v ∈ upTo n ↔ 0 ≤ v ∧ v < n := by
  unfold upTo
  simp only [List.mem_map, List.mem_range]
  constructor
  · rintro ⟨k, hk, rfl⟩
    omega
  · rintro ⟨h1, h2⟩
    exact ⟨v.toNat, by omega, by omega⟩

theorem mem_hLinePixels (x y length : Int) (p : Int × Int) :
    p ∈ hLinePixels x y length ↔ x ≤ p.1 ∧ p.1 < x + length ∧ p.2 = y := by
  unfold hLinePixels
  simp only [List.mem_map, mem_upTo]
  constructor
  · rintro ⟨i, ⟨h0, h1⟩, rfl⟩
    exact ⟨by dsimp only; omega, by dsimp only; omega, rfl⟩
  · rintro ⟨h0, h1, h2⟩
    exact ⟨p.1 - x, ⟨by omega, by omega⟩, by
      apply Prod.ext
      · dsimp only; omega
      · exact h2.symm⟩

theorem mem_vLinePixels (x y length : Int) (p : Int × Int) :
    p ∈ vLinePixels x y length ↔ p.1 = x ∧ y ≤ p.2 ∧ p.2 < y + length := by
  unfold vLinePixels
  simp only [List.mem_map, mem_upTo]
  constructor
  · rintro ⟨i, ⟨h0, h1⟩, rfl⟩
    exact ⟨rfl, by dsimp only; omega, by dsimp only; omega⟩
  · rintro ⟨h0, h1, h2⟩
    exact ⟨p.2 - y, ⟨by omega, by omega⟩, by
      apply Prod.ext
      · exact h0.symm
      · dsimp only; omega⟩

theorem mem_filledRectanglePixels (x y width height : Int) (p : Int × Int) :
    p ∈ filledRectanglePixels x y width height ↔
      x ≤ p.1 ∧ p.1 < x + width ∧ y ≤ p.2 ∧ p.2 < y + height := by
  unfold filledRectanglePixels
  simp only [List.mem_flatMap, List.mem_map, mem_upTo]
  constructor
  · rintro ⟨i, ⟨hi0, hi1⟩, j, ⟨hj0, hj1⟩, rfl⟩
    dsimp only
    omega
  · rintro ⟨h0, h1, h2, h3⟩
    exact ⟨p.1 - x, ⟨by omega, by omega⟩, p.2 - y, ⟨by omega, by omega⟩, by
      apply Prod.ext <;> dsimp only <;> omega⟩

/-- C21: for width ≥ 1 and height ≥ 1, `oledRectangle` plots, and returns 0
after plotting, exactly the border of the box
[x, x + width - 1] x [y, y + height - 1]: the pixels of the box on its first or
last row or on its first or last column.  `oledFilledRectangle` plots exactly
the pixels of the box, so every pixel of the outline is one of the filled
rectangle for the same arguments. -/
theorem oledRectangle_border (s : State) (x y width height : Int) (ucColor : Nat)
    (hw : 1 ≤ width) (hh : 1 ≤ height) :
    oledRectangle s x y width height ucColor =
      (0, plot s (rectanglePixels x y width height) ucColor) ∧
    oledFilledRectangle s x y width height ucColor =
      (0, plot s (filledRectanglePixels x y width height) ucColor) ∧
    (∀ p : Int × Int, p ∈ rectanglePixels x y width height ↔
      (x ≤ p.1 ∧ p.1 ≤ x + width - 1 ∧ y ≤ p.2 ∧ p.2 ≤ y + height - 1) ∧
        (p.2 = y ∨ p.2 = y + height - 1 ∨ p.1 = x ∨ p.1 = x + width - 1)) ∧
    (∀ p : Int × Int, p ∈ filledRectanglePixels x y width height ↔
      x ≤ p.1 ∧ p.1 ≤ x + width - 1 ∧ y ≤ p.2 ∧ p.2 ≤ y + height - 1) ∧
    (∀ p : Int × Int, p ∈ rectanglePixels x y width height →
      p ∈ filledRectanglePixels x y width height) := by
  have hborder : ∀ p : Int × Int, p ∈ rectanglePixels x y width height ↔
      (x ≤ p.1 ∧ p.1 ≤ x + width - 1 ∧ y ≤ p.2 ∧ p.2 ≤ y + height - 1) ∧
        (p.2 = y ∨ p.2 = y + height - 1 ∨ p.1 = x ∨ p.1 = x + width - 1) := by
    intro p
    unfold rectanglePixels
    simp only [List.mem_append, mem_hLinePixels, mem_vLinePixels]
    omega
  have hfilled : ∀ p : Int × Int, p ∈ filledRectanglePixels x y width height ↔
      x ≤ p.1 ∧ p.1 ≤ x + width - 1 ∧ y ≤ p.2 ∧ p.2 ≤ y + height - 1 := by
    intro p
    rw [mem_filledRectanglePixels]
    omega
  refine ⟨rfl, rfl, hborder, hfilled, ?_⟩
  intro p hp
  exact (hfilled p).mpr ((hborder p).mp hp).1

/-- Witness for C21: the 4 by 3 rectangle at (2, 1); its corner (5, 3) is on the
outline, its inner pixel (3, 2) is not. -/
theorem oledRectangle_border_witness :
    ((5 : Int), (3 : Int)) ∈ rectanglePixels 2 1 4 3 ∧
    ((3 : Int), (2 : Int)) ∉ rectanglePixels 2 1 4 3 ∧
    ((3 : Int), (2 : Int)) ∈ filledRectanglePixels 2 1 4 3 :=
  ⟨((oledRectangle_border State.boot 2 1 4 3 1 (by decide) (by decide)).2.2.1 (5, 3)).mpr
      (by decide),
    by decide, by decide⟩

/-! ## Parity of the scanline crossings -/

/-- Around a closed cycle the flag "above the scanline" changes an even number
of times. -/
theorem cycle_even (Y : Nat → Int) (y : Int) (m : Nat) :
    (((List.range m).filter fun i => decide (Y i < y) != decide (Y (i + 1) < y)).length +
        (if (decide (Y m < y) != decide (Y 0 < y)) then 1 else 0)) % 2 = 0 := by
  have hpar := changes_parity (fun i => decide (Y i < y)) m
  beta_reduce at hpar
  revert hpar
  generalize ((List.range m).filter fun i =>
      decide (Y i < y) != decide (Y (i + 1) < y)).length = t
  intro hpar
  by_cases h0 : Y 0 < y <;> by_cases hm : Y m < y <;>
    simp only [h0, hm, decide_True, decide_False, bne_self_eq_false, Bool.false_eq_true,
      if_false, if_true, true_iff, false_iff, Bool.true_bne, Bool.false_bne, Bool.not_true,
      Bool.not_false, reduceCtorEq] at hpar ⊢ <;> omega

/-- The number of intercepts `oledFilledPolygon` records on a scanline is even. -/
theorem polygonNodes_even (vx vy : List Int) (vertices : Nat) (y : Int) :
    (polygonNodes vx vy vertices y).length % 2 = 0 := by
  cases vertices with
  | zero => rfl
  | succ m =>
    rw [polygonNodes_length]
    exact cycle_even (fun i => vy.getD i 0) y m

theorem foldl_min_le (g : Nat → Int) (l : List Nat) (init : Int) :
    l.foldl (fun m i => if g i < m then g i else m) init ≤ init ∧
      ∀ i ∈ l, l.foldl (fun m i => if g i < m then g i else m) init ≤ g i := by
  induction l generalizing init with
  | nil => exact ⟨le_refl _, fun i hi => absurd hi (List.not_mem_nil _)⟩
  | cons a rest ih =>
    rw [List.foldl_cons]
    obtain ⟨h1, h2⟩ := ih (if g a < init then g a else init)
    refine ⟨?_, ?_⟩
    · split_ifs at h1 ⊢ <;> omega
    · intro i hi
      rcases List.mem_cons.mp hi with rfl | hi
      · split_ifs at h1 ⊢ <;> omega
      · exact h2 i hi

/-- The first loop of `oledFilledPolygon` leaves in `minY` a value no vertex is
above. -/
theorem polygonMinY_le (vy : List Int) (vertices : Nat) (i : Nat) (hi : i < vertices) :
    polygonMinY vy vertices ≤ vy.getD i 0 := by
  unfold polygonMinY
  obtain ⟨h1, h2⟩ := foldl_min_le (fun i => vy.getD i 0) (List.range vertices).tail (vy.getD 0 0)
  rcases Nat.eq_zero_or_pos i with rfl | hpos
  · exact h1
  · apply h2
    obtain ⟨m, rfl⟩ : ∃ m, vertices = m + 1 := ⟨vertices - 1, by omega⟩
    rw [List.range_succ_eq_map, List.tail_cons, List.mem_map]
    exact ⟨i - 1, List.mem_range.mpr (by omega), by omega⟩

/-- On the row of the smallest vertex Y no edge passes the crossing test. -/
theorem polygonNodes_minY (vx vy : List Int) (vertices : Nat) :
    polygonNodes vx vy vertices (polygonMinY vy vertices) = [] := by
  unfold polygonNodes
  rw [List.map_eq_nil_iff, List.filter_eq_nil_iff]
  intro i hi
  rw [List.mem_range] at hi
  have h1 := polygonMinY_le vy vertices i hi
  have h2 := polygonMinY_le vy vertices ((i + 1) % vertices) (Nat.mod_lt _ (by omega))
  rw [edgeCrosses_eq]
  have e1 : decide (vy.getD i 0 < polygonMinY vy vertices) = false :=
    decide_eq_false (by omega)
  have e2 : decide (vy.getD ((i + 1) % vertices) 0 < polygonMinY vy vertices) = false :=
    decide_eq_false (by omega)
  rw [e1, e2]
  decide

/-- The span loop of `oledFilledPolygon` on a row with an even number of
intercepts uses every one of them: it requests a span for each of the
`length / 2` pairs and meets no unmatched last value. -/
theorem spanPixels_pairs (y : Int) : ∀ l : List Int, l.length % 2 = 0 →
    ∃ pairs : List (Int × Int), pairs.length * 2 = l.length ∧
      l = pairs.flatMap (fun ab => [ab.1, ab.2]) ∧
      spanPixels y l = pairs.flatMap fun ab => (intRange ab.1 ab.2).map fun x => (x, y)
  | [], _ => ⟨[], rfl, rfl, rfl⟩
  | [_], h => by simp at h
  | a :: b :: rest, h => by
    obtain ⟨pairs, h1, h2, h3⟩ := spanPixels_pairs y rest (by
      simp only [List.length_cons] at h
      omega)
    refine ⟨(a, b) :: pairs, ?_, ?_, ?_⟩
    · simp only [List.length_cons]
      omega
    · rw [List.flatMap_cons, ← h2]
      rfl
    · rw [List.flatMap_cons, ← h3]
      rfl

theorem foldl_invariant {α β : Type} (P : α → Prop) (f : α → β → α) (l : List β) (a : α)
    (h0 : P a) (hstep : ∀ a b, b ∈ l → P a → P (f a b)) : P (l.foldl f a) := by
  induction l generalizing a with
  | nil => exact h0
  | cons b rest ih =>
    rw [List.foldl_cons]
    exact ih (f a b) (hstep a b (List.mem_cons_self _ _) h0)
      (fun a c hc => hstep a c (List.mem_cons_of_mem _ hc))

/-- One comparison of the sort keeps the number of entries, and every entry
it leaves is one it found. -/
theorem swapIfGreater_keeps (l : List Int) (i j : Nat) (hi : i < l.length) (hj : j < l.length) :
    (swapIfGreater l i j).length = l.length ∧ ∀ v ∈ swapIfGreater l i j, v ∈ l := by
  unfold swapIfGreater
  split_ifs
  · refine ⟨by simp, ?_⟩
    intro v hv
    have hgi : l.getD i 0 ∈ l := by
      rw [List.getD_eq_getElem _ _ hi]; exact List.getElem_mem _
    have hgj : l.getD j 0 ∈ l := by
      rw [List.getD_eq_getElem _ _ hj]; exact List.getElem_mem _
    rcases List.mem_or_eq_of_mem_set hv with h | h
    · rcases List.mem_or_eq_of_mem_set h with h | h
      · exact h
      · rw [h]; exact hgj
    · rw [h]; exact hgi
  · exact ⟨rfl, fun v hv => hv⟩

/-- The sort of `oledFilledPolygon` keeps the number of intercepts, and every
value it leaves is a recorded intercept. -/
theorem sortNodes_keeps (l : List Int) :
    (sortNodes l).length = l.length ∧ ∀ v ∈ sortNodes l, v ∈ l := by
  unfold sortNodes
  apply foldl_invariant (fun acc : List Int => acc.length = l.length ∧ ∀ v ∈ acc, v ∈ l)
  · exact ⟨rfl, fun v hv => hv⟩
  · intro acc i hi hacc
    rw [List.mem_range] at hi
    apply foldl_invariant (fun a : List Int => a.length = l.length ∧ ∀ v ∈ a, v ∈ l)
    · exact hacc
    · intro a k hk ha
      rw [List.mem_range] at hk
      obtain ⟨hlen, hmem⟩ := swapIfGreater_keeps a i (i + 1 + k) (by omega) (by omega)
      exact ⟨hlen.trans ha.1, fun v hv => ha.2 v (hmem v hv)⟩

/-- C22: for every vertex list and every scanline, the number of edges that
pass the crossing test of `oledFilledPolygon`, which is the number of
intercepts it records, is even.  Hence the sorted intercepts split into pairs
and the span loop requests one span per pair, meeting no unmatched last value;
and on the row of the smallest vertex Y no intercept is recorded and no pixel
requested. -/
theorem polygon_crossings_even (vx vy : List Int) (vertices : Nat) :
    (∀ y : Int, ((List.range vertices).filter fun i =>
      edgeCrosses (vy.getD i 0) (vy.getD ((i + 1) % vertices) 0) y).length % 2 = 0) ∧
    (∀ y : Int, (polygonNodes vx vy vertices y).length % 2 = 0) ∧
    (∀ y : Int, ∃ pairs : List (Int × Int),
      pairs.length * 2 = (polygonNodes vx vy vertices y).length ∧
      sortNodes (polygonNodes vx vy vertices y) = pairs.flatMap (fun ab => [ab.1, ab.2]) ∧
      polygonRowPixels vx vy vertices y =
        pairs.flatMap fun ab => (intRange ab.1 ab.2).map fun x => (x, y)) ∧
    polygonNodes vx vy vertices (polygonMinY vy vertices) = [] ∧
    polygonRowPixels vx vy vertices (polygonMinY vy vertices) = [] := by
  refine ⟨?_, polygonNodes_even vx vy vertices, ?_, polygonNodes_minY vx vy vertices, ?_⟩
  · intro y
    have h := polygonNodes_even vx vy vertices y
    unfold polygonNodes at h
    rw [List.length_map] at h
    exact h
  · intro y
    have hlen := (sortNodes_keeps (polygonNodes vx vy vertices y)).1
    obtain ⟨pairs, h1, h2, h3⟩ := spanPixels_pairs y (sortNodes (polygonNodes vx vy vertices y))
      (by rw [hlen]; exact polygonNodes_even vx vy vertices y)
    exact ⟨pairs, by rw [h1, hlen], h2, h3⟩
  · unfold polygonRowPixels
    rw [polygonNodes_minY]
    rfl

/-! ## Intercepts of the scanline fill -/

theorem tdiv_scale (n d w : Int) (hn : 0 ≤ n) (hnd : n ≤ d) (hd : 0 < d) (hw : 0 ≤ w) :
    0 ≤ Int.tdiv (n * w) d ∧ Int.tdiv (n * w) d ≤ w := by
  rw [Int.tdiv_eq_ediv (mul_nonneg hn hw) hd.le]
  refine ⟨Int.ediv_nonneg (mul_nonneg hn hw) hd.le, ?_⟩
  apply Int.ediv_le_of_le_mul hd
  rw [mul_comm n w]
  exact mul_le_mul_of_nonneg_left hnd hw

/-- The truncated quotient `n * w / d` for a fraction `n / d` between 0 and 1
lies between 0 and `w`, whatever the signs. -/
theorem tdiv_fraction (n d w : Int)
    (h : (0 ≤ n ∧ n ≤ d ∧ 0 < d) ∨ (n ≤ 0 ∧ d ≤ n ∧ d < 0)) :
    (0 ≤ w → 0 ≤ Int.tdiv (n * w) d ∧ Int.tdiv (n * w) d ≤ w) ∧
    (w ≤ 0 → w ≤ Int.tdiv (n * w) d ∧ Int.tdiv (n * w) d ≤ 0) := by
  have key : ∀ n d w : Int, 0 ≤ n → n ≤ d → 0 < d →
      (0 ≤ w → 0 ≤ Int.tdiv (n * w) d ∧ Int.tdiv (n * w) d ≤ w) ∧
      (w ≤ 0 → w ≤ Int.tdiv (n * w) d ∧ Int.tdiv (n * w) d ≤ 0) := by
    intro n d w hn hnd hd
    refine ⟨tdiv_scale n d w hn hnd hd, ?_⟩
    intro hw
    have h := tdiv_scale n d (-w) hn hnd hd (by omega)
    rw [mul_neg, Int.neg_tdiv] at h
    omega
  rcases h with ⟨hn, hnd, hd⟩ | ⟨hn, hnd, hd⟩
  · exact key n d w hn hnd hd
  · have h := key (-n) (-d) w (by omega) (by omega) (by omega)
    rw [neg_mul, Int.neg_tdiv_neg] at h
    exact h

/-- An intercept computed for an edge that passes the crossing test lies
between the X values of the two ends of the edge. -/
theorem intercept_between (xi yi xj yj y : Int) (h : edgeCrosses yi yj y = true) :
    yj - yi ≠ 0 ∧
    min xi xj ≤ xi + Int.tdiv ((y - yi) * (xj - xi)) (yj - yi) ∧
    xi + Int.tdiv ((y - yi) * (xj - xi)) (yj - yi) ≤ max xi xj := by
  unfold edgeCrosses at h
  rw [decide_eq_true_eq] at h
  have hfrac : (0 ≤ y - yi ∧ y - yi ≤ yj - yi ∧ 0 < yj - yi) ∨
      (y - yi ≤ 0 ∧ yj - yi ≤ y - yi ∧ yj - yi < 0) := by omega
  obtain ⟨hpos, hneg⟩ := tdiv_fraction (y - yi) (yj - yi) (xj - xi) hfrac
  refine ⟨by omega, ?_, ?_⟩
  · rcases le_total 0 (xj - xi) with hw | hw
    · have := hpos hw
      have : min xi xj = xi := min_eq_left (by omega)
      omega
    · have := hneg hw
      have : min xi xj = xj := min_eq_right (by omega)
      omega
  · rcases le_total 0 (xj - xi) with hw | hw
    · have := hpos hw
      have : max xi xj = xj := max_eq_right (by omega)
      omega
    · have := hneg hw
      have : max xi xj = xi := max_eq_left (by omega)
      omega

/-- Every pixel of the span loop lies on the row, between two of the values
the loop was given. -/
theorem mem_spanPixels (y : Int) (p : Int × Int) : ∀ l : List Int, p ∈ spanPixels y l →
    p.2 = y ∧ ∃ a ∈ l, ∃ b ∈ l, a ≤ p.1 ∧ p.1 ≤ b
  | [], h => by simp [spanPixels] at h
  | [_], h => by simp [spanPixels] at h
  | a :: b :: rest, h => by
    rw [spanPixels, List.mem_append] at h
    rcases h with h | h
    · rw [List.mem_map] at h
      obtain ⟨x, hx, rfl⟩ := h
      rw [mem_intRange] at hx
      exact ⟨rfl, a, List.mem_cons_self _ _, b,
        List.mem_cons_of_mem _ (List.mem_cons_self _ _), hx.1, hx.2⟩
    · obtain ⟨h1, c, hc, d, hd, h2⟩ := mem_spanPixels y p rest h
      exact ⟨h1, c, List.mem_cons_of_mem _ (List.mem_cons_of_mem _ hc), d,
        List.mem_cons_of_mem _ (List.mem_cons_of_mem _ hd), h2⟩

/-- Every recorded intercept lies between the X values of two vertices, on a
scanline between the Y values of two vertices. -/
theorem polygonNodes_bounds (vx vy : List Int) (vertices : Nat) (y v : Int)
    (hv : v ∈ polygonNodes vx vy vertices y) :
    ∃ i j k l, i < vertices ∧ j < vertices ∧ k < vertices ∧ l < vertices ∧
      vx.getD i 0 ≤ v ∧ v ≤ vx.getD j 0 ∧ vy.getD k 0 ≤ y ∧ y ≤ vy.getD l 0 := by
  unfold polygonNodes at hv
  rw [List.mem_map] at hv
  obtain ⟨i, hi, rfl⟩ := hv
  rw [List.mem_filter, List.mem_range] at hi
  obtain ⟨hin, hcross⟩ := hi
  have hjn : (i + 1) % vertices < vertices := Nat.mod_lt _ (by omega)
  obtain ⟨_, hlo, hhi⟩ := intercept_between (vx.getD i 0) (vy.getD i 0)
    (vx.getD ((i + 1) % vertices) 0) (vy.getD ((i + 1) % vertices) 0) y hcross
  unfold edgeCrosses at hcross
  rw [decide_eq_true_eq] at hcross
  have hx1 : ∃ a, a < vertices ∧ vx.getD a 0 ≤ vx.getD i 0 +
      Int.tdiv ((y - vy.getD i 0) * (vx.getD ((i + 1) % vertices) 0 - vx.getD i 0))
        (vy.getD ((i + 1) % vertices) 0 - vy.getD i 0) := by
    rcases le_total (vx.getD i 0) (vx.getD ((i + 1) % vertices) 0) with h | h
    · exact ⟨i, hin, by rw [min_eq_left h] at hlo; exact hlo⟩
    · exact ⟨(i + 1) % vertices, hjn, by rw [min_eq_right h] at hlo; exact hlo⟩
  have hx2 : ∃ b, b < vertices ∧ vx.getD i 0 +
      Int.tdiv ((y - vy.getD i 0) * (vx.getD ((i + 1) % vertices) 0 - vx.getD i 0))
        (vy.getD ((i + 1) % vertices) 0 - vy.getD i 0) ≤ vx.getD b 0 := by
    rcases le_total (vx.getD i 0) (vx.getD ((i + 1) % vertices) 0) with h | h
    · exact ⟨(i + 1) % vertices, hjn, by rw [max_eq_right h] at hhi; exact hhi⟩
    · exact ⟨i, hin, by rw [max_eq_left h] at hhi; exact hhi⟩
  obtain ⟨a, ha, hxa⟩ := hx1
  obtain ⟨b, hb, hxb⟩ := hx2
  rcases hcross with ⟨h1, h2⟩ | ⟨h1, h2⟩
  · exact ⟨a, b, i, (i + 1) % vertices, ha, hb, hin, hjn, hxa, hxb, by omega, by omega⟩
  · exact ⟨a, b, (i + 1) % vertices, i, ha, hb, hjn, hin, hxa, hxb, by omega, by omega⟩

/-- A multiple `n * w` with `n` between 0 and `d` lies between 0 and `d * w`. -/
theorem product_between (n d w : Int) (h : 0 ≤ n ∧ n ≤ d ∨ d ≤ n ∧ n ≤ 0) :
    (0 ≤ n * w ∧ n * w ≤ d * w) ∨ (d * w ≤ n * w ∧ n * w ≤ 0) := by
  rcases le_total 0 w with hw | hw
  · rcases h with ⟨h1, h2⟩ | ⟨h1, h2⟩
    · exact Or.inl ⟨mul_nonneg h1 hw, mul_le_mul_of_nonneg_right h2 hw⟩
    · exact Or.inr ⟨mul_le_mul_of_nonneg_right h1 hw, mul_nonpos_of_nonpos_of_nonneg h2 hw⟩
  · rcases h with ⟨h1, h2⟩ | ⟨h1, h2⟩
    · exact Or.inr ⟨mul_le_mul_of_nonpos_right h2 hw, mul_nonpos_of_nonneg_of_nonpos h1 hw⟩
    · exact Or.inl ⟨mul_nonneg_of_nonpos_of_nonpos h2 hw, mul_le_mul_of_nonpos_right h1 hw⟩

/-- C23: in `oledFilledPolygon`, for every list of vertices with coordinates
within ±(2^30 - 1) whose edges have an `int` product (yj - yi) * (xj - xi) (so
that no `int` operation of the function overflows), and every scanline: an
edge that passes the crossing test has a non-zero divisor `yj - yi`, the
differences and the product `(y - yi) * (xj - xi)` of its intercept are `int`
values, and its intercept `xi + (y - yi) * (xj - xi) / (yj - yi)` (truncating
division) lies between min(xi, xj) and max(xi, xj); at most `vertices`
intercepts are recorded on a scanline; and every pixel requested lies inside
the bounding box of the vertices. -/
theorem filledPolygon_intercepts (vx vy : List Int) (vertices : Nat)
    (hc : ∀ i, i < vertices →
      (-1073741823 ≤ vx.getD i 0 ∧ vx.getD i 0 ≤ 1073741823) ∧
      (-1073741823 ≤ vy.getD i 0 ∧ vy.getD i 0 ≤ 1073741823))
    (hp : ∀ i, i < vertices →
      fitsInt ((vy.getD ((i + 1) % vertices) 0 - vy.getD i 0) *
        (vx.getD ((i + 1) % vertices) 0 - vx.getD i 0))) :
    (∀ (y : Int) (i : Nat), i < vertices →
      edgeCrosses (vy.getD i 0) (vy.getD ((i + 1) % vertices) 0) y = true →
        vy.getD ((i + 1) % vertices) 0 - vy.getD i 0 ≠ 0 ∧
        fitsInt (vy.getD ((i + 1) % vertices) 0 - vy.getD i 0) ∧
        fitsInt (y - vy.getD i 0) ∧
        fitsInt (vx.getD ((i + 1) % vertices) 0 - vx.getD i 0) ∧
        fitsInt ((y - vy.getD i 0) * (vx.getD ((i + 1) % vertices) 0 - vx.getD i 0)) ∧
        min (vx.getD i 0) (vx.getD ((i + 1) % vertices) 0) ≤ vx.getD i 0 +
          Int.tdiv ((y - vy.getD i 0) * (vx.getD ((i + 1) % vertices) 0 - vx.getD i 0))
            (vy.getD ((i + 1) % vertices) 0 - vy.getD i 0) ∧
        vx.getD i 0 +
          Int.tdiv ((y - vy.getD i 0) * (vx.getD ((i + 1) % vertices) 0 - vx.getD i 0))
            (vy.getD ((i + 1) % vertices) 0 - vy.getD i 0) ≤
          max (vx.getD i 0) (vx.getD ((i + 1) % vertices) 0)) ∧
    (∀ y : Int, (polygonNodes vx vy vertices y).length ≤ vertices) ∧
    (∀ p : Int × Int, p ∈ filledPolygonPixels vx vy vertices →
      ∃ i j k l, i < vertices ∧ j < vertices ∧ k < vertices ∧ l < vertices ∧
        vx.getD i 0 ≤ p.1 ∧ p.1 ≤ vx.getD j 0 ∧ vy.getD k 0 ≤ p.2 ∧ p.2 ≤ vy.getD l 0) := by
  refine ⟨?_, ?_, ?_⟩
  · intro y i hi hcross
    have hj : (i + 1) % vertices < vertices := Nat.mod_lt _ (by omega)
    obtain ⟨hne, hlo, hhi⟩ := intercept_between (vx.getD i 0) (vy.getD i 0)
      (vx.getD ((i + 1) % vertices) 0) (vy.getD ((i + 1) % vertices) 0) y hcross
    have hci := hc i hi
    have hcj := hc ((i + 1) % vertices) hj
    have hpi := hp i hi
    unfold edgeCrosses at hcross
    rw [decide_eq_true_eq] at hcross
    have hbet := product_between (y - vy.getD i 0)
      (vy.getD ((i + 1) % vertices) 0 - vy.getD i 0)
      (vx.getD ((i + 1) % vertices) 0 - vx.getD i 0) (by omega)
    unfold fitsInt at hpi ⊢
    refine ⟨hne, ⟨by omega, by omega⟩, ⟨by omega, by omega⟩, ⟨by omega, by omega⟩,
      ⟨?_, ?_⟩, hlo, hhi⟩
    · rcases hbet with h | h <;> omega
    · rcases hbet with h | h <;> omega
  · intro y
    unfold polygonNodes
    rw [List.length_map]
    calc ((List.range vertices).filter _).length ≤ (List.range vertices).length :=
          List.length_filter_le _ _
      _ = vertices := List.length_range _
  · intro p hp
    unfold filledPolygonPixels at hp
    rw [List.mem_flatMap] at hp
    obtain ⟨y, _, hrow⟩ := hp
    unfold polygonRowPixels at hrow
    obtain ⟨hy, a, ha, b, hb, hab⟩ := mem_spanPixels y p _ hrow
    have hmem := (sortNodes_keeps (polygonNodes vx vy vertices y)).2
    obtain ⟨i, _, k, l, hi, _, hk, hl, hxi, _, hyk, hyl⟩ :=
      polygonNodes_bounds vx vy vertices y a (hmem a ha)
    obtain ⟨_, j, _, _, _, hj, _, _, _, hxj, _, _⟩ :=
      polygonNodes_bounds vx vy vertices y b (hmem b hb)
    exact ⟨i, j, k, l, hi, hj, hk, hl, by omega, by omega, by omega, by omega⟩

/-- Witness for C23: the edge from (90, 30) to (76, 55) of the sample pentagon
on scanline 40 has intercept 85. -/
theorem filledPolygon_intercepts_witness :
    (55 : Int) - 30 ≠ 0 ∧ min (90 : Int) 76 ≤ 90 + Int.tdiv ((40 - 30) * (76 - 90)) (55 - 30) ∧
      90 + Int.tdiv ((40 - 30) * (76 - 90)) (55 - 30) ≤ max (90 : Int) 76 :=
  have h := (filledPolygon_intercepts [64, 90, 76, 52, 38] [10, 30, 55, 55, 30] 5
    (by decide) (by decide)).1 40 1 (by decide) (by decide)
  ⟨h.1, h.2.2.2.2.2.1, h.2.2.2.2.2.2⟩

/-! ## Ellipse outline -/

/-- The filled ellipse with the radii 7 and 1 does reach (xc + rx, yc) and
(xc - rx, yc), which the outline with the same radii misses. -/
theorem filledEllipse_reaches_extremes :
    ((71 : Int), (32 : Int)) ∈ filledEllipsePixels 64 32 7 1 ∧
    ((57 : Int), (32 : Int)) ∈ filledEllipsePixels 64 32 7 1 := by
  decide

/-- The two ellipses of the sample program reach all four axis extremes. -/
theorem oledEllipse_sample_extremes :
    (ellipsePixels 64 96 32 30 15).map (fun l =>
      (decide (((96 : Int), (47 : Int)) ∈ l), decide (((96 : Int), (17 : Int)) ∈ l),
        decide (((126 : Int), (32 : Int)) ∈ l), decide (((66 : Int), (32 : Int)) ∈ l))) =
      some (true, true, true, true) ∧
    (ellipsePixels 64 96 32 15 30).map (fun l =>
      (decide (((96 : Int), (62 : Int)) ∈ l), decide (((96 : Int), (2 : Int)) ∈ l),
        decide (((111 : Int), (32 : Int)) ∈ l), decide (((81 : Int), (32 : Int)) ∈ l))) =
      some (true, true, true, true) := by
  decide

end Shapes96
